import Mathlib

/-!
# KD-tree construction and orthogonal range query

A shallow embedding of `kd_tree.hpp` (boxes, `distance`, the selection step,
the work-stack builder `KD_tree`) and of `Window::calc_range_query_result`
from `window.cpp`, followed by theorems about them.

Modelling conventions.

* `double` coordinates are elements of a linearly ordered field `α`
  (exact arithmetic); the definitions are computable and are evaluated at `ℚ`,
  the theorems about `distance` itself are stated at `ℝ`.
* `Point<DIM>` (declared in the external header `geometric_objects.hpp`) is a
  tuple `x : Fin DIM → α`; `p.x[i]` with an `int` index is the total accessor
  `Point.get`, whose out-of-range branch returns `0`.
* A `std::shared_ptr<Box_node>` is the position of the node in the tree, a
  path from the root (`false` = `left_child`, `true` = `right_child`); the
  `parent` pointer of a node is the path without its last step.
* `int` values are natural numbers (the builder never forms a negative one as
  long as every task has `ptlo ≤ pthi`); overflow of `int` is not modelled.
-/

namespace KdTree

/-! ## Geometry primitives -/

/-- Tuple of `DIM` coordinates, the `Point<DIM>` of the external geometry header. -/
structure Point (α : Type) (DIM : Nat) where
  x : Fin DIM → α

/-- Read `p.x[i]`; an index outside `0..DIM-1` reads `0`. -/
def Point.get {α : Type} [Zero α] {DIM : Nat} (p : Point α DIM) (i : Nat) : α :=
  if h : i < DIM then p.x ⟨i, h⟩ else 0

/-- Assign `p.x[i] = v`; an index outside `0..DIM-1` changes nothing. -/
def Point.set {α : Type} {DIM : Nat} (p : Point α DIM) (i : Nat) (v : α) : Point α DIM :=
  ⟨fun j => if j.val = i then v else p.x j⟩

/-- Value-initialised point `Point<DIM>{}`. -/
def Point.zero {α : Type} [Zero α] {DIM : Nat} : Point α DIM := ⟨fun _ => 0⟩

/-- Two-dimensional point `Point<2>{ a, b }`. -/
def Point.mk2 {α : Type} (a b : α) : Point α 2 := ⟨fun j => if j.val = 0 then a else b⟩

/-- Axis-aligned box `Box<DIM>`. -/
structure Box (α : Type) (DIM : Nat) where
  lo : Point α DIM
  hi : Point α DIM

variable {α : Type} [LinearOrderedField α] {DIM : Nat}

/-- One iteration of the loop of `distance`: the two conditional additions to `d`. -/
def distance_step (box : Box α DIM) (point : Point α DIM) (d : α) (i : Nat) : α :=
  let d1 := if point.get i < box.lo.get i
    then d + (box.lo.get i - point.get i) * (box.lo.get i - point.get i) else d
  if point.get i > box.hi.get i
    then d1 + (point.get i - box.hi.get i) * (point.get i - box.hi.get i) else d1

/-- Value of the accumulator `d` of `distance` when the loop over `i < DIM`
has finished, before the square root is taken. -/
def distance_sq (box : Box α DIM) (point : Point α DIM) : α :=
  (List.range DIM).foldl (distance_step box point) 0

/-- Result of `distance(box, point)`, the square root of the accumulated sum. -/
noncomputable def distance (box : Box ℝ DIM) (point : Point ℝ DIM) : ℝ :=
  Real.sqrt (distance_sq box point)

/-- Test `!distance(box, point)` as a computable predicate: the square root of the
accumulated sum is zero exactly when the sum is (see `distance_eq_zero_iff_sq`). -/
def distance_is_zero (box : Box α DIM) (point : Point α DIM) : Bool :=
  decide (distance_sq box point = 0)

/-- Closed-box membership: `lo[d] ≤ p[d] ≤ hi[d]` in every dimension. -/
def Box.Contains (box : Box α DIM) (p : Point α DIM) : Prop :=
  ∀ d, d < DIM → box.lo.get d ≤ p.get d ∧ p.get d ≤ box.hi.get d

/-- Well-formed box: `lo[d] ≤ hi[d]` in every dimension. -/
def Box.WellFormed (box : Box α DIM) : Prop :=
  ∀ d, d < DIM → box.lo.get d ≤ box.hi.get d

/-! ## Tree storage -/

/-- Pointer to a `Box_node`: `null` is `nullptr`; a node carries its box `lo`, `hi`,
its `point` and its two child pointers. The `parent` pointer is the position of
the node and is not stored. -/
inductive Box_node (α : Type) (DIM : Nat) where
  | null : Box_node α DIM
  | node (lo hi point : Point α DIM) (left_child right_child : Box_node α DIM) : Box_node α DIM

/-- Follow a pointer path from a node (`false` = `left_child`, `true` = `right_child`). -/
def Box_node.get : Box_node α DIM → List Bool → Box_node α DIM
  | t, [] => t
  | .null, _ :: _ => .null
  | .node _ _ _ l r, b :: p => if b then r.get p else l.get p

/-- Overwrite what a pointer path from a node refers to. -/
def Box_node.put : Box_node α DIM → List Bool → Box_node α DIM → Box_node α DIM
  | _, [], s => s
  | .null, _ :: _, _ => .null
  | .node lo hi pt l r, b :: p, s =>
    if b then .node lo hi pt l (r.put p s) else .node lo hi pt (l.put p s) r

/-- Work item of the builder: the node to subdivide (as a path from the root),
the split dimension and the inclusive range `ptlo..pthi` of `point_indexes`. -/
structure Subdivision_task where
  box_node : List Bool
  dim : Nat
  ptlo : Nat
  pthi : Nat
deriving DecidableEq, Repr

/-! ## Selection partitioner -/

/-- Comparator `Coord_comp{points_count, coords, curr_dim}(a, b)`. -/
def Coord_comp (points_count : Nat) (coords : List α) (curr_dim : Nat) (a b : Nat) : Bool :=
  decide (coords.getD (curr_dim * points_count + a) 0 < coords.getD (curr_dim * points_count + b) 0)

/-- Body of `partition_point_indexes`: `nth_element` (the library selection, a
parameter that maps comparator, range contents and offset of the nth position
to the reordered range) acts on positions `start_index..end_index`. -/
def partition_point_indexes (nth_element : (Nat → Nat → Bool) → List Nat → Nat → List Nat)
    (point_indexes : List Nat) (coords : List α) (start_index partition_index end_index
    points_count curr_dim : Nat) : List Nat :=
  point_indexes.take start_index
    ++ nth_element (Coord_comp points_count coords curr_dim)
        ((point_indexes.drop start_index).take (end_index + 1 - start_index))
        (partition_index - start_index)
    ++ point_indexes.drop (end_index + 1)

/-- Postcondition of `std::nth_element` for the comparators the builder uses
(`a < b` iff `key a < key b`): the range is permuted; no element at or after the
nth position compares less than an element before it; and the nth position holds
the element a full sort would put there, which, the elements before it being the
smallest ones, is a least element of the positions from the nth on. -/
def NthElementSpec (α : Type) [LinearOrderedField α]
    (nth_element : (Nat → Nat → Bool) → List Nat → Nat → List Nat) : Prop :=
  ∀ (key : Nat → α) (l : List Nat) (k : Nat),
    (nth_element (fun a b => decide (key a < key b)) l k).Perm l ∧
    (∀ i j, i < k → k ≤ j → j < l.length →
      key ((nth_element (fun a b => decide (key a < key b)) l k).getD i 0)
        ≤ key ((nth_element (fun a b => decide (key a < key b)) l k).getD j 0)) ∧
    (∀ j, k ≤ j → j < l.length →
      key ((nth_element (fun a b => decide (key a < key b)) l k).getD k 0)
        ≤ key ((nth_element (fun a b => decide (key a < key b)) l k).getD j 0))

/-- One admissible `nth_element`: sort the whole range (stable insertion sort by
the comparator). -/
def nth_element_sort (comp : Nat → Nat → Bool) (l : List Nat) (_k : Nat) : List Nat :=
  l.insertionSort (fun a b => comp b a = false)

/-! ## Tree builder -/

/-- Local state of the constructor `KD_tree` during the work-stack loop. -/
structure Build_state (α : Type) (DIM : Nat) where
  point_indexes : List Nat
  root : Box_node α DIM
  subdivision_stack : List Subdivision_task

/-- Body of the `while (!subdivision_stack.empty())` loop. `uninit` gives the
never-initialised `point` member of a freshly allocated node (the constructor
initialises `point` from itself). -/
def subdivide (nth_element : (Nat → Nat → Bool) → List Nat → Nat → List Nat)
    (uninit : List Bool → Point α DIM) (points : List (Point α DIM)) (coords : List α)
    (points_count : Nat) (s : Build_state α DIM) : Build_state α DIM :=
  match s.subdivision_stack with
  | [] => s
  | task :: rest =>
    let ptlo := task.ptlo
    let pthi := task.pthi
    let points_count_subdivision := pthi - ptlo + 1
    let half_index := (points_count_subdivision - 1) / 2
    let point_indexes := partition_point_indexes nth_element s.point_indexes coords
      ptlo (ptlo + half_index) pthi points_count task.dim
    let index := point_indexes.getD (ptlo + half_index) 0
    match s.root.get task.box_node with
    | .null => ⟨point_indexes, s.root, rest⟩
    | .node node_lo node_hi _ _ _ =>
      let v := coords.getD (task.dim * points_count + index) 0
      let lo := node_lo.set task.dim v
      let hi := node_hi.set task.dim v
      let left_child := Box_node.node node_lo hi (uninit (task.box_node ++ [false])) .null .null
      let right_child := Box_node.node lo node_hi (uninit (task.box_node ++ [true])) .null .null
      let root := s.root.put task.box_node
        (.node node_lo node_hi (points.getD index Point.zero) left_child right_child)
      let stack1 := if half_index > 0
        then ⟨task.box_node ++ [false], (task.dim + 1) % DIM, ptlo, ptlo + half_index - 1⟩ :: rest
        else rest
      let stack2 := if points_count_subdivision - half_index > 1
        then ⟨task.box_node ++ [true], (task.dim + 1) % DIM, ptlo + half_index + 1, pthi⟩ :: stack1
        else stack1
      ⟨point_indexes, root, stack2⟩

/-- The `while` loop with a bound on the number of iterations; `none` when the
bound is reached with a non-empty stack. -/
def subdivision_loop (nth_element : (Nat → Nat → Bool) → List Nat → Nat → List Nat)
    (uninit : List Bool → Point α DIM) (points : List (Point α DIM)) (coords : List α)
    (points_count : Nat) : Nat → Build_state α DIM → Option (Build_state α DIM)
  | 0, s => if s.subdivision_stack.isEmpty then some s else none
  | fuel + 1, s =>
    if s.subdivision_stack.isEmpty then some s
    else subdivision_loop nth_element uninit points coords points_count fuel
      (subdivide nth_element uninit points coords points_count s)

/-- Coordinate table `<p1.x0, p2.x0, ..., p1.x1, p2.x1, ...>`. -/
def coords_table (points : List (Point α DIM)) : List α :=
  (List.range DIM).flatMap (fun i => points.map (fun p => p.get i))

/-- State on entry to the `while` loop: indexes `0..n-1`, a root with the
bounding box, and the first task `{root, 1, 0, points_count - 1}`. -/
def initial_state (uninit : List Bool → Point α DIM) (bounding_box : Box α DIM)
    (points : List (Point α DIM)) : Build_state α DIM :=
  ⟨List.range points.length,
   .node bounding_box.lo bounding_box.hi (uninit []) .null .null,
   [⟨[], 1, 0, points.length - 1⟩]⟩

/-- Constructor `KD_tree(bounding_box, points)`; the result is the member `root`. -/
def KD_tree (nth_element : (Nat → Nat → Bool) → List Nat → Nat → List Nat)
    (uninit : List Bool → Point α DIM) (fuel : Nat) (bounding_box : Box α DIM)
    (points : List (Point α DIM)) : Option (Box_node α DIM) :=
  if points.isEmpty then some .null
  else
    (subdivision_loop nth_element uninit points (coords_table points) points.length fuel
      (initial_state uninit bounding_box points)).map (fun s => s.root)

/-! ## Range query -/

/-- Method `Window::calc_range_query_result`; the member `range_query_res` it
appends to is passed in and returned. -/
def calc_range_query_result : Box_node α 2 → Box α 2 → Nat → List (Point α 2) → List (Point α 2)
  | .null, _, _, range_query_res => range_query_res
  | .node _ _ point left_child right_child, range, dim, range_query_res =>
    let res1 := if distance_is_zero range point then range_query_res ++ [point]
      else range_query_res
    let res2 := if range.lo.get dim < point.get dim
      then calc_range_query_result left_child range ((dim + 1) % 2) res1 else res1
    if range.hi.get dim > point.get dim
      then calc_range_query_result right_child range ((dim + 1) % 2) res2 else res2

/-- The call in `Window::on_mouse_release`: the query starts at the root with
dimension `1` and an empty `range_query_res` (cleared when the query began). -/
def range_query (root : Box_node α 2) (range : Box α 2) : List (Point α 2) :=
  calc_range_query_result root range 1 []

/-- Brute-force scan: the input points with `distance(range, p) == 0`. -/
def brute_force (range : Box α 2) (points : List (Point α 2)) : List (Point α 2) :=
  points.filter (fun p => distance_is_zero range p)

/-- Coordinates of a two-dimensional point as a pair. -/
def Point.toPair (p : Point α 2) : α × α := (p.get 0, p.get 1)

/-! ## Reference description of the builder -/

/-- What the loop makes of the node at `path` once the task for it, and every task
pushed on its behalf, has been processed: `slice` is the content of the task's
range of `point_indexes`, the result is the finished subtree and the final
content of the range. An empty range stands for a child that gets no task. This
is a specification device; `subdivide_iterate` relates it to the loop. -/
def build_rec (nth_element : (Nat → Nat → Bool) → List Nat → Nat → List Nat)
    (uninit : List Bool → Point α DIM) (points : List (Point α DIM)) (coords : List α)
    (points_count : Nat) :
    Nat → List Bool → Nat → List Nat → Point α DIM → Point α DIM → Box_node α DIM × List Nat
  | 0, path, _, slice, lo, hi => (.node lo hi (uninit path) .null .null, slice)
  | _ + 1, path, _, [], lo, hi => (.node lo hi (uninit path) .null .null, [])
  | fuel + 1, path, dim, i :: is, lo, hi =>
    let half_index := ((i :: is).length - 1) / 2
    let r := nth_element (Coord_comp points_count coords dim) (i :: is) half_index
    let index := r.getD half_index 0
    let v := coords.getD (dim * points_count + index) 0
    let right := build_rec nth_element uninit points coords points_count fuel
      (path ++ [true]) ((dim + 1) % DIM) (r.drop (half_index + 1)) (lo.set dim v) hi
    let left := build_rec nth_element uninit points coords points_count fuel
      (path ++ [false]) ((dim + 1) % DIM) (r.take half_index) lo (hi.set dim v)
    (.node lo hi (points.getD index Point.zero) left.1 right.1, left.2 ++ index :: right.2)

/-- Push a task when the condition holds. -/
def push_if (c : Bool) (t : Subdivision_task) (stack : List Subdivision_task) :
    List Subdivision_task :=
  if c then t :: stack else stack

/-- Root the constructor leaves behind, by the reference description. -/
def KD_tree_rec (nth_element : (Nat → Nat → Bool) → List Nat → Nat → List Nat)
    (uninit : List Bool → Point α DIM) (bounding_box : Box α DIM)
    (points : List (Point α DIM)) : Box_node α DIM :=
  if points.isEmpty then .null
  else (build_rec nth_element uninit points (coords_table points) points.length points.length
    [] 1 (List.range points.length) bounding_box.lo bounding_box.hi).1

/-! ## Observations on trees -/

/-- Number of non-null nodes. -/
def Box_node.size : Box_node α DIM → Nat
  | .null => 0
  | .node _ _ _ l r => 1 + l.size + r.size

/-- Number of nodes on the longest path from a node down to a null pointer. -/
def Box_node.height : Box_node α DIM → Nat
  | .null => 0
  | .node _ _ _ l r => 1 + max l.height r.height

/-- Stored `point` of every non-null node, in pre-order. -/
def Box_node.stored_points : Box_node α DIM → List (Point α DIM)
  | .null => []
  | .node _ _ pt l r => pt :: (l.stored_points ++ r.stored_points)

/-- Whether the pointer is `nullptr`. -/
def Box_node.isNull : Box_node α DIM → Bool
  | .null => true
  | .node _ _ _ _ _ => false

/-- Points of the nodes that have a child, in pre-order: these are the nodes a
subdivision task assigned a point to (a task sets `point` and both children). -/
def Box_node.assigned_points : Box_node α DIM → List (Point α DIM)
  | .null => []
  | .node _ _ pt l r =>
    if l.isNull && r.isNull then [] else pt :: (l.assigned_points ++ r.assigned_points)

/-- Number of nodes without children. -/
def Box_node.childless : Box_node α DIM → Nat
  | .null => 0
  | .node _ _ _ l r => if l.isNull && r.isNull then 1 else l.childless + r.childless

/-- Box partition at one node split on `dim`: with two children present, the left
child's `hi` and the right child's `lo` carry the node's point coordinate on
`dim`, and every other bound of the children is the node's. -/
def child_boxes_partition (dim : Nat) (lo hi point : Point α DIM) :
    Box_node α DIM → Box_node α DIM → Prop
  | .node llo lhi _ _ _, .node rlo rhi _ _ _ =>
    lhi.get dim = point.get dim ∧ point.get dim = rlo.get dim ∧
    (∀ d, d < DIM → llo.get d = lo.get d) ∧ (∀ d, d < DIM → rhi.get d = hi.get d) ∧
    (∀ d, d < DIM → d ≠ dim → lhi.get d = hi.get d ∧ rlo.get d = lo.get d)
  | _, _ => True

/-- Box partition invariant below a node whose task had dimension `dim`; children
are split on `(dim + 1) % DIM`. -/
def Box_node.Box_partition : Nat → Box_node α DIM → Prop
  | _, .null => True
  | dim, .node lo hi pt l r =>
    child_boxes_partition dim lo hi pt l r ∧
    l.Box_partition ((dim + 1) % DIM) ∧ r.Box_partition ((dim + 1) % DIM)

/-- Subtree ordering below a node whose task had dimension `dim`: assigned points
on the left are not above the node's point on `dim`, those on the right not below. -/
def Box_node.Ordered : Nat → Box_node α DIM → Prop
  | _, .null => True
  | dim, .node _ _ pt l r =>
    (∀ q ∈ l.assigned_points, q.get dim ≤ pt.get dim) ∧
    (∀ q ∈ r.assigned_points, pt.get dim ≤ q.get dim) ∧
    l.Ordered ((dim + 1) % DIM) ∧ r.Ordered ((dim + 1) % DIM)

/-- Every node's box has `lo[d] ≤ hi[d]` in every dimension. -/
def Box_node.Boxes_well_formed : Box_node α DIM → Prop
  | .null => True
  | .node lo hi _ l r =>
    (Box.mk lo hi).WellFormed ∧ l.Boxes_well_formed ∧ r.Boxes_well_formed

/-- Every node has zero or two children. -/
def Box_node.Zero_or_two : Box_node α DIM → Prop
  | .null => True
  | .node _ _ _ l r => (l.isNull = r.isNull) ∧ l.Zero_or_two ∧ r.Zero_or_two

/-- The point a point index refers to, `points[i]`. -/
def point_at (points : List (Point α DIM)) (i : Nat) : Point α DIM :=
  points.getD i Point.zero

instance Box.instDecidableWellFormed (box : Box α DIM) : Decidable box.WellFormed :=
  inferInstanceAs (Decidable (∀ d, d < DIM → box.lo.get d ≤ box.hi.get d))

instance Box.instDecidableContains (box : Box α DIM) (p : Point α DIM) :
    Decidable (box.Contains p) :=
  inferInstanceAs (Decidable (∀ d, d < DIM → box.lo.get d ≤ p.get d ∧ p.get d ≤ box.hi.get d))

instance Box_node.instDecidableBoxesWellFormed :
    (t : Box_node α DIM) → Decidable t.Boxes_well_formed
  | .null => isTrue trivial
  | .node lo hi _ l r =>
    have := Box_node.instDecidableBoxesWellFormed l
    have := Box_node.instDecidableBoxesWellFormed r
    inferInstanceAs (Decidable
      ((Box.mk lo hi).WellFormed ∧ l.Boxes_well_formed ∧ r.Boxes_well_formed))

/-! ## Traces of the builder and of the query -/

/-- Tasks popped by the first `fuel` iterations of the loop, in order. -/
def popped_tasks (nth_element : (Nat → Nat → Bool) → List Nat → Nat → List Nat)
    (uninit : List Bool → Point α DIM) (points : List (Point α DIM)) (coords : List α)
    (points_count : Nat) : Nat → Build_state α DIM → List Subdivision_task
  | 0, _ => []
  | fuel + 1, s =>
    match s.subdivision_stack with
    | [] => []
    | task :: _ =>
      task :: popped_tasks nth_element uninit points coords points_count fuel
        (subdivide nth_element uninit points coords points_count s)

/-- Non-null nodes `calc_range_query_result` is called on, in call order: the
position of the node, the `dim` argument of the call, and the node's `point`.
The recursion is that of `calc_range_query_result`. -/
def query_visits : Box_node α 2 → Box α 2 → Nat → List Bool →
    List (List Bool × Nat × Point α 2)
  | .null, _, _, _ => []
  | .node _ _ point left_child right_child, range, dim, path =>
    (path, dim, point) ::
      ((if range.lo.get dim < point.get dim
          then query_visits left_child range ((dim + 1) % 2) (path ++ [false]) else [])
        ++ (if range.hi.get dim > point.get dim
          then query_visits right_child range ((dim + 1) % 2) (path ++ [true]) else []))

/-- Memory that reads as zero: a possible content of the never-initialised `point`
of freshly allocated nodes. -/
def zero_memory : List Bool → Point ℚ 2 := fun _ => Point.zero

/-! ## Concrete scenarios -/

/-- Bounding box `[(-10,-10), (10,10)]`. -/
def example_box : Box ℚ 2 := ⟨Point.mk2 (-10) (-10), Point.mk2 10 10⟩

/-- Points `(1,1), (-2,3), (5,-5), (0,0), (7,7)`. -/
def example_points : List (Point ℚ 2) :=
  [Point.mk2 1 1, Point.mk2 (-2) 3, Point.mk2 5 (-5), Point.mk2 0 0, Point.mk2 7 7]

/-- Query box `[(-3,-3), (6,6)]`. -/
def example_query : Box ℚ 2 := ⟨Point.mk2 (-3) (-3), Point.mk2 6 6⟩

/-- Bounding box `[(0,0), (4,4)]`. -/
def small_box : Box ℚ 2 := ⟨Point.mk2 0 0, Point.mk2 4 4⟩

/-- Points lie in their boxes: at every node, every point assigned in the subtree
rooted there (the node's own point included when a task assigned it) lies in the
node's box. -/
def Box_node.Points_in_boxes : Box_node α DIM → Prop
  | .null => True
  | .node lo hi pt l r =>
    (∀ q ∈ (Box_node.node lo hi pt l r).assigned_points, (Box.mk lo hi).Contains q) ∧
    l.Points_in_boxes ∧ r.Points_in_boxes

/-- Content of a task's inclusive range `ptlo..pthi` of `point_indexes`. -/
def task_slice (point_indexes : List Nat) (t : Subdivision_task) : List Nat :=
  (point_indexes.drop t.ptlo).take (t.pthi + 1 - t.ptlo)

/-- The builder's `points_count_subdivision` for a task. -/
def task_count (t : Subdivision_task) : Nat := t.pthi - t.ptlo + 1

/-- The builder's `half_index` for a task. -/
def task_half (t : Subdivision_task) : Nat := (task_count t - 1) / 2

/-- Content of a task's range after `partition_point_indexes` has run for it. -/
def task_selection (nth_element : (Nat → Nat → Bool) → List Nat → Nat → List Nat)
    (coords : List α) (points_count : Nat) (point_indexes : List Nat)
    (t : Subdivision_task) : List Nat :=
  nth_element (Coord_comp points_count coords t.dim) (task_slice point_indexes t) (task_half t)

/-! ## Loop invariant -/

/-- Points still waiting for a node: the sum of the range sizes of the tasks on
the stack. -/
def pending_points (stack : List Subdivision_task) : Nat :=
  (stack.map task_count).sum

/-- Neither path leads through the other: the two nodes are in disjoint subtrees. -/
def Disjoint_paths (p q : List Bool) : Prop := ¬ p <+: q ∧ ¬ q <+: p

/-- Invariant of the work-stack loop for `points_count` points: `point_indexes` is a
permutation of `0..points_count-1`; every task on the stack has a non-empty range
inside the array, a dimension below `DIM` and an existing node; and the nodes of
different tasks lie in disjoint subtrees. -/
def Build_inv (points_count : Nat) (s : Build_state α DIM) : Prop :=
  s.point_indexes.Perm (List.range points_count) ∧
  (∀ t ∈ s.subdivision_stack, t.ptlo ≤ t.pthi ∧ t.pthi < points_count ∧ t.dim < DIM ∧
    s.root.get t.box_node ≠ .null) ∧
  s.subdivision_stack.Pairwise (fun a b => Disjoint_paths a.box_node b.box_node)

/-- A pushed task `t` covers a non-empty range inside the range of `task` and
strictly smaller than it. -/
def Smaller_range (t task : Subdivision_task) : Prop :=
  t.ptlo ≤ t.pthi ∧ task.ptlo ≤ t.ptlo ∧ t.pthi ≤ task.pthi ∧ task_count t < task_count task

/-- Median halving in the tree: at every node, of the `s` points assigned in its
subtree `(s - 1) / 2` are assigned in the left subtree and the other
`s - 1 - (s - 1) / 2` in the right one, so the two numbers differ by at most one. -/
def Box_node.Halved : Box_node α DIM → Prop
  | .null => True
  | .node lo hi pt l r =>
    (l.assigned_points.length
        = ((Box_node.node lo hi pt l r).assigned_points.length - 1) / 2 ∧
      r.assigned_points.length
        = (Box_node.node lo hi pt l r).assigned_points.length - 1
          - ((Box_node.node lo hi pt l r).assigned_points.length - 1) / 2 ∧
      l.assigned_points.length ≤ r.assigned_points.length ∧
      r.assigned_points.length ≤ l.assigned_points.length + 1) ∧
    l.Halved ∧ r.Halved

/-- Coordinate table of the five example points. -/
def example_coords : List ℚ := coords_table example_points

/-- State on entry to the loop for the five example points. -/
def example_state : Build_state ℚ 2 := initial_state zero_memory example_box example_points

/-- First task for the five example points: the root, dimension `1`, range `0..4`. -/
def example_task : Subdivision_task := ⟨[], 1, 0, 4⟩

/-! ## Distance formula -/

/-- Clamp overshoot of `point` on dimension `d`:
`max(0, lo[d] - point[d], point[d] - hi[d])`. -/
def overshoot (box : Box α DIM) (point : Point α DIM) (d : Nat) : α :=
  max 0 (max (box.lo.get d - point.get d) (point.get d - box.hi.get d))

/-- The point of the closed box nearest to `point`: every coordinate clamped to
`[lo[d], hi[d]]`. -/
def Box.clamp (box : Box α DIM) (point : Point α DIM) : Point α DIM :=
  ⟨fun j => max (box.lo.x j) (min (point.x j) (box.hi.x j))⟩

/-- Euclidean distance between two points. -/
noncomputable def euclidean (p q : Point ℝ DIM) : ℝ :=
  Real.sqrt (((List.range DIM).map (fun d => (p.get d - q.get d) ^ 2)).sum)

/-- General position: the two points differ in every coordinate. -/
def Distinct_coords (p q : Point α DIM) : Prop :=
  ∀ d, d < DIM → p.get d ≠ q.get d

/-- Positions of the nodes that have children, in the order in which the loop pops
their tasks: a node, then its right subtree, then its left subtree. -/
def Box_node.task_paths : Box_node α DIM → List Bool → List (List Bool)
  | .null, _ => []
  | .node _ _ _ l r, path =>
    if l.isNull && r.isNull then []
    else path :: (r.task_paths (path ++ [true]) ++ l.task_paths (path ++ [false]))

/-- Two trees have the same shape: the same positions hold nodes. -/
def Box_node.Same_shape : Box_node α DIM → Box_node α DIM → Prop
  | .null, .null => True
  | .node _ _ _ l r, .node _ _ _ l' r' => l.Same_shape l' ∧ r.Same_shape r'
  | _, _ => False

instance Distinct_coords.instDecidable (p q : Point α DIM) : Decidable (Distinct_coords p q) :=
  inferInstanceAs (Decidable (∀ d, d < DIM → p.get d ≠ q.get d))

/-! ## Facts about `distance` -/

omit [LinearOrderedField α] in
theorem Point.get_set_same [Zero α] (p : Point α DIM) (i : Nat) (v : α) (h : i < DIM) :
    (p.set i v).get i = v := by
  simp [Point.get, Point.set, h]

omit [LinearOrderedField α] in
theorem Point.get_set_other [Zero α] (p : Point α DIM) (i j : Nat) (v : α) (h : j ≠ i) :
    (p.set i v).get j = p.get j := by
  unfold Point.get Point.set
  by_cases hj : j < DIM
  · simp [hj, h]
  · simp [hj]

theorem distance_step_ge (box : Box α DIM) (p : Point α DIM) (d : α) (i : Nat) :
    d ≤ distance_step box p d i := by
  unfold distance_step
  dsimp only
  have h1 := mul_self_nonneg (box.lo.get i - p.get i)
  have h2 := mul_self_nonneg (p.get i - box.hi.get i)
  split_ifs <;> linarith

theorem distance_step_eq_zero (box : Box α DIM) (p : Point α DIM) (d : α) (i : Nat)
    (hd : 0 ≤ d) :
    distance_step box p d i = 0 ↔
      d = 0 ∧ box.lo.get i ≤ p.get i ∧ p.get i ≤ box.hi.get i := by
  unfold distance_step
  dsimp only
  have h1 := mul_self_nonneg (box.lo.get i - p.get i)
  have h2 := mul_self_nonneg (p.get i - box.hi.get i)
  by_cases ha : p.get i < box.lo.get i
  · have h3 : 0 < (box.lo.get i - p.get i) * (box.lo.get i - p.get i) :=
      mul_pos (by linarith) (by linarith)
    constructor
    · intro h
      split_ifs at h <;> linarith
    · rintro ⟨_, h4, _⟩
      linarith
  · by_cases hb : p.get i > box.hi.get i
    · have h3 : 0 < (p.get i - box.hi.get i) * (p.get i - box.hi.get i) :=
        mul_pos (by linarith) (by linarith)
      constructor
      · intro h
        rw [if_neg ha, if_pos hb] at h
        linarith
      · rintro ⟨_, _, h4⟩
        linarith
    · simp only [ha, hb, if_false]
      constructor
      · intro h
        exact ⟨h, not_lt.mp ha, not_lt.mp hb⟩
      · rintro ⟨h, _, _⟩
        exact h

theorem distance_foldl_ge (box : Box α DIM) (p : Point α DIM) (l : List Nat) (d : α) :
    d ≤ l.foldl (distance_step box p) d := by
  induction l generalizing d with
  | nil => simp
  | cons i l ih =>
    simp only [List.foldl_cons]
    exact le_trans (distance_step_ge box p d i) (ih _)

theorem distance_foldl_eq_zero (box : Box α DIM) (p : Point α DIM) (l : List Nat) (d : α)
    (hd : 0 ≤ d) :
    l.foldl (distance_step box p) d = 0 ↔
      d = 0 ∧ ∀ i ∈ l, box.lo.get i ≤ p.get i ∧ p.get i ≤ box.hi.get i := by
  induction l generalizing d with
  | nil => simp
  | cons i l ih =>
    simp only [List.foldl_cons, List.mem_cons, forall_eq_or_imp]
    rw [ih _ (le_trans hd (distance_step_ge box p d i)), distance_step_eq_zero box p d i hd]
    tauto

theorem distance_sq_nonneg (box : Box α DIM) (p : Point α DIM) : 0 ≤ distance_sq box p :=
  distance_foldl_ge box p _ 0

theorem distance_sq_eq_zero_iff (box : Box α DIM) (p : Point α DIM) :
    distance_sq box p = 0 ↔ box.Contains p := by
  unfold distance_sq Box.Contains
  rw [distance_foldl_eq_zero box p _ 0 le_rfl]
  simp

theorem distance_is_zero_iff (box : Box α DIM) (p : Point α DIM) :
    distance_is_zero box p = true ↔ box.Contains p := by
  simp [distance_is_zero, distance_sq_eq_zero_iff]

/-- The square root returned by `distance` vanishes exactly when the accumulated
sum does, so `!distance(box, point)` and `distance_is_zero` agree. -/
theorem distance_eq_zero_iff_sq (box : Box ℝ DIM) (p : Point ℝ DIM) :
    distance box p = 0 ↔ distance_is_zero box p = true := by
  unfold distance distance_is_zero
  rw [Real.sqrt_eq_zero (distance_sq_nonneg box p)]
  simp

/-- C7: over the reals, `distance(box, point) == 0` holds exactly when
`box.lo[d] ≤ point[d] ≤ box.hi[d]` in every dimension `d`, and `distance` is never
negative. -/
theorem distance_zero_iff_inside (box : Box ℝ DIM) (point : Point ℝ DIM) :
    (distance box point = 0 ↔
      ∀ d, d < DIM → box.lo.get d ≤ point.get d ∧ point.get d ≤ box.hi.get d) ∧
    0 ≤ distance box point := by
  refine ⟨?_, Real.sqrt_nonneg _⟩
  rw [distance_eq_zero_iff_sq, distance_is_zero_iff]
  rfl

/-- C6: from an empty point list the constructor returns with `root` null for any
bounding box (and any iteration bound), and a range query at a null root returns
the accumulator it was given, so the query of the application returns nothing. -/
theorem empty_input_null_root_empty_query
    (nth_element : (Nat → Nat → Bool) → List Nat → Nat → List Nat)
    (uninit : List Bool → Point α 2) (fuel : Nat) (bounding_box range : Box α 2)
    (dim : Nat) (range_query_res : List (Point α 2)) :
    KD_tree nth_element uninit fuel bounding_box [] = some Box_node.null ∧
    calc_range_query_result Box_node.null range dim range_query_res = range_query_res ∧
    range_query (Box_node.null : Box_node α 2) range = [] := by
  refine ⟨?_, ?_, ?_⟩
  · simp [KD_tree]
  · simp [calc_range_query_result]
  · simp [range_query, calc_range_query_result]

/-! ## Pointer paths -/

omit [LinearOrderedField α] in
theorem Box_node.put_get_self (t : Box_node α DIM) (p : List Bool) :
    t.put p (t.get p) = t := by
  induction p generalizing t with
  | nil => cases t <;> rfl
  | cons b p ih =>
    cases t with
    | null => rfl
    | node lo hi pt l r => cases b <;> simp [Box_node.put, Box_node.get, ih]

omit [LinearOrderedField α] in
theorem Box_node.put_put_append (t : Box_node α DIM) (p q : List Bool) (x y : Box_node α DIM) :
    (t.put p x).put (p ++ q) y = t.put p (x.put q y) := by
  induction p generalizing t with
  | nil => cases t <;> simp [Box_node.put]
  | cons b p ih =>
    cases t with
    | null => simp [Box_node.put]
    | node lo hi pt l r => cases b <;> simp [Box_node.put, ih]

omit [LinearOrderedField α] in
theorem Box_node.get_put_append (t : Box_node α DIM) (p q : List Bool) (x : Box_node α DIM)
    (h : t.get p ≠ .null) : (t.put p x).get (p ++ q) = x.get q := by
  induction p generalizing t with
  | nil => cases t <;> simp [Box_node.put]
  | cons b p ih =>
    cases t with
    | null => simp [Box_node.get] at h
    | node lo hi pt l r =>
      cases b
      · simp only [Box_node.get, Bool.false_eq_true, if_false] at h
        simp [Box_node.put, Box_node.get, ih l h]
      · simp only [Box_node.get, if_true] at h
        simp [Box_node.put, Box_node.get, ih r h]

/-! ## The selection step under the `nth_element` postcondition -/

theorem nth_element_perm {nth_element : (Nat → Nat → Bool) → List Nat → Nat → List Nat}
    (hspec : NthElementSpec α nth_element) (points_count : Nat) (coords : List α)
    (dim : Nat) (l : List Nat) (k : Nat) :
    (nth_element (Coord_comp points_count coords dim) l k).Perm l :=
  (hspec (fun a => coords.getD (dim * points_count + a) 0) l k).1

theorem nth_element_length {nth_element : (Nat → Nat → Bool) → List Nat → Nat → List Nat}
    (hspec : NthElementSpec α nth_element) (points_count : Nat) (coords : List α)
    (dim : Nat) (l : List Nat) (k : Nat) :
    (nth_element (Coord_comp points_count coords dim) l k).length = l.length :=
  (nth_element_perm hspec points_count coords dim l k).length_eq

theorem nth_element_le {nth_element : (Nat → Nat → Bool) → List Nat → Nat → List Nat}
    (hspec : NthElementSpec α nth_element) (points_count : Nat) (coords : List α)
    (dim : Nat) (l : List Nat) (k i j : Nat) (hi : i < k) (hkj : k ≤ j) (hj : j < l.length) :
    coords.getD (dim * points_count
        + (nth_element (Coord_comp points_count coords dim) l k).getD i 0) 0
      ≤ coords.getD (dim * points_count
        + (nth_element (Coord_comp points_count coords dim) l k).getD j 0) 0 :=
  (hspec (fun a => coords.getD (dim * points_count + a) 0) l k).2.1 i j hi hkj hj

theorem nth_element_nth_le {nth_element : (Nat → Nat → Bool) → List Nat → Nat → List Nat}
    (hspec : NthElementSpec α nth_element) (points_count : Nat) (coords : List α)
    (dim : Nat) (l : List Nat) (k j : Nat) (hkj : k ≤ j) (hj : j < l.length) :
    coords.getD (dim * points_count
        + (nth_element (Coord_comp points_count coords dim) l k).getD k 0) 0
      ≤ coords.getD (dim * points_count
        + (nth_element (Coord_comp points_count coords dim) l k).getD j 0) 0 :=
  (hspec (fun a => coords.getD (dim * points_count + a) 0) l k).2.2 j hkj hj

/-- Sorting the whole range meets the `nth_element` postcondition. -/
theorem nth_element_sort_spec : NthElementSpec α nth_element_sort := by
  intro key l k
  have htot : IsTotal Nat (fun a b => decide (key b < key a) = false) :=
    ⟨fun a b => by
      simp only [decide_eq_false_iff_not, not_lt]
      exact le_total (key a) (key b)⟩
  have htr : IsTrans Nat (fun a b => decide (key b < key a) = false) :=
    ⟨fun a b c => by
      simp only [decide_eq_false_iff_not, not_lt]
      exact le_trans⟩
  have hperm : (nth_element_sort (fun a b => decide (key a < key b)) l k).Perm l :=
    List.perm_insertionSort _ l
  have hsorted : List.Sorted (fun a b => decide (key b < key a) = false)
      (nth_element_sort (fun a b => decide (key a < key b)) l k) :=
    List.sorted_insertionSort _ l
  have hle : ∀ i j, i ≤ j → j < l.length →
      key ((nth_element_sort (fun a b => decide (key a < key b)) l k).getD i 0)
        ≤ key ((nth_element_sort (fun a b => decide (key a < key b)) l k).getD j 0) := by
    intro i j hij hj
    rw [← hperm.length_eq] at hj
    rcases Nat.eq_or_lt_of_le hij with h | h
    · subst h; exact le_rfl
    · rw [List.getD_eq_getElem _ 0 hj, List.getD_eq_getElem _ 0 (lt_trans h hj)]
      have := (List.pairwise_iff_getElem.mp hsorted) i j (lt_trans h hj) hj h
      simpa using this
  exact ⟨hperm, fun i j hi hkj hj => hle i j (le_trans (le_of_lt hi) hkj) hj,
    fun j hkj hj => hle k j hkj hj⟩

/-- A list of length above `k` is its first `k` elements, the element at `k`, and the rest. -/
theorem list_split_at (r : List Nat) (k : Nat) (h : k < r.length) :
    r = r.take k ++ r.getD k 0 :: r.drop (k + 1) := by
  rw [List.getD_eq_getElem r 0 h]
  simp

/-! ## The loop body on a task -/

theorem subdivide_task {nth_element : (Nat → Nat → Bool) → List Nat → Nat → List Nat}
    (hspec : NthElementSpec α nth_element)
    (uninit : List Bool → Point α DIM) (points : List (Point α DIM)) (coords : List α)
    (points_count : Nat) (pre slice post : List Nat) (rest : List Subdivision_task)
    (root : Box_node α DIM) (path : List Bool) (dim : Nat) (lo hi p0 : Point α DIM)
    (l0 r0 : Box_node α DIM) (hne : slice ≠ [])
    (hget : root.get path = .node lo hi p0 l0 r0) :
    subdivide nth_element uninit points coords points_count
      ⟨pre ++ slice ++ post, root,
        ⟨path, dim, pre.length, pre.length + slice.length - 1⟩ :: rest⟩ =
    ⟨pre ++ nth_element (Coord_comp points_count coords dim) slice ((slice.length - 1) / 2) ++ post,
      root.put path (.node lo hi
        (points.getD ((nth_element (Coord_comp points_count coords dim) slice
          ((slice.length - 1) / 2)).getD ((slice.length - 1) / 2) 0) Point.zero)
        (.node lo (hi.set dim (coords.getD (dim * points_count
          + (nth_element (Coord_comp points_count coords dim) slice
            ((slice.length - 1) / 2)).getD ((slice.length - 1) / 2) 0) 0))
          (uninit (path ++ [false])) .null .null)
        (.node (lo.set dim (coords.getD (dim * points_count
          + (nth_element (Coord_comp points_count coords dim) slice
            ((slice.length - 1) / 2)).getD ((slice.length - 1) / 2) 0) 0)) hi
          (uninit (path ++ [true])) .null .null)),
      push_if (decide (1 < slice.length - (slice.length - 1) / 2))
        ⟨path ++ [true], (dim + 1) % DIM, pre.length + (slice.length - 1) / 2 + 1,
          pre.length + slice.length - 1⟩
        (push_if (decide (0 < (slice.length - 1) / 2))
          ⟨path ++ [false], (dim + 1) % DIM, pre.length,
            pre.length + (slice.length - 1) / 2 - 1⟩ rest)⟩ := by
  have hlen : 0 < slice.length := List.length_pos.mpr hne
  have hcnt : pre.length + slice.length - 1 - pre.length + 1 = slice.length := by omega
  have hpart : partition_point_indexes nth_element (pre ++ slice ++ post) coords pre.length
      (pre.length + (slice.length - 1) / 2) (pre.length + slice.length - 1) points_count dim
      = pre ++ nth_element (Coord_comp points_count coords dim) slice ((slice.length - 1) / 2)
          ++ post := by
    unfold partition_point_indexes
    have h1 : pre.length + slice.length - 1 + 1 - pre.length = slice.length := by omega
    have h2 : pre.length + slice.length - 1 + 1 = pre.length + slice.length := by omega
    have h3 : pre.length + (slice.length - 1) / 2 - pre.length = (slice.length - 1) / 2 := by
      omega
    rw [h1, h2, h3]
    simp [List.append_assoc, List.take_append_eq_append_take, List.drop_append_eq_append_drop]
  have hidx : (pre ++ nth_element (Coord_comp points_count coords dim) slice
      ((slice.length - 1) / 2) ++ post).getD (pre.length + (slice.length - 1) / 2) 0
      = (nth_element (Coord_comp points_count coords dim) slice
          ((slice.length - 1) / 2)).getD ((slice.length - 1) / 2) 0 := by
    have hr := nth_element_length hspec points_count coords dim slice ((slice.length - 1) / 2)
    have hk : (slice.length - 1) / 2 < (nth_element (Coord_comp points_count coords dim) slice
      ((slice.length - 1) / 2)).length := by omega
    rw [List.append_assoc, List.getD_append_right _ _ _ _ (by omega)]
    rw [Nat.add_sub_cancel_left, List.getD_append _ _ _ _ hk]
  unfold subdivide
  simp only [hcnt, hpart, hidx, hget, Nat.add_sub_cancel, push_if]
  simp

theorem push_if_congr (c c' : Bool) (t t' : Subdivision_task) (s : List Subdivision_task)
    (hc : c = c') (ht : c = true → t = t') : push_if c t s = push_if c' t' s := by
  subst hc
  cases c
  · rfl
  · simp [push_if, ht rfl]

/-- Processing a task and all the tasks pushed on its behalf takes as many
iterations as the task's range has points, pops exactly that task, and has the
effect `build_rec` describes. -/
theorem subdivide_iterate {nth_element : (Nat → Nat → Bool) → List Nat → Nat → List Nat}
    (hspec : NthElementSpec α nth_element)
    (uninit : List Bool → Point α DIM) (points : List (Point α DIM)) (coords : List α)
    (points_count : Nat) :
    ∀ (fuel : Nat) (path : List Bool) (dim : Nat) (slice : List Nat) (lo hi : Point α DIM)
      (pre post : List Nat) (rest : List Subdivision_task) (root : Box_node α DIM),
      slice.length ≤ fuel →
      root.get path = .node lo hi (uninit path) .null .null →
      (subdivide nth_element uninit points coords points_count)^[slice.length]
        ⟨pre ++ slice ++ post, root,
          push_if (decide (0 < slice.length))
            ⟨path, dim, pre.length, pre.length + slice.length - 1⟩ rest⟩ =
      ⟨pre ++ (build_rec nth_element uninit points coords points_count fuel path dim slice
          lo hi).2 ++ post,
        root.put path (build_rec nth_element uninit points coords points_count fuel path dim
          slice lo hi).1,
        rest⟩ := by
  intro fuel
  induction fuel with
  | zero =>
    intro path dim slice lo hi pre post rest root hfuel hget
    have hs : slice = [] := List.length_eq_zero.mp (Nat.le_zero.mp hfuel)
    subst hs
    simp only [List.length_nil, Function.iterate_zero, id_eq, build_rec, push_if]
    rw [← hget, Box_node.put_get_self]
    simp
  | succ fuel ih =>
    intro path dim slice lo hi pre post rest root hfuel hget
    cases slice with
    | nil =>
      simp only [List.length_nil, Function.iterate_zero, id_eq, build_rec, push_if]
      rw [← hget, Box_node.put_get_self]
      simp
    | cons i is =>
      have hne : i :: is ≠ [] := List.cons_ne_nil _ _
      have hpos : decide (0 < (i :: is).length) = true := by simp
      rw [hpos]
      simp only [push_if, if_true]
      have hlen1 : (i :: is).length = is.length + 1 := rfl
      rw [hlen1, Function.iterate_succ_apply, ← hlen1,
        subdivide_task hspec uninit points coords points_count pre (i :: is) post rest root
          path dim lo hi (uninit path) .null .null hne hget]
      have hr := nth_element_length hspec points_count coords dim (i :: is)
        (((i :: is).length - 1) / 2)
      generalize hrdef : nth_element (Coord_comp points_count coords dim) (i :: is)
        (((i :: is).length - 1) / 2) = r at hr
      generalize hhalf : ((i :: is).length - 1) / 2 = half
      have hhl : half < r.length := by
        rw [hr, ← hhalf]; simp only [List.length_cons]; omega
      have hA : (r.take half).length = half := by
        rw [List.length_take]; omega
      have hB : (r.drop (half + 1)).length = is.length - half := by
        rw [List.length_drop, hr]; simp only [List.length_cons]; omega
      have hsplit : is.length = (r.take half).length + (r.drop (half + 1)).length := by
        rw [hA, hB]; rw [hr] at hhl; simp only [List.length_cons] at hhl; omega
      generalize hidx : r.getD half 0 = index
      generalize hv : coords.getD (dim * points_count + index) 0 = v
      have hrsplit : r = r.take half ++ index :: r.drop (half + 1) := by
        rw [← hidx]; exact list_split_at r half hhl
      have hnn : root.get path ≠ .null := by rw [hget]; simp
      -- the right task is on top of the stack
      rw [hsplit, Function.iterate_add_apply]
      have hidxs : pre ++ r ++ post
          = (pre ++ r.take half ++ [index]) ++ r.drop (half + 1) ++ post := by
        conv_lhs => rw [hrsplit]
        simp [List.append_assoc]
      rw [hidxs]
      rw [push_if_congr (decide (1 < (i :: is).length - half))
        (decide (0 < (r.drop (half + 1)).length))
        ⟨path ++ [true], (dim + 1) % DIM, pre.length + half + 1,
          pre.length + (i :: is).length - 1⟩
        ⟨path ++ [true], (dim + 1) % DIM, (pre ++ r.take half ++ [index]).length,
          (pre ++ r.take half ++ [index]).length + (r.drop (half + 1)).length - 1⟩ _
        (by rw [hB]; simp only [List.length_cons]
            by_cases h : 1 < is.length + 1 - half
            · have h2 : 0 < is.length - half := by omega
              simp [h, h2]
            · have h2 : ¬ 0 < is.length - half := by omega
              simp [h, h2])
        (by intro hc
            have hc2 : 1 < (i :: is).length - half := by simpa using hc
            simp only [List.length_append, hA, hB, List.length_cons, List.length_nil]
            simp only [List.length_cons] at hc2
            congr 1
            omega)]
      rw [ih (path ++ [true]) ((dim + 1) % DIM) (r.drop (half + 1)) (lo.set dim v) hi
        (pre ++ r.take half ++ [index]) post _ _ (by rw [hB]; simp only [List.length_cons] at hfuel; omega)
        (by rw [Box_node.get_put_append _ _ _ _ hnn]; simp [Box_node.get])]
      -- then the left task
      rw [Box_node.put_put_append]
      generalize hR : build_rec nth_element uninit points coords points_count fuel
        (path ++ [true]) ((dim + 1) % DIM) (r.drop (half + 1)) (lo.set dim v) hi = R
      have hidxs2 : pre ++ r.take half ++ [index] ++ R.2 ++ post
          = pre ++ r.take half ++ (index :: R.2 ++ post) := by
        simp [List.append_assoc]
      rw [hidxs2]
      rw [push_if_congr (decide (0 < half)) (decide (0 < (r.take half).length))
        ⟨path ++ [false], (dim + 1) % DIM, pre.length, pre.length + half - 1⟩
        ⟨path ++ [false], (dim + 1) % DIM, pre.length,
          pre.length + (r.take half).length - 1⟩ rest
        (by rw [hA]) (by intro _; rw [hA])]
      rw [ih (path ++ [false]) ((dim + 1) % DIM) (r.take half) lo (hi.set dim v)
        pre (index :: R.2 ++ post) rest _ (by rw [hA]; omega)
        (by rw [Box_node.get_put_append _ _ _ _ hnn]; simp [Box_node.get, Box_node.put])]
      rw [Box_node.put_put_append]
      subst hR hv hidx hhalf hrdef
      simp [build_rec, Box_node.put, List.append_assoc]

/-! ## The bounded loop and the constructor -/

theorem subdivision_loop_of_empty
    (nth_element : (Nat → Nat → Bool) → List Nat → Nat → List Nat)
    (uninit : List Bool → Point α DIM) (points : List (Point α DIM)) (coords : List α)
    (points_count fuel : Nat) (s : Build_state α DIM) (h : s.subdivision_stack = []) :
    subdivision_loop nth_element uninit points coords points_count fuel s = some s := by
  cases fuel <;> simp [subdivision_loop, h]

theorem subdivide_of_empty (nth_element : (Nat → Nat → Bool) → List Nat → Nat → List Nat)
    (uninit : List Bool → Point α DIM) (points : List (Point α DIM)) (coords : List α)
    (points_count : Nat) (s : Build_state α DIM) (h : s.subdivision_stack = []) :
    subdivide nth_element uninit points coords points_count s = s := by
  unfold subdivide
  rw [h]

/-- Running `k` iterations of the body and then the loop is the loop with `k` more
iterations allowed. -/
theorem subdivision_loop_add (nth_element : (Nat → Nat → Bool) → List Nat → Nat → List Nat)
    (uninit : List Bool → Point α DIM) (points : List (Point α DIM)) (coords : List α)
    (points_count : Nat) (k fuel : Nat) (s : Build_state α DIM) :
    subdivision_loop nth_element uninit points coords points_count (k + fuel) s =
      subdivision_loop nth_element uninit points coords points_count fuel
        ((subdivide nth_element uninit points coords points_count)^[k] s) := by
  induction k generalizing s with
  | zero => simp
  | succ k ih =>
    rw [Function.iterate_succ_apply]
    cases hs : s.subdivision_stack with
    | nil =>
      rw [subdivide_of_empty _ _ _ _ _ s hs, ← ih s,
        subdivision_loop_of_empty _ _ _ _ _ _ s hs, subdivision_loop_of_empty _ _ _ _ _ _ s hs]
    | cons t rest =>
      rw [← ih]
      have : k + 1 + fuel = (k + fuel) + 1 := by omega
      rw [this]
      simp [subdivision_loop, hs]

/-- The constructor returns: with at least `points.size()` iterations allowed the
loop ends with an empty stack, and `root` is the tree `build_rec` describes. -/
theorem KD_tree_eq_rec {nth_element : (Nat → Nat → Bool) → List Nat → Nat → List Nat}
    (hspec : NthElementSpec α nth_element) (uninit : List Bool → Point α DIM)
    (bounding_box : Box α DIM) (points : List (Point α DIM)) (fuel : Nat)
    (hfuel : points.length ≤ fuel) :
    KD_tree nth_element uninit fuel bounding_box points
      = some (KD_tree_rec nth_element uninit bounding_box points) := by
  unfold KD_tree KD_tree_rec
  cases hp : points.isEmpty with
  | true => simp
  | false =>
    simp only [Bool.false_eq_true, if_false]
    have hpos : 0 < points.length := by
      cases points with
      | nil => simp at hp
      | cons p ps => simp
    obtain ⟨f, rfl⟩ := Nat.exists_eq_add_of_le hfuel
    rw [subdivision_loop_add]
    have h := subdivide_iterate hspec uninit points (coords_table points) points.length
      points.length [] 1 (List.range points.length) bounding_box.lo bounding_box.hi [] [] []
      (.node bounding_box.lo bounding_box.hi (uninit []) .null .null)
      (by simp) (by simp [Box_node.get])
    simp only [List.length_range, List.nil_append, List.append_nil, List.length_nil,
      Nat.zero_add, hpos, decide_True, push_if, if_true] at h
    unfold initial_state
    rw [h, subdivision_loop_of_empty _ _ _ _ _ _ _ rfl]
    simp [Box_node.put]

/-! ## The coordinate table -/

theorem flatMap_blocks_getD (f : Nat → List α) (n : Nat) (hf : ∀ i, (f i).length = n) :
    ∀ (D d j : Nat), d < D → j < n →
      ((List.range D).flatMap f).getD (d * n + j) 0 = (f d).getD j 0 := by
  have hlen : ∀ D, ((List.range D).flatMap f).length = D * n := by
    intro D
    induction D with
    | zero => simp
    | succ D ih => simp [List.range_succ, List.flatMap_append, ih, hf, Nat.succ_mul]
  intro D
  induction D with
  | zero => intro d j hd; omega
  | succ D ih =>
    intro d j hd hj
    rw [List.range_succ, List.flatMap_append]
    rcases Nat.lt_succ_iff_lt_or_eq.mp hd with h | h
    · have hlt : d * n + j < ((List.range D).flatMap f).length := by
        rw [hlen]
        calc d * n + j < d * n + n := by omega
          _ = (d + 1) * n := by ring
          _ ≤ D * n := Nat.mul_le_mul_right n h
      rw [List.getD_append _ _ _ _ hlt]
      exact ih d j h hj
    · subst h
      rw [List.getD_append_right _ _ _ _ (by rw [hlen]; omega), hlen]
      simp

/-- The table holds `points[j].x[d]` at position `d * points_count + j`. -/
theorem coords_table_getD (points : List (Point α DIM)) (d j : Nat) (hd : d < DIM)
    (hj : j < points.length) :
    (coords_table points).getD (d * points.length + j) 0 = (point_at points j).get d := by
  unfold coords_table
  rw [flatMap_blocks_getD (fun i => points.map (fun p => p.get i)) points.length
    (fun i => by simp) DIM d j hd hj]
  unfold point_at
  rw [List.getD_eq_getElem _ _ (by simpa using hj), List.getD_eq_getElem _ _ hj]
  simp

/-! ## Properties of the reference description -/

omit [LinearOrderedField α] in
theorem Box_node.assigned_points_placeholder (lo hi pt : Point α DIM) :
    (Box_node.node lo hi pt .null .null).assigned_points = [] := by
  simp [Box_node.assigned_points, Box_node.isNull]

theorem build_rec_isNull (nth_element : (Nat → Nat → Bool) → List Nat → Nat → List Nat)
    (uninit : List Bool → Point α DIM) (points : List (Point α DIM)) (coords : List α)
    (points_count fuel : Nat) (path : List Bool) (dim : Nat) (slice : List Nat)
    (lo hi : Point α DIM) :
    (build_rec nth_element uninit points coords points_count fuel path dim slice lo hi).1.isNull
      = false := by
  cases fuel with
  | zero => simp [build_rec, Box_node.isNull]
  | succ fuel => cases slice <;> simp [build_rec, Box_node.isNull]

/-- Facts about the selection result for a non-empty range that every proof about
`build_rec` uses: the sizes of the two halves and the decomposition of the range. -/
theorem selection_split {nth_element : (Nat → Nat → Bool) → List Nat → Nat → List Nat}
    (hspec : NthElementSpec α nth_element) (points_count : Nat) (coords : List α)
    (dim i : Nat) (is : List Nat) (r : List Nat)
    (hr : r = nth_element (Coord_comp points_count coords dim) (i :: is)
      (((i :: is).length - 1) / 2)) :
    (r.take (((i :: is).length - 1) / 2)).length = is.length / 2 ∧
    (r.drop (((i :: is).length - 1) / 2 + 1)).length = is.length - is.length / 2 ∧
    r = r.take (((i :: is).length - 1) / 2)
      ++ r.getD (((i :: is).length - 1) / 2) 0 :: r.drop (((i :: is).length - 1) / 2 + 1) ∧
    r.Perm (i :: is) ∧ ((i :: is).length - 1) / 2 = is.length / 2 := by
  have hperm : r.Perm (i :: is) := by
    rw [hr]; exact nth_element_perm hspec points_count coords dim _ _
  have hlen : r.length = is.length + 1 := by rw [hperm.length_eq]; rfl
  have hhalf : ((i :: is).length - 1) / 2 = is.length / 2 := by simp
  rw [hhalf]
  have hlt : is.length / 2 < r.length := by omega
  refine ⟨?_, ?_, list_split_at r _ hlt, hperm, rfl⟩
  · rw [List.length_take]; omega
  · rw [List.length_drop]; omega

/-- The final content of a task's range is a permutation of the initial one, and
the points assigned in the subtree are the points the range refers to. -/
theorem build_rec_perm {nth_element : (Nat → Nat → Bool) → List Nat → Nat → List Nat}
    (hspec : NthElementSpec α nth_element)
    (uninit : List Bool → Point α DIM) (points : List (Point α DIM)) (coords : List α)
    (points_count : Nat) :
    ∀ (fuel : Nat) (path : List Bool) (dim : Nat) (slice : List Nat) (lo hi : Point α DIM),
      slice.length ≤ fuel →
      (build_rec nth_element uninit points coords points_count fuel path dim slice lo hi).2.Perm
        slice ∧
      (build_rec nth_element uninit points coords points_count fuel path dim slice
        lo hi).1.assigned_points.Perm (slice.map (point_at points)) := by
  intro fuel
  induction fuel with
  | zero =>
    intro path dim slice lo hi hfuel
    have hs : slice = [] := List.length_eq_zero.mp (Nat.le_zero.mp hfuel)
    subst hs
    simp [build_rec, Box_node.assigned_points_placeholder]
  | succ fuel ih =>
    intro path dim slice lo hi hfuel
    cases slice with
    | nil => simp [build_rec, Box_node.assigned_points_placeholder]
    | cons i is =>
      simp only [build_rec]
      obtain ⟨hA, hB, hsplit, hperm, hhalf⟩ :=
        selection_split hspec points_count coords dim i is _ rfl
      generalize nth_element (Coord_comp points_count coords dim) (i :: is)
        (((i :: is).length - 1) / 2) = r at hA hB hsplit hperm
      generalize ((i :: is).length - 1) / 2 = half at hA hB hsplit hhalf
      simp only [List.length_cons] at hfuel
      generalize r.getD half 0 = index at hsplit
      generalize coords.getD (dim * points_count + index) 0 = v
      obtain ⟨hL2, hL1⟩ := ih (path ++ [false]) ((dim + 1) % DIM) (r.take half) lo
        (hi.set dim v) (by omega)
      obtain ⟨hR2, hR1⟩ := ih (path ++ [true]) ((dim + 1) % DIM) (r.drop (half + 1))
        (lo.set dim v) hi (by omega)
      constructor
      · refine List.Perm.trans ?_ hperm
        conv_rhs => rw [hsplit]
        exact List.Perm.append hL2 (List.Perm.cons _ hR2)
      · simp only [Box_node.assigned_points, build_rec_isNull, Bool.false_and,
          Bool.false_eq_true, if_false]
        refine List.Perm.trans ?_ (hperm.map _)
        conv_rhs => rw [hsplit]
        simp only [List.map_append, List.map_cons]
        refine List.Perm.trans ?_ List.perm_middle.symm
        exact List.Perm.cons _ (List.Perm.append hL1 hR1)

/-- Shape of the subtree for a range of `slice.length` points: `2n + 1` nodes, of
which `n + 1` are childless, never one child only, and height `⌈log2(n+1)⌉ + 1`. -/
theorem build_rec_shape {nth_element : (Nat → Nat → Bool) → List Nat → Nat → List Nat}
    (hspec : NthElementSpec α nth_element)
    (uninit : List Bool → Point α DIM) (points : List (Point α DIM)) (coords : List α)
    (points_count : Nat) :
    ∀ (fuel : Nat) (path : List Bool) (dim : Nat) (slice : List Nat) (lo hi : Point α DIM),
      slice.length ≤ fuel →
      (build_rec nth_element uninit points coords points_count fuel path dim slice
        lo hi).1.size = 2 * slice.length + 1 ∧
      (build_rec nth_element uninit points coords points_count fuel path dim slice
        lo hi).1.childless = slice.length + 1 ∧
      (build_rec nth_element uninit points coords points_count fuel path dim slice
        lo hi).1.Zero_or_two ∧
      (build_rec nth_element uninit points coords points_count fuel path dim slice
        lo hi).1.height = Nat.clog 2 (slice.length + 1) + 1 := by
  intro fuel
  induction fuel with
  | zero =>
    intro path dim slice lo hi hfuel
    have hs : slice = [] := List.length_eq_zero.mp (Nat.le_zero.mp hfuel)
    subst hs
    simp [build_rec, Box_node.size, Box_node.childless, Box_node.Zero_or_two, Box_node.height,
      Box_node.isNull]
  | succ fuel ih =>
    intro path dim slice lo hi hfuel
    cases slice with
    | nil =>
      simp [build_rec, Box_node.size, Box_node.childless, Box_node.Zero_or_two,
        Box_node.height, Box_node.isNull]
    | cons i is =>
      simp only [build_rec]
      obtain ⟨hA, hB, hsplit, hperm, hhalf⟩ :=
        selection_split hspec points_count coords dim i is _ rfl
      generalize nth_element (Coord_comp points_count coords dim) (i :: is)
        (((i :: is).length - 1) / 2) = r at hA hB hsplit hperm
      generalize ((i :: is).length - 1) / 2 = half at hA hB hsplit hhalf
      simp only [List.length_cons] at hfuel
      generalize r.getD half 0 = index at hsplit
      generalize coords.getD (dim * points_count + index) 0 = v
      obtain ⟨hLs, hLc, hLz, hLh⟩ := ih (path ++ [false]) ((dim + 1) % DIM) (r.take half) lo
        (hi.set dim v) (by omega)
      obtain ⟨hRs, hRc, hRz, hRh⟩ := ih (path ++ [true]) ((dim + 1) % DIM)
        (r.drop (half + 1)) (lo.set dim v) hi (by omega)
      simp only [Box_node.size, Box_node.childless, Box_node.Zero_or_two, Box_node.height,
        build_rec_isNull, Bool.false_and, Bool.false_eq_true, if_false, hLs, hLc, hLh, hRs,
        hRc, hRh, hA, hB, List.length_cons]
      refine ⟨by omega, by omega, ⟨trivial, hLz, hRz⟩, ?_⟩
      have hmono : Nat.clog 2 (is.length / 2 + 1) ≤ Nat.clog 2 (is.length - is.length / 2 + 1) :=
        Nat.clog_mono_right 2 (by omega)
      rw [max_eq_right (by omega)]
      rw [Nat.clog_of_two_le (by norm_num) (by omega : 2 ≤ is.length + 1 + 1)]
      have : (is.length + 1 + 1 + 2 - 1) / 2 = is.length - is.length / 2 + 1 := by omega
      rw [this]
      omega

theorem build_rec_root (nth_element : (Nat → Nat → Bool) → List Nat → Nat → List Nat)
    (uninit : List Bool → Point α DIM) (points : List (Point α DIM)) (coords : List α)
    (points_count fuel : Nat) (path : List Bool) (dim : Nat) (slice : List Nat)
    (lo hi : Point α DIM) :
    ∃ pt l r, (build_rec nth_element uninit points coords points_count fuel path dim slice
      lo hi).1 = .node lo hi pt l r := by
  cases fuel with
  | zero => exact ⟨_, _, _, rfl⟩
  | succ fuel =>
    cases slice with
    | nil => exact ⟨_, _, _, rfl⟩
    | cons i is => exact ⟨_, _, _, rfl⟩

/-- Order facts about the selection result on the builder's own coordinate table:
the split value is the chosen point's coordinate, the indexes before the median
position refer to points not above it on `dim`, those after to points not below. -/
theorem selection_order {nth_element : (Nat → Nat → Bool) → List Nat → Nat → List Nat}
    (hspec : NthElementSpec α nth_element) (points : List (Point α DIM))
    (dim i : Nat) (is : List Nat) (hdim : dim < DIM)
    (hidx : ∀ a ∈ i :: is, a < points.length) (r : List Nat) (half : Nat)
    (hhalf : half = ((i :: is).length - 1) / 2)
    (hr : r = nth_element (Coord_comp points.length (coords_table points) dim) (i :: is) half) :
    r.getD half 0 < points.length ∧
    (coords_table points).getD (dim * points.length + r.getD half 0) 0
      = (point_at points (r.getD half 0)).get dim ∧
    (∀ a ∈ r.take half, a < points.length ∧
      (point_at points a).get dim ≤ (point_at points (r.getD half 0)).get dim) ∧
    (∀ b ∈ r.drop (half + 1), b < points.length ∧
      (point_at points (r.getD half 0)).get dim ≤ (point_at points b).get dim) := by
  have hperm : r.Perm (i :: is) := by
    rw [hr]; exact nth_element_perm hspec _ _ dim _ _
  have hlen : r.length = is.length + 1 := by rw [hperm.length_eq]; rfl
  have hh : half = is.length / 2 := by rw [hhalf]; simp
  have hlt : half < r.length := by omega
  have hmem : ∀ a ∈ r, a < points.length := fun a ha => hidx a (hperm.subset ha)
  have hget : ∀ j, j < r.length → r.getD j 0 < points.length := by
    intro j hj
    rw [List.getD_eq_getElem _ _ hj]
    exact hmem _ (List.getElem_mem hj)
  have hkey : ∀ j, j < r.length →
      (coords_table points).getD (dim * points.length + r.getD j 0) 0
        = (point_at points (r.getD j 0)).get dim :=
    fun j hj => coords_table_getD points dim _ hdim (hget j hj)
  refine ⟨hget half hlt, hkey half hlt, ?_, ?_⟩
  · intro a ha
    obtain ⟨j, hj, rfl⟩ := List.getElem_of_mem ha
    have hj1 : j < half := by
      have := hj; rw [List.length_take] at this; omega
    have hj2 : j < r.length := by omega
    rw [List.getElem_take]
    refine ⟨hmem _ (List.getElem_mem hj2), ?_⟩
    have h := nth_element_le hspec points.length (coords_table points) dim (i :: is) half
      j half hj1 le_rfl (by simp only [List.length_cons]; omega)
    rw [← hr, hkey j hj2, hkey half hlt, List.getD_eq_getElem _ _ hj2] at h
    exact h
  · intro b hb
    obtain ⟨j, hj, rfl⟩ := List.getElem_of_mem hb
    have hj1 : half + 1 + j < r.length := by
      have := hj; rw [List.length_drop] at this; omega
    rw [List.getElem_drop]
    refine ⟨hmem _ (List.getElem_mem hj1), ?_⟩
    have h := nth_element_nth_le hspec points.length (coords_table points) dim (i :: is) half
      (half + 1 + j) (by omega) (by simp only [List.length_cons]; omega)
    rw [← hr, hkey _ hj1, hkey half hlt, List.getD_eq_getElem _ _ hj1] at h
    exact h

/-- Box partition and subtree ordering hold below every node the reference
description builds, for a task dimension inside `0..DIM-1` and point indexes
inside `0..n-1`. -/
theorem build_rec_invariants {nth_element : (Nat → Nat → Bool) → List Nat → Nat → List Nat}
    (hspec : NthElementSpec α nth_element)
    (uninit : List Bool → Point α DIM) (points : List (Point α DIM)) :
    ∀ (fuel : Nat) (path : List Bool) (dim : Nat) (slice : List Nat) (lo hi : Point α DIM),
      slice.length ≤ fuel → dim < DIM → (∀ a ∈ slice, a < points.length) →
      (build_rec nth_element uninit points (coords_table points) points.length fuel path dim
        slice lo hi).1.Box_partition dim ∧
      (build_rec nth_element uninit points (coords_table points) points.length fuel path dim
        slice lo hi).1.Ordered dim := by
  intro fuel
  induction fuel with
  | zero =>
    intro path dim slice lo hi hfuel _ _
    have hs : slice = [] := List.length_eq_zero.mp (Nat.le_zero.mp hfuel)
    subst hs
    simp [build_rec, Box_node.Box_partition, Box_node.Ordered, child_boxes_partition,
      Box_node.assigned_points]
  | succ fuel ih =>
    intro path dim slice lo hi hfuel hdim hidx
    cases slice with
    | nil =>
      simp [build_rec, Box_node.Box_partition, Box_node.Ordered, child_boxes_partition,
        Box_node.assigned_points]
    | cons i is =>
      simp only [build_rec]
      obtain ⟨hA, hB, hsplit, hperm, hhalf⟩ :=
        selection_split hspec points.length (coords_table points) dim i is _ rfl
      obtain ⟨hidxlt, hv, hordA, hordB⟩ :=
        selection_order hspec points dim i is hdim hidx _ _ rfl rfl
      generalize nth_element (Coord_comp points.length (coords_table points) dim) (i :: is)
        (((i :: is).length - 1) / 2) = r at hA hB hsplit hperm hidxlt hv hordA hordB
      generalize ((i :: is).length - 1) / 2 = half at hA hB hsplit hhalf hidxlt hv hordA hordB
      simp only [List.length_cons] at hfuel
      generalize r.getD half 0 = index at hsplit hidxlt hv hordA hordB
      rw [hv]
      have hdim' : (dim + 1) % DIM < DIM := Nat.mod_lt _ (by omega)
      obtain ⟨hLp, hLo⟩ := ih (path ++ [false]) ((dim + 1) % DIM) (r.take half) lo
        (hi.set dim ((point_at points index).get dim)) (by omega) hdim'
        (fun a ha => (hordA a ha).1)
      obtain ⟨hRp, hRo⟩ := ih (path ++ [true]) ((dim + 1) % DIM) (r.drop (half + 1))
        (lo.set dim ((point_at points index).get dim)) hi (by omega) hdim'
        (fun b hb => (hordB b hb).1)
      have hLperm := (build_rec_perm hspec uninit points (coords_table points) points.length
        fuel (path ++ [false]) ((dim + 1) % DIM) (r.take half) lo
        (hi.set dim ((point_at points index).get dim)) (by omega)).2
      have hRperm := (build_rec_perm hspec uninit points (coords_table points) points.length
        fuel (path ++ [true]) ((dim + 1) % DIM) (r.drop (half + 1))
        (lo.set dim ((point_at points index).get dim)) hi (by omega)).2
      obtain ⟨lpt, ll, lr, hLroot⟩ := build_rec_root nth_element uninit points
        (coords_table points) points.length fuel (path ++ [false]) ((dim + 1) % DIM)
        (r.take half) lo (hi.set dim ((point_at points index).get dim))
      obtain ⟨rpt, rl, rr, hRroot⟩ := build_rec_root nth_element uninit points
        (coords_table points) points.length fuel (path ++ [true]) ((dim + 1) % DIM)
        (r.drop (half + 1)) (lo.set dim ((point_at points index).get dim)) hi
      constructor
      · refine ⟨?_, hLp, hRp⟩
        rw [hLroot, hRroot]
        refine ⟨Point.get_set_same _ _ _ hdim, (Point.get_set_same _ _ _ hdim).symm,
          fun _ _ => rfl, fun _ _ => rfl, fun d _ hd => ?_⟩
        exact ⟨Point.get_set_other _ _ _ _ hd, Point.get_set_other _ _ _ _ hd⟩
      · refine ⟨?_, ?_, hLo, hRo⟩
        · intro q hq
          obtain ⟨a, ha, rfl⟩ := List.mem_map.mp (hLperm.subset hq)
          exact (hordA a ha).2
        · intro q hq
          obtain ⟨b, hb, rfl⟩ := List.mem_map.mp (hRperm.subset hq)
          exact (hordB b hb).2

/-- With a well-formed box that contains every point of the range, every box in
the subtree the reference description builds is well-formed. -/
theorem build_rec_boxes_well_formed
    {nth_element : (Nat → Nat → Bool) → List Nat → Nat → List Nat}
    (hspec : NthElementSpec α nth_element)
    (uninit : List Bool → Point α DIM) (points : List (Point α DIM)) :
    ∀ (fuel : Nat) (path : List Bool) (dim : Nat) (slice : List Nat) (lo hi : Point α DIM),
      slice.length ≤ fuel → dim < DIM → (∀ a ∈ slice, a < points.length) →
      (Box.mk lo hi).WellFormed →
      (∀ a ∈ slice, (Box.mk lo hi).Contains (point_at points a)) →
      (build_rec nth_element uninit points (coords_table points) points.length fuel path dim
        slice lo hi).1.Boxes_well_formed := by
  intro fuel
  induction fuel with
  | zero =>
    intro path dim slice lo hi hfuel _ _ hwf _
    simp [build_rec, Box_node.Boxes_well_formed, hwf]
  | succ fuel ih =>
    intro path dim slice lo hi hfuel hdim hidx hwf hin
    cases slice with
    | nil => simp [build_rec, Box_node.Boxes_well_formed, hwf]
    | cons i is =>
      simp only [build_rec]
      obtain ⟨hA, hB, hsplit, hperm, hhalf⟩ :=
        selection_split hspec points.length (coords_table points) dim i is _ rfl
      obtain ⟨hidxlt, hv, hordA, hordB⟩ :=
        selection_order hspec points dim i is hdim hidx _ _ rfl rfl
      generalize nth_element (Coord_comp points.length (coords_table points) dim) (i :: is)
        (((i :: is).length - 1) / 2) = r at hA hB hsplit hperm hidxlt hv hordA hordB
      generalize ((i :: is).length - 1) / 2 = half at hA hB hsplit hhalf hidxlt hv hordA hordB
      simp only [List.length_cons] at hfuel
      have hmemr : ∀ a ∈ r, (Box.mk lo hi).Contains (point_at points a) :=
        fun a ha => hin a (hperm.subset ha)
      have hidxin : (Box.mk lo hi).Contains (point_at points (r.getD half 0)) := by
        apply hmemr
        have hlt : half < r.length := by
          rw [hperm.length_eq]; simp only [List.length_cons]; omega
        rw [List.getD_eq_getElem _ _ hlt]
        exact List.getElem_mem hlt
      have hAsub : ∀ a ∈ r.take half, a ∈ r := fun a ha => List.mem_of_mem_take ha
      have hBsub : ∀ b ∈ r.drop (half + 1), b ∈ r := fun b hb => List.mem_of_mem_drop hb
      generalize r.getD half 0 = index at hsplit hidxlt hv hordA hordB hidxin
      rw [hv]
      have hdim' : (dim + 1) % DIM < DIM := Nat.mod_lt _ (by omega)
      refine ⟨hwf, ?_, ?_⟩
      · apply ih _ _ _ _ _ (by omega) hdim' (fun a ha => (hordA a ha).1)
        · intro d hd
          by_cases hdd : d = dim
          · subst hdd
            show lo.get d ≤ (hi.set d _).get d
            rw [Point.get_set_same _ _ _ hd]
            exact (hidxin d hd).1
          · show lo.get d ≤ (hi.set dim _).get d
            rw [Point.get_set_other _ _ _ _ hdd]
            exact hwf d hd
        · intro a ha d hd
          by_cases hdd : d = dim
          · subst hdd
            show lo.get d ≤ _ ∧ _ ≤ (hi.set d _).get d
            rw [Point.get_set_same _ _ _ hd]
            exact ⟨(hmemr a (hAsub a ha) d hd).1, (hordA a ha).2⟩
          · show lo.get d ≤ _ ∧ _ ≤ (hi.set dim _).get d
            rw [Point.get_set_other _ _ _ _ hdd]
            exact hmemr a (hAsub a ha) d hd
      · apply ih _ _ _ _ _ (by omega) hdim' (fun b hb => (hordB b hb).1)
        · intro d hd
          by_cases hdd : d = dim
          · subst hdd
            show (lo.set d _).get d ≤ hi.get d
            rw [Point.get_set_same _ _ _ hd]
            exact (hidxin d hd).2
          · show (lo.set dim _).get d ≤ hi.get d
            rw [Point.get_set_other _ _ _ _ hdd]
            exact hwf d hd
        · intro b hb d hd
          by_cases hdd : d = dim
          · subst hdd
            show (lo.set d _).get d ≤ _ ∧ _ ≤ hi.get d
            rw [Point.get_set_same _ _ _ hd]
            exact ⟨(hordB b hb).2, (hmemr b (hBsub b hb) d hd).2⟩
          · show (lo.set dim _).get d ≤ _ ∧ _ ≤ hi.get d
            rw [Point.get_set_other _ _ _ _ hdd]
            exact hmemr b (hBsub b hb) d hd

/-! ## The constructor through the reference description -/

omit [LinearOrderedField α] in
theorem map_point_at_range [Zero α] (points : List (Point α DIM)) :
    (List.range points.length).map (fun i => points.getD i Point.zero) = points := by
  apply List.ext_getElem
  · simp
  · intro i h1 h2
    simp [List.getElem?_eq_getElem h2]

theorem KD_tree_rec_of_ne_nil (nth_element : (Nat → Nat → Bool) → List Nat → Nat → List Nat)
    (uninit : List Bool → Point α DIM) (bounding_box : Box α DIM)
    (points : List (Point α DIM)) (h : points ≠ []) :
    KD_tree_rec nth_element uninit bounding_box points
      = (build_rec nth_element uninit points (coords_table points) points.length points.length
          [] 1 (List.range points.length) bounding_box.lo bounding_box.hi).1 := by
  unfold KD_tree_rec
  cases points with
  | nil => exact absurd rfl h
  | cons p ps => simp

/-! ## Claims about the built tree -/

/-- C3 (as amended): the constructor returns, the points stored at the nodes that
have children are, as a multiset, the input points, and for `n ≥ 1` points the
tree has `2n + 1` nodes of which `n + 1` are childless. -/
theorem assigned_points_are_input
    {nth_element : (Nat → Nat → Bool) → List Nat → Nat → List Nat}
    (hspec : NthElementSpec α nth_element) (uninit : List Bool → Point α DIM)
    (bounding_box : Box α DIM) (points : List (Point α DIM)) (fuel : Nat)
    (hfuel : points.length ≤ fuel) :
    ∃ t, KD_tree nth_element uninit fuel bounding_box points = some t ∧
      t.assigned_points.Perm points ∧
      (points ≠ [] → t.size = 2 * points.length + 1 ∧ t.childless = points.length + 1) := by
  refine ⟨_, KD_tree_eq_rec hspec uninit bounding_box points fuel hfuel, ?_, ?_⟩
  · by_cases h : points = []
    · subst h
      simp [KD_tree_rec, Box_node.assigned_points]
    · rw [KD_tree_rec_of_ne_nil _ _ _ _ h]
      have := (build_rec_perm hspec uninit points (coords_table points) points.length
        points.length [] 1 (List.range points.length) bounding_box.lo bounding_box.hi
        (by simp)).2
      unfold point_at at this
      rwa [map_point_at_range] at this
  · intro h
    rw [KD_tree_rec_of_ne_nil _ _ _ _ h]
    have := build_rec_shape hspec uninit points (coords_table points) points.length
      points.length [] 1 (List.range points.length) bounding_box.lo bounding_box.hi (by simp)
    simp only [List.length_range] at this
    exact ⟨this.1, this.2.1⟩

/-- C4: in the tree the constructor returns, every node with children, split on
dimension `dim` (`1` at the root, `(dim + 1) % DIM` one level down), has
`left.hi[dim] == point[dim] == right.lo[dim]`, `left.lo == lo`, `right.hi == hi`, and
`left.hi[d] == hi[d]`, `right.lo[d] == lo[d]` for every `d ≠ dim`. -/
theorem box_partition_invariant
    {nth_element : (Nat → Nat → Bool) → List Nat → Nat → List Nat}
    (hspec : NthElementSpec α nth_element) (hDIM : 2 ≤ DIM) (uninit : List Bool → Point α DIM)
    (bounding_box : Box α DIM) (points : List (Point α DIM)) (fuel : Nat)
    (hfuel : points.length ≤ fuel) :
    ∃ t, KD_tree nth_element uninit fuel bounding_box points = some t ∧
      t.Box_partition 1 := by
  refine ⟨_, KD_tree_eq_rec hspec uninit bounding_box points fuel hfuel, ?_⟩
  by_cases h : points = []
  · subst h
    simp [KD_tree_rec, Box_node.Box_partition]
  · rw [KD_tree_rec_of_ne_nil _ _ _ _ h]
    exact (build_rec_invariants hspec uninit points points.length [] 1
      (List.range points.length) bounding_box.lo bounding_box.hi (by simp) (by omega)
      (fun a ha => List.mem_range.mp ha)).1

/-- C5: for `n ≥ 1` points the constructor returns a tree whose height (nodes on
the longest root-to-childless path) is `⌈log2(n+1)⌉ + 1`, hence within one of
`⌈log2(n+1)⌉`, whatever the coordinates. -/
theorem balance_height
    {nth_element : (Nat → Nat → Bool) → List Nat → Nat → List Nat}
    (hspec : NthElementSpec α nth_element) (uninit : List Bool → Point α DIM)
    (bounding_box : Box α DIM) (points : List (Point α DIM)) (fuel : Nat)
    (hfuel : points.length ≤ fuel) (hn : 1 ≤ points.length) :
    ∃ t, KD_tree nth_element uninit fuel bounding_box points = some t ∧
      t.height ≤ Nat.clog 2 (points.length + 1) + 1 ∧
      Nat.clog 2 (points.length + 1) ≤ t.height + 1 ∧
      t.height = Nat.clog 2 (points.length + 1) + 1 := by
  refine ⟨_, KD_tree_eq_rec hspec uninit bounding_box points fuel hfuel, ?_⟩
  have h : points ≠ [] := by
    intro h; rw [h] at hn; simp at hn
  rw [KD_tree_rec_of_ne_nil _ _ _ _ h]
  have := (build_rec_shape hspec uninit points (coords_table points) points.length
    points.length [] 1 (List.range points.length) bounding_box.lo bounding_box.hi
    (by simp)).2.2.2
  simp only [List.length_range] at this
  omega

/-- C9: in the tree the constructor returns, for every node a task on dimension
`dim` assigned a point to, the points assigned in its left subtree are `≤` the
node's point on `dim` and those in its right subtree are `≥`, for every input
list, given the `nth_element` postcondition. -/
theorem subtree_ordering_invariant
    {nth_element : (Nat → Nat → Bool) → List Nat → Nat → List Nat}
    (hspec : NthElementSpec α nth_element) (hDIM : 2 ≤ DIM) (uninit : List Bool → Point α DIM)
    (bounding_box : Box α DIM) (points : List (Point α DIM)) (fuel : Nat)
    (hfuel : points.length ≤ fuel) :
    ∃ t, KD_tree nth_element uninit fuel bounding_box points = some t ∧ t.Ordered 1 := by
  refine ⟨_, KD_tree_eq_rec hspec uninit bounding_box points fuel hfuel, ?_⟩
  by_cases h : points = []
  · subst h
    simp [KD_tree_rec, Box_node.Ordered]
  · rw [KD_tree_rec_of_ne_nil _ _ _ _ h]
    exact (build_rec_invariants hspec uninit points points.length [] 1
      (List.range points.length) bounding_box.lo bounding_box.hi (by simp) (by omega)
      (fun a ha => List.mem_range.mp ha)).2

/-- C10 (as amended): when the bounding box is well-formed and every input point
lies inside it, every node of the tree the constructor returns, the childless
ones included, has a box with `lo[d] ≤ hi[d]` in every dimension. -/
theorem boxes_well_formed_of_points_inside
    {nth_element : (Nat → Nat → Bool) → List Nat → Nat → List Nat}
    (hspec : NthElementSpec α nth_element) (hDIM : 2 ≤ DIM) (uninit : List Bool → Point α DIM)
    (bounding_box : Box α DIM) (points : List (Point α DIM)) (fuel : Nat)
    (hfuel : points.length ≤ fuel) (hwf : bounding_box.WellFormed)
    (hin : ∀ p ∈ points, bounding_box.Contains p) :
    ∃ t, KD_tree nth_element uninit fuel bounding_box points = some t ∧
      t.Boxes_well_formed := by
  refine ⟨_, KD_tree_eq_rec hspec uninit bounding_box points fuel hfuel, ?_⟩
  by_cases h : points = []
  · subst h
    simp [KD_tree_rec, Box_node.Boxes_well_formed]
  · rw [KD_tree_rec_of_ne_nil _ _ _ _ h]
    apply build_rec_boxes_well_formed hspec uninit points points.length [] 1
      (List.range points.length) bounding_box.lo bounding_box.hi (by simp) (by omega)
      (fun a ha => List.mem_range.mp ha) hwf
    intro a ha
    apply hin
    unfold point_at
    rw [List.getD_eq_getElem _ _ (List.mem_range.mp ha)]
    exact List.getElem_mem _

/-! ## Dimensions used by the builder and by the query -/

theorem subdivide_stack_dims (nth_element : (Nat → Nat → Bool) → List Nat → Nat → List Nat)
    (uninit : List Bool → Point α DIM) (points : List (Point α DIM)) (coords : List α)
    (points_count : Nat) (s : Build_state α DIM)
    (h : ∀ t ∈ s.subdivision_stack, t.dim = (1 + t.box_node.length) % DIM) :
    ∀ t ∈ (subdivide nth_element uninit points coords points_count s).subdivision_stack,
      t.dim = (1 + t.box_node.length) % DIM := by
  unfold subdivide
  cases hs : s.subdivision_stack with
  | nil => intro t ht; simp only [hs] at ht; simp at ht
  | cons task rest =>
    rw [hs] at h
    have htask := h task (List.mem_cons_self _ _)
    have hrest : ∀ t ∈ rest, t.dim = (1 + t.box_node.length) % DIM :=
      fun t ht => h t (List.mem_cons_of_mem _ ht)
    have hchild : ∀ b : Bool, (task.dim + 1) % DIM = (1 + (task.box_node ++ [b]).length) % DIM := by
      intro b
      rw [htask, List.length_append, List.length_singleton, Nat.mod_add_mod, Nat.add_assoc]
    dsimp only
    cases hg : s.root.get task.box_node with
    | null => exact hrest
    | node lo hi pt l r =>
      dsimp only
      intro t ht
      split_ifs at ht
      · rcases List.mem_cons.mp ht with rfl | ht
        · exact hchild true
        · rcases List.mem_cons.mp ht with rfl | ht
          · exact hchild false
          · exact hrest t ht
      · rcases List.mem_cons.mp ht with rfl | ht
        · exact hchild true
        · exact hrest t ht
      · rcases List.mem_cons.mp ht with rfl | ht
        · exact hchild false
        · exact hrest t ht
      · exact hrest t ht

/-- Every task the loop pops has the dimension `(1 + depth) % DIM` of its node. -/
theorem popped_tasks_dims (nth_element : (Nat → Nat → Bool) → List Nat → Nat → List Nat)
    (uninit : List Bool → Point α DIM) (points : List (Point α DIM)) (coords : List α)
    (points_count : Nat) (fuel : Nat) (s : Build_state α DIM)
    (h : ∀ t ∈ s.subdivision_stack, t.dim = (1 + t.box_node.length) % DIM) :
    ∀ t ∈ popped_tasks nth_element uninit points coords points_count fuel s,
      t.dim = (1 + t.box_node.length) % DIM := by
  induction fuel generalizing s with
  | zero => intro t ht; simp [popped_tasks] at ht
  | succ fuel ih =>
    intro t ht
    unfold popped_tasks at ht
    cases hs : s.subdivision_stack with
    | nil => simp [hs] at ht
    | cons task rest =>
      simp only [hs, List.mem_cons] at ht
      rcases ht with rfl | ht
      · exact h _ (by rw [hs]; exact List.mem_cons_self _ _)
      · exact ih _ (subdivide_stack_dims nth_element uninit points coords points_count s h) t ht

/-- Every call of the query on a non-null node has `dim = (1 + depth) % 2` when
the call it descends from has. -/
theorem query_visits_dims (t : Box_node α 2) (range : Box α 2) (dim : Nat) (path : List Bool)
    (h : dim = (1 + path.length) % 2) :
    ∀ v ∈ query_visits t range dim path, v.2.1 = (1 + v.1.length) % 2 := by
  induction t generalizing dim path with
  | null => intro v hv; simp [query_visits] at hv
  | node lo hi pt l r ihl ihr =>
    intro v hv
    have hchild : ∀ b : Bool, (dim + 1) % 2 = (1 + (path ++ [b]).length) % 2 := by
      intro b
      rw [h, List.length_append, List.length_singleton, Nat.mod_add_mod, Nat.add_assoc]
    simp only [query_visits, List.mem_cons, List.mem_append] at hv
    rcases hv with rfl | hv | hv
    · exact h
    · split_ifs at hv
      · exact ihl _ _ (hchild false) v hv
      · simp at hv
    · split_ifs at hv
      · exact ihr _ _ (hchild true) v hv
      · simp at hv

/-- The points the query appends are the points of the visited nodes that pass
the `!distance(range, point)` test, in visiting order. -/
theorem calc_range_query_result_eq_visits (t : Box_node α 2) (range : Box α 2) (dim : Nat)
    (path : List Bool) (res : List (Point α 2)) :
    calc_range_query_result t range dim res
      = res ++ ((query_visits t range dim path).map (fun v => v.2.2)).filter
          (fun p => distance_is_zero range p) := by
  induction t generalizing dim path res with
  | null => simp [calc_range_query_result, query_visits]
  | node lo hi pt l r ihl ihr =>
    simp only [calc_range_query_result, query_visits, List.map_cons, List.map_append,
      List.filter_cons, List.filter_append]
    by_cases h1 : distance_is_zero range pt = true <;>
    by_cases h2 : range.lo.get dim < pt.get dim <;>
    by_cases h3 : range.hi.get dim > pt.get dim <;>
    simp [h1, h2, h3, ihl _ (path ++ [false]), ihr _ (path ++ [true]), List.append_assoc]

/-- C8: the first task of the builder and the query call of the application both
use dimension `1`; every task the loop pops has dimension `(1 + depth) % 2`, every
node the query visits is visited with `dim = (1 + depth) % 2`; hence at every
visited node the query compares on the dimension of the task that split it. -/
theorem build_query_dimension_agreement
    (nth_element : (Nat → Nat → Bool) → List Nat → Nat → List Nat)
    (uninit : List Bool → Point α 2) (bounding_box range : Box α 2)
    (points : List (Point α 2)) (fuel : Nat) (root : Box_node α 2) :
    (∀ t ∈ (initial_state uninit bounding_box points).subdivision_stack,
      t.box_node = [] ∧ t.dim = 1) ∧
    range_query root range = calc_range_query_result root range 1 [] ∧
    (∀ t ∈ popped_tasks nth_element uninit points (coords_table points) points.length fuel
        (initial_state uninit bounding_box points), t.dim = (1 + t.box_node.length) % 2) ∧
    (∀ v ∈ query_visits root range 1 [], v.2.1 = (1 + v.1.length) % 2) ∧
    (∀ v ∈ query_visits root range 1 [],
      ∀ t ∈ popped_tasks nth_element uninit points (coords_table points) points.length fuel
        (initial_state uninit bounding_box points), t.box_node = v.1 → t.dim = v.2.1) := by
  have hinit : ∀ t ∈ (initial_state uninit bounding_box points).subdivision_stack,
      t.dim = (1 + t.box_node.length) % 2 := by
    intro t ht
    simp only [initial_state, List.mem_singleton] at ht
    subst ht
    rfl
  have hpop := popped_tasks_dims nth_element uninit points (coords_table points) points.length
    fuel _ hinit
  have hvis := query_visits_dims root range 1 [] rfl
  refine ⟨?_, rfl, hpop, hvis, ?_⟩
  · intro t ht
    simp only [initial_state, List.mem_singleton] at ht
    subst ht
    exact ⟨rfl, rfl⟩
  · intro v hv t ht hpath
    rw [hpop t ht, hvis v hv, hpath]

/-! ## Range query: what the code returns on concrete inputs -/

/-- C1: on the points `(1,1), (-2,3), (5,-5), (0,0), (7,7)` in `[(-10,-10),(10,10)]`
with query box `[(-3,-3),(6,6)]`, when the never-initialised `point` of the
childless nodes reads as `(0,0)`, the query returns seven points, four of them
from childless nodes, while the brute-force scan returns three; and on the points
`(1,1), (4,1)` with query box `[(0,1),(5,1)]` the query returns `(1,1)` only, while
both points lie in the box. -/
theorem range_query_differs_from_brute_force :
    (∃ t, KD_tree nth_element_sort zero_memory 5 example_box example_points = some t ∧
      (range_query t example_query).map Point.toPair
        = [(1, 1), (0, 0), (0, 0), (0, 0), (-2, 3), (0, 0), (0, 0)] ∧
      (brute_force example_query example_points).map Point.toPair
        = [(1, 1), (-2, 3), (0, 0)]) ∧
    (∃ t, KD_tree nth_element_sort zero_memory 2 example_box
        [Point.mk2 1 1, Point.mk2 4 1] = some t ∧
      (range_query t (⟨Point.mk2 0 1, Point.mk2 5 1⟩ : Box ℚ 2)).map Point.toPair
        = [(1, 1)] ∧
      (brute_force (⟨Point.mk2 0 1, Point.mk2 5 1⟩ : Box ℚ 2)
        [Point.mk2 1 1, Point.mk2 4 1]).map Point.toPair = [(1, 1), (4, 1)]) :=
  ⟨⟨_, rfl, by decide!, by decide!⟩, ⟨_, rfl, by decide!, by decide!⟩⟩

theorem build_rec_cons_root (nth_element : (Nat → Nat → Bool) → List Nat → Nat → List Nat)
    (uninit : List Bool → Point α DIM) (points : List (Point α DIM)) (coords : List α)
    (points_count fuel : Nat) (path : List Bool) (dim i : Nat) (is : List Nat)
    (lo hi : Point α DIM) :
    ∃ l r, (build_rec nth_element uninit points coords points_count (fuel + 1) path dim
        (i :: is) lo hi).1
      = .node lo hi (point_at points
          ((nth_element (Coord_comp points_count coords dim) (i :: is)
            (((i :: is).length - 1) / 2)).getD (((i :: is).length - 1) / 2) 0)) l r :=
  ⟨_, _, rfl⟩

/-- C2: for two copies of a point `p` and the query box `[p, p]`, whatever the
selection step and the memory content, the constructor returns and the query
returns `p` once, while `p` occurs twice in the input and lies in the box. -/
theorem duplicate_point_returned_once
    {nth_element : (Nat → Nat → Bool) → List Nat → Nat → List Nat}
    (hspec : NthElementSpec α nth_element) (uninit : List Bool → Point α 2)
    (bounding_box : Box α 2) (p : Point α 2) (fuel : Nat) (hfuel : 2 ≤ fuel) :
    ∃ t, KD_tree nth_element uninit fuel bounding_box [p, p] = some t ∧
      range_query t ⟨p, p⟩ = [p] ∧ brute_force ⟨p, p⟩ [p, p] = [p, p] := by
  have hin : distance_is_zero ⟨p, p⟩ p = true :=
    (distance_is_zero_iff _ _).mpr (fun d _ => ⟨le_rfl, le_rfl⟩)
  refine ⟨_, KD_tree_eq_rec hspec uninit bounding_box [p, p] fuel hfuel, ?_, ?_⟩
  · rw [KD_tree_rec_of_ne_nil _ _ _ _ (by simp)]
    have hrange : List.range [p, p].length = [0, 1] := rfl
    rw [hrange]
    obtain ⟨l, r, hroot⟩ := build_rec_cons_root nth_element uninit [p, p]
      (coords_table [p, p]) [p, p].length 1 [] 1 0 [1] bounding_box.lo bounding_box.hi
    have hidx := (selection_order hspec [p, p] 1 0 [1] (by norm_num)
      (by intro a ha; simp at ha; rcases ha with rfl | rfl <;> simp) _ _ rfl rfl).1
    have hpt : ∀ j, j < [p, p].length → point_at [p, p] j = p := by
      intro j hj
      simp only [List.length_cons, List.length_nil] at hj
      have : j = 0 ∨ j = 1 := by omega
      rcases this with rfl | rfl <;> rfl
    rw [hpt _ hidx] at hroot
    have hlen : [p, p].length = 1 + 1 := rfl
    rw [hlen] at hroot ⊢
    rw [hroot]
    simp [range_query, calc_range_query_result, hin]
  · simp [brute_force, List.filter, hin]

/-- The three collinear points `(0,0), (1,0), (2,0)` with query box `[(-5,0),(5,0)]`:
all three lie in the box, the query returns one. -/
theorem collinear_points_returned_once :
    ∃ t, KD_tree nth_element_sort zero_memory 3 example_box
        [Point.mk2 0 0, Point.mk2 1 0, Point.mk2 2 0] = some t ∧
      (range_query t (⟨Point.mk2 (-5) 0, Point.mk2 5 0⟩ : Box ℚ 2)).map Point.toPair
        = [(1, 0)] ∧
      (brute_force (⟨Point.mk2 (-5) 0, Point.mk2 5 0⟩ : Box ℚ 2)
        [Point.mk2 0 0, Point.mk2 1 0, Point.mk2 2 0]).map Point.toPair
        = [(0, 0), (1, 0), (2, 0)] :=
  ⟨_, rfl, by decide!, by decide!⟩

/-- The duplicate-point statement at `(1,1)` twice, with the sorting selection and
zero-filled memory. -/
theorem duplicate_point_returned_once_witness :
    NthElementSpec ℚ nth_element_sort ∧ 2 ≤ 2 ∧
    ∃ t, KD_tree nth_element_sort zero_memory 2 example_box
        [Point.mk2 1 1, Point.mk2 1 1] = some t ∧
      range_query t (⟨Point.mk2 1 1, Point.mk2 1 1⟩ : Box ℚ 2) = [Point.mk2 1 1] ∧
      brute_force (⟨Point.mk2 1 1, Point.mk2 1 1⟩ : Box ℚ 2) [Point.mk2 1 1, Point.mk2 1 1]
        = [Point.mk2 1 1, Point.mk2 1 1] :=
  ⟨nth_element_sort_spec, le_refl 2,
    duplicate_point_returned_once nth_element_sort_spec zero_memory example_box
      (Point.mk2 1 1) 2 (le_refl 2)⟩

/-! ## Counterexamples and witnesses for the claims about the built tree -/

/-- Counterexample to C3 as stated: the tree built from the single point `(2,2)` in
`[(0,0),(4,4)]` has three nodes, so its stored points cannot be the one input point. -/
theorem single_point_tree_has_three_nodes :
    ∃ t, KD_tree nth_element_sort zero_memory 1 small_box [Point.mk2 2 2] = some t ∧
      t.size = 3 ∧ t.stored_points.length = 3 ∧
      ¬ t.stored_points.Perm [Point.mk2 2 2] := by
  refine ⟨_, rfl, by decide!, by decide!, fun h => ?_⟩
  have hl := h.length_eq
  revert hl
  decide!

/-- The completeness statement on the five example points. -/
theorem assigned_points_are_input_witness :
    NthElementSpec ℚ nth_element_sort ∧ example_points.length ≤ 5 ∧
    ∃ t, KD_tree nth_element_sort zero_memory 5 example_box example_points = some t ∧
      t.assigned_points.Perm example_points ∧
      (example_points ≠ [] →
        t.size = 2 * example_points.length + 1 ∧ t.childless = example_points.length + 1) :=
  ⟨nth_element_sort_spec, by decide,
    assigned_points_are_input nth_element_sort_spec zero_memory example_box example_points 5
      (by decide)⟩

/-- The box partition invariant on the five example points. -/
theorem box_partition_invariant_witness :
    NthElementSpec ℚ nth_element_sort ∧ 2 ≤ 2 ∧ example_points.length ≤ 5 ∧
    ∃ t, KD_tree nth_element_sort zero_memory 5 example_box example_points = some t ∧
      t.Box_partition 1 :=
  ⟨nth_element_sort_spec, le_refl 2, by decide,
    box_partition_invariant nth_element_sort_spec (le_refl 2) zero_memory example_box
      example_points 5 (by decide)⟩

/-- The height statement on the five example points (height `4`). -/
theorem balance_height_witness :
    NthElementSpec ℚ nth_element_sort ∧ example_points.length ≤ 5 ∧
    1 ≤ example_points.length ∧
    ∃ t, KD_tree nth_element_sort zero_memory 5 example_box example_points = some t ∧
      t.height ≤ Nat.clog 2 (example_points.length + 1) + 1 ∧
      Nat.clog 2 (example_points.length + 1) ≤ t.height + 1 ∧
      t.height = Nat.clog 2 (example_points.length + 1) + 1 :=
  ⟨nth_element_sort_spec, by decide, by decide,
    balance_height nth_element_sort_spec zero_memory example_box example_points 5
      (by decide) (by decide)⟩

/-- The ordering invariant on three points that share their second coordinate. -/
theorem subtree_ordering_invariant_witness :
    NthElementSpec ℚ nth_element_sort ∧ 2 ≤ 2 ∧
    [Point.mk2 (0 : ℚ) 0, Point.mk2 1 0, Point.mk2 2 0].length ≤ 3 ∧
    ∃ t, KD_tree nth_element_sort zero_memory 3 example_box
        [Point.mk2 0 0, Point.mk2 1 0, Point.mk2 2 0] = some t ∧ t.Ordered 1 :=
  ⟨nth_element_sort_spec, le_refl 2, by decide,
    subtree_ordering_invariant nth_element_sort_spec (le_refl 2) zero_memory example_box
      [Point.mk2 0 0, Point.mk2 1 0, Point.mk2 2 0] 3 (by decide)⟩

/-- Counterexample to C10 as stated: the bounding box `[(0,0),(4,4)]` is well-formed,
the input point `(2,10)` lies outside it, and the right child of the root gets the
box `lo = (0,10)`, `hi = (4,4)`. -/
theorem point_outside_gives_malformed_box :
    ∃ t, KD_tree nth_element_sort zero_memory 1 small_box [Point.mk2 2 10] = some t ∧
      small_box.WellFormed ∧ ¬ t.Boxes_well_formed ∧
      ∃ lo hi pt l r, t.get [true] = .node lo hi pt l r ∧
        lo.toPair = (0, 10) ∧ hi.toPair = (4, 4) :=
  ⟨_, rfl, by decide!, by decide!, _, _, _, _, _, rfl, by decide!, by decide!⟩

/-- Box well-formedness on the five example points, all inside `[(-10,-10),(10,10)]`. -/
theorem boxes_well_formed_of_points_inside_witness :
    NthElementSpec ℚ nth_element_sort ∧ 2 ≤ 2 ∧ example_points.length ≤ 5 ∧
    example_box.WellFormed ∧ (∀ p ∈ example_points, example_box.Contains p) ∧
    ∃ t, KD_tree nth_element_sort zero_memory 5 example_box example_points = some t ∧
      t.Boxes_well_formed :=
  ⟨nth_element_sort_spec, le_refl 2, by decide, by decide!, by decide!,
    boxes_well_formed_of_points_inside nth_element_sort_spec (le_refl 2) zero_memory
      example_box example_points 5 (by decide) (by decide!) (by decide!)⟩

/-- On the five example points the loop pops five tasks, the root first and the
right child before the left one; dimensions alternate `1, 0, 1` with depth. -/
theorem example_popped_tasks :
    popped_tasks nth_element_sort zero_memory example_points (coords_table example_points)
      example_points.length 5 (initial_state zero_memory example_box example_points)
      = [⟨[], 1, 0, 4⟩, ⟨[true], 0, 3, 4⟩, ⟨[true, true], 1, 4, 4⟩,
         ⟨[false], 0, 0, 1⟩, ⟨[false, true], 1, 1, 1⟩] := by
  decide!

/-- On the five example points the example query visits nine nodes, four of them
childless, with `dim` alternating `1, 0, 1, 0` with depth. -/
theorem example_query_visits :
    ∃ t, KD_tree nth_element_sort zero_memory 5 example_box example_points = some t ∧
      (query_visits t example_query 1 []).map (fun v => (v.1, v.2.1, v.2.2.toPair))
        = [([], 1, (1, 1)), ([false], 0, (0, 0)), ([false, false], 1, (0, 0)),
           ([false, true], 1, (5, -5)), ([false, true, true], 0, (0, 0)),
           ([true], 0, (-2, 3)), ([true, false], 1, (0, 0)), ([true, true], 1, (7, 7)),
           ([true, true, false], 0, (0, 0))] :=
  ⟨_, rfl, by decide!⟩

/-! ## Points lie in their boxes -/

/-- With every point of the range inside the box of the task's node, every point
assigned in a subtree lies in the box of the subtree's root. -/
theorem build_rec_points_in_boxes
    {nth_element : (Nat → Nat → Bool) → List Nat → Nat → List Nat}
    (hspec : NthElementSpec α nth_element)
    (uninit : List Bool → Point α DIM) (points : List (Point α DIM)) :
    ∀ (fuel : Nat) (path : List Bool) (dim : Nat) (slice : List Nat) (lo hi : Point α DIM),
      slice.length ≤ fuel → dim < DIM → (∀ a ∈ slice, a < points.length) →
      (∀ a ∈ slice, (Box.mk lo hi).Contains (point_at points a)) →
      (build_rec nth_element uninit points (coords_table points) points.length fuel path dim
        slice lo hi).1.Points_in_boxes := by
  intro fuel
  induction fuel with
  | zero =>
    intro path dim slice lo hi hfuel _ _ _
    simp [build_rec, Box_node.Points_in_boxes, Box_node.assigned_points_placeholder]
  | succ fuel ih =>
    intro path dim slice lo hi hfuel hdim hidx hin
    have hroot := (build_rec_perm hspec uninit points (coords_table points) points.length
      (fuel + 1) path dim slice lo hi hfuel).2
    cases slice with
    | nil => simp [build_rec, Box_node.Points_in_boxes, Box_node.assigned_points_placeholder]
    | cons i is =>
      simp only [build_rec] at hroot ⊢
      obtain ⟨hA, hB, hsplit, hperm, hhalf⟩ :=
        selection_split hspec points.length (coords_table points) dim i is _ rfl
      obtain ⟨hidxlt, hv, hordA, hordB⟩ :=
        selection_order hspec points dim i is hdim hidx _ _ rfl rfl
      generalize nth_element (Coord_comp points.length (coords_table points) dim) (i :: is)
        (((i :: is).length - 1) / 2) = r at hA hB hsplit hperm hidxlt hv hordA hordB hroot
      generalize ((i :: is).length - 1) / 2 = half
        at hA hB hsplit hhalf hidxlt hv hordA hordB hroot
      simp only [List.length_cons] at hfuel
      have hmemr : ∀ a ∈ r, (Box.mk lo hi).Contains (point_at points a) :=
        fun a ha => hin a (hperm.subset ha)
      have hAsub : ∀ a ∈ r.take half, a ∈ r := fun a ha => List.mem_of_mem_take ha
      have hBsub : ∀ b ∈ r.drop (half + 1), b ∈ r := fun b hb => List.mem_of_mem_drop hb
      generalize r.getD half 0 = index at hsplit hidxlt hv hordA hordB hroot
      rw [hv] at hroot ⊢
      have hdim' : (dim + 1) % DIM < DIM := Nat.mod_lt _ (by omega)
      refine ⟨?_, ?_, ?_⟩
      · intro q hq
        obtain ⟨a, ha, rfl⟩ := List.mem_map.mp (hroot.subset hq)
        exact hin a ha
      · apply ih _ _ _ _ _ (by omega) hdim' (fun a ha => (hordA a ha).1)
        intro a ha d hd
        by_cases hdd : d = dim
        · subst hdd
          show lo.get d ≤ _ ∧ _ ≤ (hi.set d _).get d
          rw [Point.get_set_same _ _ _ hd]
          exact ⟨(hmemr a (hAsub a ha) d hd).1, (hordA a ha).2⟩
        · show lo.get d ≤ _ ∧ _ ≤ (hi.set dim _).get d
          rw [Point.get_set_other _ _ _ _ hdd]
          exact hmemr a (hAsub a ha) d hd
      · apply ih _ _ _ _ _ (by omega) hdim' (fun b hb => (hordB b hb).1)
        intro b hb d hd
        by_cases hdd : d = dim
        · subst hdd
          show (lo.set d _).get d ≤ _ ∧ _ ≤ hi.get d
          rw [Point.get_set_same _ _ _ hd]
          exact ⟨(hordB b hb).2, (hmemr b (hBsub b hb) d hd).2⟩
        · show (lo.set dim _).get d ≤ _ ∧ _ ≤ hi.get d
          rw [Point.get_set_other _ _ _ _ hdd]
          exact hmemr b (hBsub b hb) d hd

/-- C11: when the bounding box is well-formed and every input point lies inside it,
the constructor returns a tree in which, at every node a task assigned a point to,
that point and every point assigned in the node's subtree lie in the node's box. -/
theorem points_lie_in_their_boxes
    {nth_element : (Nat → Nat → Bool) → List Nat → Nat → List Nat}
    (hspec : NthElementSpec α nth_element) (hDIM : 2 ≤ DIM) (uninit : List Bool → Point α DIM)
    (bounding_box : Box α DIM) (points : List (Point α DIM)) (fuel : Nat)
    (hfuel : points.length ≤ fuel) (_hwf : bounding_box.WellFormed)
    (hin : ∀ p ∈ points, bounding_box.Contains p) :
    ∃ t, KD_tree nth_element uninit fuel bounding_box points = some t ∧
      t.Points_in_boxes := by
  refine ⟨_, KD_tree_eq_rec hspec uninit bounding_box points fuel hfuel, ?_⟩
  by_cases h : points = []
  · subst h
    simp [KD_tree_rec, Box_node.Points_in_boxes]
  · rw [KD_tree_rec_of_ne_nil _ _ _ _ h]
    apply build_rec_points_in_boxes hspec uninit points points.length [] 1
      (List.range points.length) bounding_box.lo bounding_box.hi (by simp) (by omega)
      (fun a ha => List.mem_range.mp ha)
    intro a ha
    apply hin
    unfold point_at
    rw [List.getD_eq_getElem _ _ (List.mem_range.mp ha)]
    exact List.getElem_mem _

/-- The statement on points in their boxes on the five example points. -/
theorem points_lie_in_their_boxes_witness :
    NthElementSpec ℚ nth_element_sort ∧ 2 ≤ 2 ∧ example_points.length ≤ 5 ∧
    example_box.WellFormed ∧ (∀ p ∈ example_points, example_box.Contains p) ∧
    ∃ t, KD_tree nth_element_sort zero_memory 5 example_box example_points = some t ∧
      t.Points_in_boxes :=
  ⟨nth_element_sort_spec, le_refl 2, by decide, by decide!, by decide!,
    points_lie_in_their_boxes nth_element_sort_spec (le_refl 2) zero_memory
      example_box example_points 5 (by decide) (by decide!) (by decide!)⟩

/-! ## The selection partitioner on an index array -/

theorem slice_decomp (point_indexes : List Nat) (start_index end_index : Nat)
    (h : start_index ≤ end_index + 1) :
    point_indexes.take start_index
      ++ (point_indexes.drop start_index).take (end_index + 1 - start_index)
      ++ point_indexes.drop (end_index + 1) = point_indexes := by
  have hd : point_indexes.drop (end_index + 1)
      = (point_indexes.drop start_index).drop (end_index + 1 - start_index) := by
    rw [List.drop_drop]
    congr 1
    omega
  rw [hd, List.append_assoc, List.take_append_drop, List.take_append_drop]

theorem slice_length (point_indexes : List Nat) (start_index end_index : Nat)
    (h1 : start_index ≤ end_index + 1) (h2 : end_index < point_indexes.length) :
    ((point_indexes.drop start_index).take (end_index + 1 - start_index)).length
      = end_index + 1 - start_index := by
  rw [List.length_take, List.length_drop]
  omega

/-- Position `start_index + i` of the partitioned array is position `i` of the
reordered range. -/
theorem partition_getD_inside {nth_element : (Nat → Nat → Bool) → List Nat → Nat → List Nat}
    (hspec : NthElementSpec α nth_element) (point_indexes : List Nat) (coords : List α)
    (start_index partition_index end_index points_count curr_dim : Nat)
    (h1 : start_index ≤ end_index + 1) (h2 : end_index < point_indexes.length)
    (i : Nat) (hi : start_index + i ≤ end_index) :
    (partition_point_indexes nth_element point_indexes coords start_index partition_index
        end_index points_count curr_dim).getD (start_index + i) 0
      = (nth_element (Coord_comp points_count coords curr_dim)
          ((point_indexes.drop start_index).take (end_index + 1 - start_index))
          (partition_index - start_index)).getD i 0 := by
  unfold partition_point_indexes
  have hr := nth_element_length hspec points_count coords curr_dim
    ((point_indexes.drop start_index).take (end_index + 1 - start_index))
    (partition_index - start_index)
  rw [slice_length _ _ _ h1 h2] at hr
  have htake : (point_indexes.take start_index).length = start_index := by
    rw [List.length_take]; omega
  rw [List.append_assoc, List.getD_append_right _ _ _ _ (by omega), htake,
    Nat.add_sub_cancel_left, List.getD_append _ _ _ _ (by omega)]

theorem partition_perm {nth_element : (Nat → Nat → Bool) → List Nat → Nat → List Nat}
    (hspec : NthElementSpec α nth_element) (point_indexes : List Nat) (coords : List α)
    (start_index partition_index end_index points_count curr_dim : Nat)
    (h1 : start_index ≤ end_index + 1) :
    (partition_point_indexes nth_element point_indexes coords start_index partition_index
        end_index points_count curr_dim).Perm point_indexes := by
  have hp := nth_element_perm hspec points_count coords curr_dim
    ((point_indexes.drop start_index).take (end_index + 1 - start_index))
    (partition_index - start_index)
  conv_rhs => rw [← slice_decomp point_indexes start_index end_index h1]
  unfold partition_point_indexes
  exact List.Perm.append (List.Perm.append (List.Perm.refl _) hp) (List.Perm.refl _)

theorem partition_getD_outside {nth_element : (Nat → Nat → Bool) → List Nat → Nat → List Nat}
    (hspec : NthElementSpec α nth_element) (point_indexes : List Nat) (coords : List α)
    (start_index partition_index end_index points_count curr_dim : Nat)
    (h1 : start_index ≤ end_index + 1) (h2 : end_index < point_indexes.length)
    (i : Nat) (hi : i < start_index ∨ end_index < i) :
    (partition_point_indexes nth_element point_indexes coords start_index partition_index
        end_index points_count curr_dim).getD i 0 = point_indexes.getD i 0 := by
  have hr := nth_element_length hspec points_count coords curr_dim
    ((point_indexes.drop start_index).take (end_index + 1 - start_index))
    (partition_index - start_index)
  have hsl := slice_length point_indexes _ _ h1 h2
  rw [hsl] at hr
  have htake : (point_indexes.take start_index).length = start_index := by
    rw [List.length_take]; omega
  conv_rhs => rw [← slice_decomp point_indexes start_index end_index h1]
  unfold partition_point_indexes
  rcases hi with hi | hi
  · rw [List.append_assoc, List.append_assoc, List.getD_append _ _ _ _ (by omega),
      List.getD_append _ _ _ _ (by omega)]
  · rw [List.getD_append_right _ _ _ _ (by simp only [List.length_append]; omega),
      List.getD_append_right _ _ _ _ (by simp only [List.length_append]; omega)]
    simp only [List.length_append, htake, hr, hsl]

/-- Postcondition of `partition_point_indexes` under the `nth_element`
postcondition, for `start ≤ k ≤ end < size`. -/
theorem partition_point_indexes_post
    {nth_element : (Nat → Nat → Bool) → List Nat → Nat → List Nat}
    (hspec : NthElementSpec α nth_element) (point_indexes : List Nat) (coords : List α)
    (start_index partition_index end_index points_count curr_dim : Nat)
    (h1 : start_index ≤ partition_index) (h2 : partition_index ≤ end_index)
    (h3 : end_index < point_indexes.length) :
    (partition_point_indexes nth_element point_indexes coords start_index partition_index
        end_index points_count curr_dim).Perm point_indexes ∧
    (∀ i, i < start_index ∨ end_index < i →
      (partition_point_indexes nth_element point_indexes coords start_index partition_index
        end_index points_count curr_dim).getD i 0 = point_indexes.getD i 0) ∧
    (((partition_point_indexes nth_element point_indexes coords start_index partition_index
        end_index points_count curr_dim).drop start_index).take
          (end_index + 1 - start_index)).Perm
      ((point_indexes.drop start_index).take (end_index + 1 - start_index)) ∧
    (∀ i, start_index ≤ i → i < partition_index →
      coords.getD (curr_dim * points_count
          + (partition_point_indexes nth_element point_indexes coords start_index
              partition_index end_index points_count curr_dim).getD i 0) 0
        ≤ coords.getD (curr_dim * points_count
          + (partition_point_indexes nth_element point_indexes coords start_index
              partition_index end_index points_count curr_dim).getD partition_index 0) 0) ∧
    (∀ j, partition_index < j → j ≤ end_index →
      coords.getD (curr_dim * points_count
          + (partition_point_indexes nth_element point_indexes coords start_index
              partition_index end_index points_count curr_dim).getD partition_index 0) 0
        ≤ coords.getD (curr_dim * points_count
          + (partition_point_indexes nth_element point_indexes coords start_index
              partition_index end_index points_count curr_dim).getD j 0) 0) ∧
    (∀ (points : List (Point α DIM)) (d j : Nat), d < DIM → j < points.length →
      (coords_table points).getD (d * points.length + j) 0
        = (points.getD j Point.zero).get d) := by
  have h12 : start_index ≤ end_index + 1 := by omega
  have hsl := slice_length point_indexes start_index end_index h12 h3
  have hinside : ∀ i, start_index ≤ i → i ≤ end_index →
      (partition_point_indexes nth_element point_indexes coords start_index partition_index
        end_index points_count curr_dim).getD i 0
      = (nth_element (Coord_comp points_count coords curr_dim)
          ((point_indexes.drop start_index).take (end_index + 1 - start_index))
          (partition_index - start_index)).getD (i - start_index) 0 := by
    intro i hi1 hi2
    have := partition_getD_inside hspec point_indexes coords start_index partition_index
      end_index points_count curr_dim h12 h3 (i - start_index) (by omega)
    rwa [Nat.add_sub_cancel' hi1] at this
  refine ⟨partition_perm hspec _ _ _ _ _ _ _ h12,
    fun i hi => partition_getD_outside hspec _ _ _ _ _ _ _ h12 h3 i hi, ?_, ?_, ?_,
    fun points d j hd hj => coords_table_getD points d j hd hj⟩
  · have hr := nth_element_length hspec points_count coords curr_dim
      ((point_indexes.drop start_index).take (end_index + 1 - start_index))
      (partition_index - start_index)
    have htake : (point_indexes.take start_index).length = start_index := by
      rw [List.length_take]; omega
    have : ((partition_point_indexes nth_element point_indexes coords start_index
        partition_index end_index points_count curr_dim).drop start_index).take
          (end_index + 1 - start_index)
        = nth_element (Coord_comp points_count coords curr_dim)
          ((point_indexes.drop start_index).take (end_index + 1 - start_index))
          (partition_index - start_index) := by
      unfold partition_point_indexes
      rw [List.append_assoc, List.drop_append_eq_append_drop, htake]
      simp only [Nat.sub_self, List.drop_zero]
      rw [List.drop_of_length_le (by omega), List.nil_append,
        List.take_append_eq_append_take, List.take_of_length_le (by omega)]
      rw [hr, hsl]
      simp
    rw [this]
    exact nth_element_perm hspec _ _ _ _ _
  · intro i hi1 hi2
    rw [hinside i hi1 (by omega), hinside partition_index h1 h2]
    exact nth_element_le hspec points_count coords curr_dim _ _ _ _ (by omega) le_rfl
      (by rw [hsl]; omega)
  · intro j hj1 hj2
    rw [hinside j (by omega) hj2, hinside partition_index h1 h2]
    exact nth_element_nth_le hspec points_count coords curr_dim _ _ _ (by omega)
      (by rw [hsl]; omega)

/-! ## The loop body on the top task of any state -/

/-- Effect of one loop iteration on a state whose top task has a non-empty range
inside `point_indexes` and a node to subdivide. -/
theorem subdivide_top {nth_element : (Nat → Nat → Bool) → List Nat → Nat → List Nat}
    (hspec : NthElementSpec α nth_element)
    (uninit : List Bool → Point α DIM) (points : List (Point α DIM)) (coords : List α)
    (points_count : Nat) (s : Build_state α DIM) (task : Subdivision_task)
    (rest : List Subdivision_task) (hs : s.subdivision_stack = task :: rest)
    (h1 : task.ptlo ≤ task.pthi) (h2 : task.pthi < s.point_indexes.length)
    (lo hi p0 : Point α DIM) (l0 r0 : Box_node α DIM)
    (hget : s.root.get task.box_node = .node lo hi p0 l0 r0) :
    subdivide nth_element uninit points coords points_count s =
    ⟨s.point_indexes.take task.ptlo
        ++ task_selection nth_element coords points_count s.point_indexes task
        ++ s.point_indexes.drop (task.pthi + 1),
      s.root.put task.box_node (.node lo hi
        (points.getD ((task_selection nth_element coords points_count s.point_indexes
          task).getD (task_half task) 0) Point.zero)
        (.node lo (hi.set task.dim (coords.getD (task.dim * points_count
          + (task_selection nth_element coords points_count s.point_indexes
              task).getD (task_half task) 0) 0))
          (uninit (task.box_node ++ [false])) .null .null)
        (.node (lo.set task.dim (coords.getD (task.dim * points_count
          + (task_selection nth_element coords points_count s.point_indexes
              task).getD (task_half task) 0) 0)) hi
          (uninit (task.box_node ++ [true])) .null .null)),
      push_if (decide (1 < task_count task - task_half task))
        ⟨task.box_node ++ [true], (task.dim + 1) % DIM, task.ptlo + task_half task + 1,
          task.pthi⟩
        (push_if (decide (0 < task_half task))
          ⟨task.box_node ++ [false], (task.dim + 1) % DIM, task.ptlo,
            task.ptlo + task_half task - 1⟩ rest)⟩ := by
  obtain ⟨idx, root, stack⟩ := s
  obtain ⟨path, dim, ptlo, pthi⟩ := task
  simp only at hs h1 h2 hget
  subst hs
  have hsl := slice_length idx ptlo pthi (by omega) h2
  have hpre : (idx.take ptlo).length = ptlo := by rw [List.length_take]; omega
  have hstate : (⟨idx, root, ⟨path, dim, ptlo, pthi⟩ :: rest⟩ : Build_state α DIM)
      = ⟨idx.take ptlo ++ (idx.drop ptlo).take (pthi + 1 - ptlo) ++ idx.drop (pthi + 1), root,
          ⟨path, dim, (idx.take ptlo).length,
            (idx.take ptlo).length + ((idx.drop ptlo).take (pthi + 1 - ptlo)).length - 1⟩
            :: rest⟩ := by
    rw [slice_decomp idx ptlo pthi (by omega), hpre, hsl]
    congr 3
    omega
  have hne : (idx.drop ptlo).take (pthi + 1 - ptlo) ≠ [] := by
    intro h
    rw [h] at hsl
    simp at hsl
    omega
  dsimp only
  conv_lhs => rw [hstate, subdivide_task hspec uninit points coords points_count _ _ _ rest
    root path dim lo hi p0 l0 r0 hne hget]
  simp only [task_selection, task_slice, task_half, task_count, hpre, hsl]
  have e2 : pthi + 1 - ptlo = pthi - ptlo + 1 := by omega
  have e3 : ptlo + (pthi - ptlo + 1) - 1 = pthi := by omega
  rw [e2, e3]

/-! ## The loop invariant -/

omit [LinearOrderedField α] in
theorem Box_node.get_put_disjoint (t : Box_node α DIM) (p q : List Bool) (x : Box_node α DIM)
    (h : Disjoint_paths p q) : (t.put p x).get q = t.get q := by
  induction p generalizing t q with
  | nil => exact absurd List.nil_prefix h.1
  | cons b p ih =>
    cases q with
    | nil => exact absurd List.nil_prefix h.2
    | cons c q =>
      cases t with
      | null => rfl
      | node lo hi pt l r =>
        by_cases hbc : b = c
        · subst hbc
          have h' : Disjoint_paths p q :=
            ⟨fun hp => h.1 ((List.prefix_cons_inj b).mpr hp),
              fun hq => h.2 ((List.prefix_cons_inj b).mpr hq)⟩
          cases b <;> simp [Box_node.put, Box_node.get, ih _ _ h']
        · cases b <;> cases c <;> simp_all [Box_node.put, Box_node.get]

theorem disjoint_paths_child (p q : List Bool) (b : Bool) (h : Disjoint_paths p q) :
    Disjoint_paths (p ++ [b]) q := by
  refine ⟨fun hp => h.1 (List.IsPrefix.trans (List.prefix_append p [b]) hp), fun hq => ?_⟩
  rcases List.prefix_concat_iff.mp hq with hq | hq
  · exact h.1 (hq ▸ List.prefix_append p [b])
  · exact h.2 hq

theorem disjoint_paths_siblings (p : List Bool) :
    Disjoint_paths (p ++ [true]) (p ++ [false]) := by
  constructor <;> intro h <;>
  · have := (List.prefix_append_right_inj p).mp h
    simp at this

theorem mem_push_if (c : Bool) (t x : Subdivision_task) (s : List Subdivision_task) :
    x ∈ push_if c t s ↔ (c = true ∧ x = t) ∨ x ∈ s := by
  cases c <;> simp [push_if]

theorem pending_points_push_if (c : Bool) (t : Subdivision_task) (s : List Subdivision_task) :
    pending_points (push_if c t s) = (if c then task_count t else 0) + pending_points s := by
  cases c <;> simp [push_if, pending_points]

theorem pairwise_push_if (R : Subdivision_task → Subdivision_task → Prop) (c : Bool)
    (t : Subdivision_task) (s : List Subdivision_task)
    (h1 : c = true → ∀ y ∈ s, R t y) (h2 : s.Pairwise R) : (push_if c t s).Pairwise R := by
  cases c
  · simpa [push_if] using h2
  · simp only [push_if, if_true]
    exact List.Pairwise.cons (h1 rfl) h2

omit [LinearOrderedField α] in
/-- The state on entry to the loop satisfies the invariant. -/
theorem build_inv_initial (hDIM : 2 ≤ DIM) (uninit : List Bool → Point α DIM)
    (bounding_box : Box α DIM) (points : List (Point α DIM)) (hn : 1 ≤ points.length) :
    Build_inv points.length (initial_state uninit bounding_box points) := by
  refine ⟨List.Perm.refl _, ?_, ?_⟩
  · intro t ht
    simp only [initial_state, List.mem_singleton] at ht
    subst ht
    refine ⟨Nat.zero_le _, ?_, ?_, ?_⟩
    · show points.length - 1 < points.length
      omega
    · show 1 < DIM
      omega
    · simp [initial_state, Box_node.get]
  · simp [initial_state]

/-- One loop iteration keeps the invariant, and when there is a task to pop it
lowers the number of pending points by exactly one. -/
theorem build_inv_step {nth_element : (Nat → Nat → Bool) → List Nat → Nat → List Nat}
    (hspec : NthElementSpec α nth_element)
    (uninit : List Bool → Point α DIM) (points : List (Point α DIM)) (coords : List α)
    (points_count : Nat) (s : Build_state α DIM) (hinv : Build_inv points_count s) :
    Build_inv points_count (subdivide nth_element uninit points coords points_count s) ∧
    (s.subdivision_stack ≠ [] →
      pending_points (subdivide nth_element uninit points coords points_count
        s).subdivision_stack + 1 = pending_points s.subdivision_stack) := by
  obtain ⟨hperm, htasks, hpair⟩ := hinv
  cases hs : s.subdivision_stack with
  | nil =>
    rw [subdivide_of_empty _ _ _ _ _ s hs]
    exact ⟨⟨hperm, htasks, hpair⟩, fun h => absurd rfl h⟩
  | cons task rest =>
    rw [hs] at htasks hpair
    obtain ⟨h1, h2, hdim, hnn⟩ := htasks task (List.mem_cons_self _ _)
    have hlen : s.point_indexes.length = points_count := by
      rw [hperm.length_eq, List.length_range]
    cases hget : s.root.get task.box_node with
    | null => exact absurd hget hnn
    | node lo hi p0 l0 r0 =>
      rw [subdivide_top hspec uninit points coords points_count s task rest hs h1
        (by omega) lo hi p0 l0 r0 hget]
      have hcnt : task_count task = task.pthi - task.ptlo + 1 := rfl
      have hhalf : task_half task = (task.pthi - task.ptlo + 1 - 1) / 2 := rfl
      have hrest : ∀ y ∈ rest, Disjoint_paths task.box_node y.box_node :=
        fun y hy => List.rel_of_pairwise_cons hpair hy
      have hdim' : (task.dim + 1) % DIM < DIM := Nat.mod_lt _ (by omega)
      refine ⟨⟨?_, ?_, ?_⟩, fun _ => ?_⟩
      · refine List.Perm.trans ?_ hperm
        have hp : (task_selection nth_element coords points_count s.point_indexes task).Perm
            (task_slice s.point_indexes task) := nth_element_perm hspec _ _ _ _ _
        conv_rhs => rw [← slice_decomp s.point_indexes task.ptlo task.pthi (by omega)]
        exact List.Perm.append (List.Perm.append (List.Perm.refl _) hp) (List.Perm.refl _)
      · intro t ht
        dsimp only at ht ⊢
        rcases (mem_push_if _ _ _ _).mp ht with ⟨hc, rfl⟩ | ht
        · have hc' : 1 < task_count task - task_half task := by simpa using hc
          refine ⟨?_, h2, hdim', ?_⟩
          · show task.ptlo + task_half task + 1 ≤ task.pthi
            omega
          · show (Box_node.put _ _ _).get (task.box_node ++ [true]) ≠ _
            rw [Box_node.get_put_append _ _ _ _ hnn]
            simp [Box_node.get]
        · rcases (mem_push_if _ _ _ _).mp ht with ⟨hc, rfl⟩ | ht
          · have hc' : 0 < task_half task := by simpa using hc
            refine ⟨?_, ?_, hdim', ?_⟩
            · show task.ptlo ≤ task.ptlo + task_half task - 1
              omega
            · show task.ptlo + task_half task - 1 < points_count
              omega
            · show (Box_node.put _ _ _).get (task.box_node ++ [false]) ≠ _
              rw [Box_node.get_put_append _ _ _ _ hnn]
              simp [Box_node.get]
          · obtain ⟨a, b, c, d⟩ := htasks t (List.mem_cons_of_mem _ ht)
            refine ⟨a, b, c, ?_⟩
            rw [Box_node.get_put_disjoint _ _ _ _ (hrest t ht)]
            exact d
      · dsimp only
        apply pairwise_push_if
        · intro _ y hy
          rcases (mem_push_if _ _ _ _).mp hy with ⟨_, rfl⟩ | hy
          · exact disjoint_paths_siblings _
          · exact disjoint_paths_child _ _ _ (hrest y hy)
        · apply pairwise_push_if
          · intro _ y hy
            exact disjoint_paths_child _ _ _ (hrest y hy)
          · exact List.Pairwise.of_cons hpair
      · dsimp only
        rw [pending_points_push_if, pending_points_push_if]
        have hp : pending_points (task :: rest) = task_count task + pending_points rest := by
          simp [pending_points]
        rw [hp]
        simp only [task_count, task_half, decide_eq_true_eq]
        split_ifs <;> omega

/-! ## Reached states, termination and the popped tasks -/

theorem build_inv_iterate {nth_element : (Nat → Nat → Bool) → List Nat → Nat → List Nat}
    (hspec : NthElementSpec α nth_element)
    (uninit : List Bool → Point α DIM) (points : List (Point α DIM)) (coords : List α)
    (points_count : Nat) (s : Build_state α DIM) (hinv : Build_inv points_count s) (k : Nat) :
    Build_inv points_count ((subdivide nth_element uninit points coords points_count)^[k] s) := by
  induction k with
  | zero => exact hinv
  | succ k ih =>
    rw [Function.iterate_succ_apply']
    exact (build_inv_step hspec uninit points coords points_count _ ih).1

theorem pending_points_eq_zero (stack : List Subdivision_task) :
    pending_points stack = 0 ↔ stack = [] := by
  cases stack with
  | nil => simp [pending_points]
  | cons t rest =>
    simp only [pending_points, List.map_cons, List.sum_cons, task_count]
    constructor
    · intro h; omega
    · intro h; simp at h

/-- After `k` iterations exactly `k` of the pending points have been assigned (or
all of them). -/
theorem pending_points_iterate {nth_element : (Nat → Nat → Bool) → List Nat → Nat → List Nat}
    (hspec : NthElementSpec α nth_element)
    (uninit : List Bool → Point α DIM) (points : List (Point α DIM)) (coords : List α)
    (points_count : Nat) (s : Build_state α DIM) (hinv : Build_inv points_count s) (k : Nat) :
    pending_points ((subdivide nth_element uninit points coords points_count)^[k]
      s).subdivision_stack = pending_points s.subdivision_stack - k := by
  induction k with
  | zero => simp
  | succ k ih =>
    rw [Function.iterate_succ_apply']
    have hk := build_inv_iterate hspec uninit points coords points_count s hinv k
    by_cases he : ((subdivide nth_element uninit points coords points_count)^[k]
        s).subdivision_stack = []
    · rw [subdivide_of_empty _ _ _ _ _ _ he, ih]
      have := (pending_points_eq_zero _).mpr he
      rw [ih] at this
      omega
    · have := (build_inv_step hspec uninit points coords points_count _ hk).2 he
      rw [ih] at this
      omega

/-- The bounded loop returns exactly when it is allowed at least as many
iterations as there are pending points, and then after exactly that many. -/
theorem subdivision_loop_result {nth_element : (Nat → Nat → Bool) → List Nat → Nat → List Nat}
    (hspec : NthElementSpec α nth_element)
    (uninit : List Bool → Point α DIM) (points : List (Point α DIM)) (coords : List α)
    (points_count : Nat) (fuel : Nat) (s : Build_state α DIM)
    (hinv : Build_inv points_count s) :
    (pending_points s.subdivision_stack ≤ fuel →
      subdivision_loop nth_element uninit points coords points_count fuel s
        = some ((subdivide nth_element uninit points coords points_count)^[
            pending_points s.subdivision_stack] s)) ∧
    (fuel < pending_points s.subdivision_stack →
      subdivision_loop nth_element uninit points coords points_count fuel s = none) := by
  constructor
  · intro h
    obtain ⟨f, rfl⟩ := Nat.exists_eq_add_of_le h
    rw [subdivision_loop_add]
    apply subdivision_loop_of_empty
    apply (pending_points_eq_zero _).mp
    rw [pending_points_iterate hspec uninit points coords points_count s hinv]
    omega
  · induction fuel generalizing s with
    | zero =>
      intro h
      have hne : s.subdivision_stack ≠ [] := by
        intro he
        rw [(pending_points_eq_zero _).mpr he] at h
        omega
      cases hs : s.subdivision_stack with
      | nil => exact absurd hs hne
      | cons t rest => simp [subdivision_loop, hs]
    | succ fuel ih =>
      intro h
      have hne : s.subdivision_stack ≠ [] := by
        intro he
        rw [(pending_points_eq_zero _).mpr he] at h
        omega
      have hstep := build_inv_step hspec uninit points coords points_count s hinv
      cases hs : s.subdivision_stack with
      | nil => exact absurd hs hne
      | cons t rest =>
        simp only [subdivision_loop, hs, List.isEmpty_cons, Bool.false_eq_true, if_false]
        apply ih _ hstep.1
        have := hstep.2 hne
        omega

theorem popped_tasks_length {nth_element : (Nat → Nat → Bool) → List Nat → Nat → List Nat}
    (hspec : NthElementSpec α nth_element)
    (uninit : List Bool → Point α DIM) (points : List (Point α DIM)) (coords : List α)
    (points_count : Nat) (fuel : Nat) (s : Build_state α DIM)
    (hinv : Build_inv points_count s) :
    (popped_tasks nth_element uninit points coords points_count fuel s).length
      = min fuel (pending_points s.subdivision_stack) := by
  induction fuel generalizing s with
  | zero => simp [popped_tasks]
  | succ fuel ih =>
    have hstep := build_inv_step hspec uninit points coords points_count s hinv
    cases hs : s.subdivision_stack with
    | nil => simp [popped_tasks, hs, pending_points]
    | cons t rest =>
      have hne : s.subdivision_stack ≠ [] := by rw [hs]; simp
      have h2 := hstep.2 hne
      rw [hs] at h2
      simp only [popped_tasks, hs, List.length_cons, ih _ hstep.1]
      omega

/-- Every popped task is the top of the stack of a reached state. -/
theorem popped_tasks_top (nth_element : (Nat → Nat → Bool) → List Nat → Nat → List Nat)
    (uninit : List Bool → Point α DIM) (points : List (Point α DIM)) (coords : List α)
    (points_count : Nat) (fuel : Nat) (s : Build_state α DIM) :
    ∀ t ∈ popped_tasks nth_element uninit points coords points_count fuel s,
      ∃ k rest, ((subdivide nth_element uninit points coords points_count)^[k]
        s).subdivision_stack = t :: rest := by
  induction fuel generalizing s with
  | zero => intro t ht; simp [popped_tasks] at ht
  | succ fuel ih =>
    intro t ht
    cases hs : s.subdivision_stack with
    | nil => simp [popped_tasks, hs] at ht
    | cons task rest =>
      simp only [popped_tasks, hs, List.mem_cons] at ht
      rcases ht with rfl | ht
      · exact ⟨0, rest, hs⟩
      · obtain ⟨k, rest', hk⟩ := ih _ t ht
        exact ⟨k + 1, rest', by rw [Function.iterate_succ_apply]; exact hk⟩

/-! ## The selection partitioner contract -/

/-- C14: under the `nth_element` postcondition, for `start ≤ k ≤ end < size`,
`partition_point_indexes` leaves a permutation of the array that agrees with it
outside `start..end`, whose range is a permutation of the former range, with the
coordinates `coords[d*n + index]` of the indexes before `k` not above that of the
index at `k` and those after `k` not below; and in the table the builder
constructs `coords[d*n + j]` is `points[j].x[d]`. -/
theorem partition_point_indexes_contract
    {nth_element : (Nat → Nat → Bool) → List Nat → Nat → List Nat}
    (hspec : NthElementSpec α nth_element) (point_indexes : List Nat) (coords : List α)
    (start_index partition_index end_index points_count curr_dim : Nat)
    (h1 : start_index ≤ partition_index) (h2 : partition_index ≤ end_index)
    (h3 : end_index < point_indexes.length) :
    (partition_point_indexes nth_element point_indexes coords start_index partition_index
        end_index points_count curr_dim).Perm point_indexes ∧
    (∀ i, i < start_index ∨ end_index < i →
      (partition_point_indexes nth_element point_indexes coords start_index partition_index
        end_index points_count curr_dim).getD i 0 = point_indexes.getD i 0) ∧
    (((partition_point_indexes nth_element point_indexes coords start_index partition_index
        end_index points_count curr_dim).drop start_index).take
          (end_index + 1 - start_index)).Perm
      ((point_indexes.drop start_index).take (end_index + 1 - start_index)) ∧
    (∀ i, start_index ≤ i → i < partition_index →
      coords.getD (curr_dim * points_count
          + (partition_point_indexes nth_element point_indexes coords start_index
              partition_index end_index points_count curr_dim).getD i 0) 0
        ≤ coords.getD (curr_dim * points_count
          + (partition_point_indexes nth_element point_indexes coords start_index
              partition_index end_index points_count curr_dim).getD partition_index 0) 0) ∧
    (∀ j, partition_index < j → j ≤ end_index →
      coords.getD (curr_dim * points_count
          + (partition_point_indexes nth_element point_indexes coords start_index
              partition_index end_index points_count curr_dim).getD partition_index 0) 0
        ≤ coords.getD (curr_dim * points_count
          + (partition_point_indexes nth_element point_indexes coords start_index
              partition_index end_index points_count curr_dim).getD j 0) 0) ∧
    (∀ (points : List (Point α DIM)) (d j : Nat), d < DIM → j < points.length →
      (coords_table points).getD (d * points.length + j) 0
        = (points.getD j Point.zero).get d) :=
  partition_point_indexes_post hspec point_indexes coords start_index partition_index
    end_index points_count curr_dim h1 h2 h3

/-- The partitioner contract on the index array `0..4` of the five example points,
dimension `1`, with the nth position `2`: the array becomes `[2, 3, 0, 1, 4]`. -/
theorem partition_point_indexes_contract_witness :
    NthElementSpec ℚ nth_element_sort ∧ 0 ≤ 2 ∧ 2 ≤ 4 ∧ 4 < [0, 1, 2, 3, 4].length ∧
    partition_point_indexes nth_element_sort [0, 1, 2, 3, 4] (coords_table example_points)
      0 2 4 5 1 = [2, 3, 0, 1, 4] ∧
    (partition_point_indexes nth_element_sort [0, 1, 2, 3, 4] (coords_table example_points) 0 2
        4 5 1).Perm [0, 1, 2, 3, 4] ∧
    (∀ i, i < 0 ∨ 4 < i →
      (partition_point_indexes nth_element_sort [0, 1, 2, 3, 4] (coords_table example_points) 0 2
        4 5 1).getD i 0 = [0, 1, 2, 3, 4].getD i 0) ∧
    (((partition_point_indexes nth_element_sort [0, 1, 2, 3, 4] (coords_table example_points) 0 2
        4 5 1).drop 0).take
          (4 + 1 - 0)).Perm
      (([0, 1, 2, 3, 4].drop 0).take (4 + 1 - 0)) ∧
    (∀ i, 0 ≤ i → i < 2 →
      (coords_table example_points).getD (1 * 5
          + (partition_point_indexes nth_element_sort [0, 1, 2, 3, 4] (coords_table example_points) 0
              2 4 5 1).getD i 0) 0
        ≤ (coords_table example_points).getD (1 * 5
          + (partition_point_indexes nth_element_sort [0, 1, 2, 3, 4] (coords_table example_points) 0
              2 4 5 1).getD 2 0) 0) ∧
    (∀ j, 2 < j → j ≤ 4 →
      (coords_table example_points).getD (1 * 5
          + (partition_point_indexes nth_element_sort [0, 1, 2, 3, 4] (coords_table example_points) 0
              2 4 5 1).getD 2 0) 0
        ≤ (coords_table example_points).getD (1 * 5
          + (partition_point_indexes nth_element_sort [0, 1, 2, 3, 4] (coords_table example_points) 0
              2 4 5 1).getD j 0) 0) ∧
    (∀ (points : List (Point ℚ 2)) (d j : Nat), d < 2 → j < points.length →
      (coords_table points).getD (d * points.length + j) 0
        = (points.getD j Point.zero).get d) :=
  ⟨nth_element_sort_spec, by decide, by decide, by decide, by decide!,
    partition_point_indexes_contract nth_element_sort_spec [0, 1, 2, 3, 4]
      (coords_table example_points) 0 2 4 5 1 (by decide) (by decide) (by decide)⟩

/-! ## Median halving -/

theorem subdivide_point_indexes (nth_element : (Nat → Nat → Bool) → List Nat → Nat → List Nat)
    (uninit : List Bool → Point α DIM) (points : List (Point α DIM)) (coords : List α)
    (points_count : Nat) (s : Build_state α DIM) (task : Subdivision_task)
    (rest : List Subdivision_task) (hs : s.subdivision_stack = task :: rest) :
    (subdivide nth_element uninit points coords points_count s).point_indexes
      = partition_point_indexes nth_element s.point_indexes coords task.ptlo
          (task.ptlo + task_half task) task.pthi points_count task.dim := by
  unfold subdivide
  rw [hs]
  dsimp only
  cases s.root.get task.box_node <;> rfl

theorem build_rec_halved {nth_element : (Nat → Nat → Bool) → List Nat → Nat → List Nat}
    (hspec : NthElementSpec α nth_element)
    (uninit : List Bool → Point α DIM) (points : List (Point α DIM)) (coords : List α)
    (points_count : Nat) :
    ∀ (fuel : Nat) (path : List Bool) (dim : Nat) (slice : List Nat) (lo hi : Point α DIM),
      slice.length ≤ fuel →
      (build_rec nth_element uninit points coords points_count fuel path dim slice
        lo hi).1.Halved := by
  intro fuel
  induction fuel with
  | zero =>
    intro path dim slice lo hi _
    simp [build_rec, Box_node.Halved, Box_node.assigned_points, Box_node.isNull]
  | succ fuel ih =>
    intro path dim slice lo hi hfuel
    have hroot := ((build_rec_perm hspec uninit points coords points_count
      (fuel + 1) path dim slice lo hi hfuel).2).length_eq
    cases slice with
    | nil => simp [build_rec, Box_node.Halved, Box_node.assigned_points, Box_node.isNull]
    | cons i is =>
      simp only [build_rec] at hroot ⊢
      obtain ⟨hA, hB, hsplit, hperm, hhalf⟩ :=
        selection_split hspec points_count coords dim i is _ rfl
      generalize nth_element (Coord_comp points_count coords dim) (i :: is)
        (((i :: is).length - 1) / 2) = r at hA hB hsplit hperm hroot
      generalize ((i :: is).length - 1) / 2 = half at hA hB hsplit hhalf hroot
      simp only [List.length_cons] at hfuel
      generalize r.getD half 0 = index at hsplit hroot
      generalize coords.getD (dim * points_count + index) 0 = v at hroot ⊢
      have hL := ((build_rec_perm hspec uninit points coords points_count fuel
        (path ++ [false]) ((dim + 1) % DIM) (r.take half) lo (hi.set dim v)
        (by omega)).2).length_eq
      have hR := ((build_rec_perm hspec uninit points coords points_count fuel
        (path ++ [true]) ((dim + 1) % DIM) (r.drop (half + 1)) (lo.set dim v) hi
        (by omega)).2).length_eq
      rw [List.length_map] at hL hR hroot
      rw [hA] at hL
      rw [hB] at hR
      simp only [List.length_cons] at hroot
      refine ⟨?_, ih _ _ _ _ _ (by omega), ih _ _ _ _ _ (by omega)⟩
      rw [hroot, hL, hR]
      omega

/-- C12: a loop iteration on a task with a non-empty range of `s` points inside
`point_indexes` and an existing node puts into the node the point whose index
stands at position `ptlo + m`, `m = (s - 1) / 2`, of the range reordered so that no
index before that position refers to a larger and none after it to a smaller
coordinate on the task's dimension; it pushes a left task iff `m > 0`, covering `m`
points, and a right task iff `s - m > 1`, covering `s - 1 - m` points; and in the
tree the constructor returns the points assigned in the left and right subtree of
every node number `(s - 1) / 2` and `s - 1 - (s - 1) / 2`. -/
theorem median_halving {nth_element : (Nat → Nat → Bool) → List Nat → Nat → List Nat}
    (hspec : NthElementSpec α nth_element)
    (uninit : List Bool → Point α DIM) (points : List (Point α DIM)) (coords : List α)
    (points_count : Nat) (s : Build_state α DIM) (task : Subdivision_task)
    (rest : List Subdivision_task) (hs : s.subdivision_stack = task :: rest)
    (h1 : task.ptlo ≤ task.pthi) (h2 : task.pthi < s.point_indexes.length)
    (hnode : s.root.get task.box_node ≠ .null)
    (bounding_box : Box α DIM) (fuel : Nat) (hfuel : points.length ≤ fuel) :
    (∃ lo hi l r,
      (subdivide nth_element uninit points coords points_count s).root.get task.box_node
        = .node lo hi (points.getD
            ((subdivide nth_element uninit points coords points_count s).point_indexes.getD
              (task.ptlo + task_half task) 0) Point.zero) l r) ∧
    (task_slice (subdivide nth_element uninit points coords points_count s).point_indexes
      task).Perm (task_slice s.point_indexes task) ∧
    (∀ i, task.ptlo ≤ i → i < task.ptlo + task_half task →
      coords.getD (task.dim * points_count
          + (subdivide nth_element uninit points coords points_count s).point_indexes.getD
              i 0) 0
        ≤ coords.getD (task.dim * points_count
          + (subdivide nth_element uninit points coords points_count s).point_indexes.getD
              (task.ptlo + task_half task) 0) 0) ∧
    (∀ j, task.ptlo + task_half task < j → j ≤ task.pthi →
      coords.getD (task.dim * points_count
          + (subdivide nth_element uninit points coords points_count s).point_indexes.getD
              (task.ptlo + task_half task) 0) 0
        ≤ coords.getD (task.dim * points_count
          + (subdivide nth_element uninit points coords points_count s).point_indexes.getD
              j 0) 0) ∧
    (subdivide nth_element uninit points coords points_count s).subdivision_stack
      = push_if (decide (task_count task - task_half task > 1))
          ⟨task.box_node ++ [true], (task.dim + 1) % DIM, task.ptlo + task_half task + 1,
            task.pthi⟩
          (push_if (decide (task_half task > 0))
            ⟨task.box_node ++ [false], (task.dim + 1) % DIM, task.ptlo,
              task.ptlo + task_half task - 1⟩ rest) ∧
    (task_half task > 0 →
      task_count ⟨task.box_node ++ [false], (task.dim + 1) % DIM, task.ptlo,
        task.ptlo + task_half task - 1⟩ = task_half task) ∧
    (task_count task - task_half task > 1 →
      task_count ⟨task.box_node ++ [true], (task.dim + 1) % DIM,
        task.ptlo + task_half task + 1, task.pthi⟩
        = task_count task - 1 - task_half task) ∧
    task_half task = (task_count task - 1) / 2 ∧
    ∃ t, KD_tree nth_element uninit fuel bounding_box points = some t ∧ t.Halved := by
  have hhalf : task_half task = (task.pthi - task.ptlo + 1 - 1) / 2 := rfl
  have hcnt : task_count task = task.pthi - task.ptlo + 1 := rfl
  have hk1 : task.ptlo ≤ task.ptlo + task_half task := Nat.le_add_right _ _
  have hk2 : task.ptlo + task_half task ≤ task.pthi := by omega
  have hidx := subdivide_point_indexes nth_element uninit points coords points_count s task
    rest hs
  obtain ⟨_, _, hslice, hbefore, hafter, _⟩ :=
    @partition_point_indexes_post α _ DIM _ hspec s.point_indexes coords task.ptlo
      (task.ptlo + task_half task) task.pthi points_count task.dim hk1 hk2 h2
  refine ⟨?_, ?_, ?_, ?_, ?_, ?_, ?_, rfl, ?_⟩
  · cases hget : s.root.get task.box_node with
    | null => exact absurd hget hnode
    | node lo hi p0 l0 r0 =>
      rw [hidx, partition_getD_inside hspec _ _ _ _ _ _ _ (by omega) h2 _ hk2]
      rw [subdivide_top hspec uninit points coords points_count s task rest hs h1 h2
        lo hi p0 l0 r0 hget]
      dsimp only
      have := Box_node.get_put_append s.root task.box_node [] (.node lo hi
        (points.getD ((task_selection nth_element coords points_count s.point_indexes
          task).getD (task_half task) 0) Point.zero)
        (.node lo (hi.set task.dim (coords.getD (task.dim * points_count
          + (task_selection nth_element coords points_count s.point_indexes
              task).getD (task_half task) 0) 0))
          (uninit (task.box_node ++ [false])) .null .null)
        (.node (lo.set task.dim (coords.getD (task.dim * points_count
          + (task_selection nth_element coords points_count s.point_indexes
              task).getD (task_half task) 0) 0)) hi
          (uninit (task.box_node ++ [true])) .null .null)) hnode
      rw [List.append_nil] at this
      rw [this]
      simp only [Box_node.get, Nat.add_sub_cancel_left]
      exact ⟨_, _, _, _, rfl⟩
  · rw [hidx]; exact hslice
  · rw [hidx]; exact hbefore
  · rw [hidx]; exact hafter
  · cases hget : s.root.get task.box_node with
    | null => exact absurd hget hnode
    | node lo hi p0 l0 r0 =>
      rw [subdivide_top hspec uninit points coords points_count s task rest hs h1 h2
        lo hi p0 l0 r0 hget]
  · intro h
    show task.ptlo + task_half task - 1 - task.ptlo + 1 = task_half task
    omega
  · intro h
    show task.pthi - (task.ptlo + task_half task + 1) + 1 = task_count task - 1 - task_half task
    omega
  · refine ⟨_, KD_tree_eq_rec hspec uninit bounding_box points fuel hfuel, ?_⟩
    by_cases h : points = []
    · subst h
      simp [KD_tree_rec, Box_node.Halved]
    · rw [KD_tree_rec_of_ne_nil _ _ _ _ h]
      exact build_rec_halved hspec uninit points _ _ _ _ _ _ _ _ (by simp)

/-- Median halving at the first task of the five example points (range `0..4`,
`m = 2`) and in the tree built from them. -/
theorem median_halving_witness :
    NthElementSpec ℚ nth_element_sort ∧
    example_state.subdivision_stack = [example_task] ∧
    example_task.ptlo ≤ example_task.pthi ∧
    example_task.pthi < example_state.point_indexes.length ∧
    example_state.root.get example_task.box_node ≠ .null ∧
    example_points.length ≤ 5 ∧
    (∃ lo hi l r,
      (subdivide nth_element_sort zero_memory example_points example_coords 5 example_state).root.get example_task.box_node
        = .node lo hi (example_points.getD
            ((subdivide nth_element_sort zero_memory example_points example_coords 5 example_state).point_indexes.getD
              (example_task.ptlo + task_half example_task) 0) Point.zero) l r) ∧
    (task_slice (subdivide nth_element_sort zero_memory example_points example_coords 5 example_state).point_indexes
      example_task).Perm (task_slice example_state.point_indexes example_task) ∧
    (∀ i, example_task.ptlo ≤ i → i < example_task.ptlo + task_half example_task →
      example_coords.getD (example_task.dim * 5
          + (subdivide nth_element_sort zero_memory example_points example_coords 5 example_state).point_indexes.getD
              i 0) 0
        ≤ example_coords.getD (example_task.dim * 5
          + (subdivide nth_element_sort zero_memory example_points example_coords 5 example_state).point_indexes.getD
              (example_task.ptlo + task_half example_task) 0) 0) ∧
    (∀ j, example_task.ptlo + task_half example_task < j → j ≤ example_task.pthi →
      example_coords.getD (example_task.dim * 5
          + (subdivide nth_element_sort zero_memory example_points example_coords 5 example_state).point_indexes.getD
              (example_task.ptlo + task_half example_task) 0) 0
        ≤ example_coords.getD (example_task.dim * 5
          + (subdivide nth_element_sort zero_memory example_points example_coords 5 example_state).point_indexes.getD
              j 0) 0) ∧
    (subdivide nth_element_sort zero_memory example_points example_coords 5 example_state).subdivision_stack
      = push_if (decide (task_count example_task - task_half example_task > 1))
          ⟨example_task.box_node ++ [true], (example_task.dim + 1) % 2, example_task.ptlo + task_half example_task + 1,
            example_task.pthi⟩
          (push_if (decide (task_half example_task > 0))
            ⟨example_task.box_node ++ [false], (example_task.dim + 1) % 2, example_task.ptlo,
              example_task.ptlo + task_half example_task - 1⟩ []) ∧
    (task_half example_task > 0 →
      task_count ⟨example_task.box_node ++ [false], (example_task.dim + 1) % 2, example_task.ptlo,
        example_task.ptlo + task_half example_task - 1⟩ = task_half example_task) ∧
    (task_count example_task - task_half example_task > 1 →
      task_count ⟨example_task.box_node ++ [true], (example_task.dim + 1) % 2,
        example_task.ptlo + task_half example_task + 1, example_task.pthi⟩
        = task_count example_task - 1 - task_half example_task) ∧
    task_half example_task = (task_count example_task - 1) / 2 ∧
    ∃ t, KD_tree nth_element_sort zero_memory 5 example_box example_points = some t ∧ t.Halved :=
  ⟨nth_element_sort_spec, rfl, by decide, by decide,
    by simp [example_state, example_task, initial_state, Box_node.get], by decide,
    median_halving nth_element_sort_spec zero_memory example_points example_coords 5
      example_state example_task [] rfl (by decide) (by decide)
      (by simp [example_state, example_task, initial_state, Box_node.get])
      example_box 5 (by decide)⟩

/-! ## Termination of the builder -/

/-- C15: for `n ≥ 1` points the loop returns exactly when it is allowed `n` or more
iterations, with the stack empty after exactly `n` iterations and `n` popped tasks;
every pushed task covers a non-empty range inside and strictly smaller than the
range of the task that pushed it, and the two pushed ranges are disjoint. -/
theorem build_terminates_after_n_tasks
    {nth_element : (Nat → Nat → Bool) → List Nat → Nat → List Nat}
    (hspec : NthElementSpec α nth_element) (hDIM : 2 ≤ DIM) (uninit : List Bool → Point α DIM)
    (bounding_box : Box α DIM) (points : List (Point α DIM)) (hn : 1 ≤ points.length) :
    (∀ fuel, points.length ≤ fuel →
      subdivision_loop nth_element uninit points (coords_table points) points.length fuel
          (initial_state uninit bounding_box points)
        = some ((subdivide nth_element uninit points (coords_table points) points.length)^[
            points.length] (initial_state uninit bounding_box points)) ∧
      ((subdivide nth_element uninit points (coords_table points) points.length)^[
        points.length] (initial_state uninit bounding_box points)).subdivision_stack = [] ∧
      (popped_tasks nth_element uninit points (coords_table points) points.length fuel
        (initial_state uninit bounding_box points)).length = points.length) ∧
    (∀ fuel, fuel < points.length →
      subdivision_loop nth_element uninit points (coords_table points) points.length fuel
          (initial_state uninit bounding_box points) = none ∧
      ((subdivide nth_element uninit points (coords_table points) points.length)^[fuel]
        (initial_state uninit bounding_box points)).subdivision_stack ≠ []) ∧
    (∀ k task rest,
      ((subdivide nth_element uninit points (coords_table points) points.length)^[k]
        (initial_state uninit bounding_box points)).subdivision_stack = task :: rest →
      ∃ c1 c2 right left,
        ((subdivide nth_element uninit points (coords_table points) points.length)^[k + 1]
          (initial_state uninit bounding_box points)).subdivision_stack
          = push_if c1 right (push_if c2 left rest) ∧
        (c1 = true → Smaller_range right task) ∧ (c2 = true → Smaller_range left task) ∧
        (c1 = true → c2 = true → left.pthi < right.ptlo)) := by
  have hinit := build_inv_initial hDIM uninit bounding_box points hn
  have hpend : pending_points (initial_state uninit bounding_box points).subdivision_stack
      = points.length := by
    simp only [initial_state, pending_points, List.map_cons, List.map_nil, List.sum_cons,
      List.sum_nil, task_count]
    omega
  have hres := fun fuel => subdivision_loop_result hspec uninit points (coords_table points)
    points.length fuel _ hinit
  have hiter := pending_points_iterate hspec uninit points (coords_table points) points.length
    _ hinit
  refine ⟨fun fuel hfuel => ⟨?_, ?_, ?_⟩, fun fuel hfuel => ⟨?_, ?_⟩, ?_⟩
  · have := (hres fuel).1 (by rw [hpend]; exact hfuel)
    rw [hpend] at this
    exact this
  · apply (pending_points_eq_zero _).mp
    rw [hiter, hpend]
    omega
  · rw [popped_tasks_length hspec uninit points (coords_table points) points.length fuel _
      hinit, hpend]
    omega
  · exact (hres fuel).2 (by rw [hpend]; exact hfuel)
  · intro he
    have := (pending_points_eq_zero _).mpr he
    rw [hiter, hpend] at this
    omega
  · intro k task rest hk
    have hinv := build_inv_iterate hspec uninit points (coords_table points) points.length _
      hinit k
    obtain ⟨h1, h2, _, hnn⟩ := hinv.2.1 task (by rw [hk]; exact List.mem_cons_self _ _)
    have hlen : ((subdivide nth_element uninit points (coords_table points) points.length)^[k]
        (initial_state uninit bounding_box points)).point_indexes.length = points.length := by
      rw [hinv.1.length_eq, List.length_range]
    cases hget : ((subdivide nth_element uninit points (coords_table points) points.length)^[k]
        (initial_state uninit bounding_box points)).root.get task.box_node with
    | null => exact absurd hget hnn
    | node lo hi p0 l0 r0 =>
      rw [Function.iterate_succ_apply',
        subdivide_top hspec uninit points (coords_table points) points.length _ task rest hk h1
          (by omega) lo hi p0 l0 r0 hget]
      refine ⟨_, _, _, _, rfl, ?_, ?_, ?_⟩
      · intro hc
        have hc' : 1 < task_count task - task_half task := by simpa using hc
        simp only [Smaller_range, task_count, task_half] at hc' ⊢
        omega
      · intro hc
        have hc' : 0 < task_half task := by simpa using hc
        simp only [Smaller_range, task_count, task_half] at hc' ⊢
        omega
      · intro _ hc
        have hc' : 0 < task_half task := by simpa using hc
        simp only [task_half, task_count] at hc' ⊢
        omega

/-- Termination after five tasks on the five example points. -/
theorem build_terminates_after_n_tasks_witness :
    NthElementSpec ℚ nth_element_sort ∧
    2 ≤ 2 ∧
    1 ≤ example_points.length ∧
    (∀ fuel, example_points.length ≤ fuel →
      subdivision_loop nth_element_sort zero_memory example_points (coords_table example_points) example_points.length fuel
          (initial_state zero_memory example_box example_points)
        = some ((subdivide nth_element_sort zero_memory example_points (coords_table example_points) example_points.length)^[
            example_points.length] (initial_state zero_memory example_box example_points)) ∧
      ((subdivide nth_element_sort zero_memory example_points (coords_table example_points) example_points.length)^[
        example_points.length] (initial_state zero_memory example_box example_points)).subdivision_stack = [] ∧
      (popped_tasks nth_element_sort zero_memory example_points (coords_table example_points) example_points.length fuel
        (initial_state zero_memory example_box example_points)).length = example_points.length) ∧
    (∀ fuel, fuel < example_points.length →
      subdivision_loop nth_element_sort zero_memory example_points (coords_table example_points) example_points.length fuel
          (initial_state zero_memory example_box example_points) = none ∧
      ((subdivide nth_element_sort zero_memory example_points (coords_table example_points) example_points.length)^[fuel]
        (initial_state zero_memory example_box example_points)).subdivision_stack ≠ []) ∧
    (∀ k task rest,
      ((subdivide nth_element_sort zero_memory example_points (coords_table example_points) example_points.length)^[k]
        (initial_state zero_memory example_box example_points)).subdivision_stack = task :: rest →
      ∃ c1 c2 right left,
        ((subdivide nth_element_sort zero_memory example_points (coords_table example_points) example_points.length)^[k + 1]
          (initial_state zero_memory example_box example_points)).subdivision_stack
          = push_if c1 right (push_if c2 left rest) ∧
        (c1 = true → Smaller_range right task) ∧ (c2 = true → Smaller_range left task) ∧
        (c1 = true → c2 = true → left.pthi < right.ptlo)) :=
  ⟨nth_element_sort_spec, le_refl 2, by decide,
    build_terminates_after_n_tasks nth_element_sort_spec (le_refl 2) zero_memory example_box
      example_points (by decide)⟩

/-! ## Index safety -/

omit [LinearOrderedField α] in
theorem flatMap_blocks_length (f : Nat → List α) (n : Nat) (hf : ∀ i, (f i).length = n)
    (D : Nat) : ((List.range D).flatMap f).length = D * n := by
  induction D with
  | zero => simp
  | succ D ih => simp [List.range_succ, List.flatMap_append, ih, hf, Nat.succ_mul]

theorem coords_table_length (points : List (Point α DIM)) :
    (coords_table points).length = DIM * points.length := by
  unfold coords_table
  exact flatMap_blocks_length (fun i => points.map (fun p => p.get i)) points.length
    (fun i => by simp) DIM

theorem coords_index_lt (d a n D : Nat) (hd : d < D) (ha : a < n) : d * n + a < D * n :=
  calc d * n + a < d * n + n := by omega
    _ = (d + 1) * n := by ring
    _ ≤ D * n := Nat.mul_le_mul_right n hd

/-- C19: for `DIM ≥ 2` and `n ≥ 1` points, every task the loop pops has
`ptlo ≤ pthi ≤ n - 1` and `dim < DIM`; and in every state the loop reaches with a
task on top, the node of the task exists, `point_indexes` has `n` entries, every
index in the task's range is below `n` and addresses the `DIM * n` entry table
in bounds, and the median position holds an index below `n` whose table entry is
in bounds: no out-of-range read is taken. -/
theorem index_safety {nth_element : (Nat → Nat → Bool) → List Nat → Nat → List Nat}
    (hspec : NthElementSpec α nth_element) (hDIM : 2 ≤ DIM) (uninit : List Bool → Point α DIM)
    (bounding_box : Box α DIM) (points : List (Point α DIM)) (hn : 1 ≤ points.length) :
    (∀ fuel, ∀ t ∈ popped_tasks nth_element uninit points (coords_table points) points.length
        fuel (initial_state uninit bounding_box points),
      t.ptlo ≤ t.pthi ∧ t.pthi ≤ points.length - 1 ∧ t.dim < DIM) ∧
    (∀ k task rest,
      ((subdivide nth_element uninit points (coords_table points) points.length)^[k]
        (initial_state uninit bounding_box points)).subdivision_stack = task :: rest →
      task.ptlo ≤ task.pthi ∧ task.pthi ≤ points.length - 1 ∧ task.dim < DIM ∧
      ((subdivide nth_element uninit points (coords_table points) points.length)^[k]
        (initial_state uninit bounding_box points)).root.get task.box_node ≠ .null ∧
      ((subdivide nth_element uninit points (coords_table points) points.length)^[k]
        (initial_state uninit bounding_box points)).point_indexes.length = points.length ∧
      (coords_table points).length = DIM * points.length ∧
      (∀ a ∈ task_slice ((subdivide nth_element uninit points (coords_table points)
          points.length)^[k] (initial_state uninit bounding_box points)).point_indexes task,
        a < points.length ∧ task.dim * points.length + a < (coords_table points).length) ∧
      ∃ index,
        (partition_point_indexes nth_element
          ((subdivide nth_element uninit points (coords_table points) points.length)^[k]
            (initial_state uninit bounding_box points)).point_indexes (coords_table points)
          task.ptlo (task.ptlo + task_half task) task.pthi points.length
          task.dim)[task.ptlo + task_half task]? = some index ∧
        index < points.length ∧
        task.dim * points.length + index < (coords_table points).length) := by
  have hinit := build_inv_initial hDIM uninit bounding_box points hn
  have hstate : ∀ k task rest,
      ((subdivide nth_element uninit points (coords_table points) points.length)^[k]
        (initial_state uninit bounding_box points)).subdivision_stack = task :: rest →
      Build_inv points.length
        ((subdivide nth_element uninit points (coords_table points) points.length)^[k]
          (initial_state uninit bounding_box points)) ∧
      task.ptlo ≤ task.pthi ∧ task.pthi < points.length ∧ task.dim < DIM ∧
      ((subdivide nth_element uninit points (coords_table points) points.length)^[k]
        (initial_state uninit bounding_box points)).root.get task.box_node ≠ .null := by
    intro k task rest hk
    have hinv := build_inv_iterate hspec uninit points (coords_table points) points.length _
      hinit k
    exact ⟨hinv, hinv.2.1 task (by rw [hk]; exact List.mem_cons_self _ _)⟩
  constructor
  · intro fuel t ht
    obtain ⟨k, rest, hk⟩ := popped_tasks_top nth_element uninit points (coords_table points)
      points.length fuel _ t ht
    obtain ⟨_, h1, h2, h3, _⟩ := hstate k t rest hk
    exact ⟨h1, by omega, h3⟩
  · intro k task rest hk
    obtain ⟨hinv, h1, h2, h3, h4⟩ := hstate k task rest hk
    generalize (subdivide nth_element uninit points (coords_table points) points.length)^[k]
      (initial_state uninit bounding_box points) = s at hk hinv h4 ⊢
    have hlen : s.point_indexes.length = points.length := by
      rw [hinv.1.length_eq, List.length_range]
    have hmem : ∀ a ∈ s.point_indexes, a < points.length :=
      fun a ha => List.mem_range.mp (hinv.1.subset ha)
    have hclen := coords_table_length points
    refine ⟨h1, by omega, h3, h4, hlen, hclen, ?_, ?_⟩
    · intro a ha
      have ha' : a < points.length :=
        hmem a (List.mem_of_mem_drop (List.mem_of_mem_take ha))
      exact ⟨ha', by rw [hclen]; exact coords_index_lt _ _ _ _ h3 ha'⟩
    · have hperm := partition_perm hspec s.point_indexes (coords_table points) task.ptlo
        (task.ptlo + task_half task) task.pthi points.length task.dim (by omega)
      have hhalf : task_half task = (task.pthi - task.ptlo + 1 - 1) / 2 := rfl
      have hpos : task.ptlo + task_half task
          < (partition_point_indexes nth_element s.point_indexes (coords_table points)
              task.ptlo (task.ptlo + task_half task) task.pthi points.length
              task.dim).length := by
        rw [hperm.length_eq, hlen]
        omega
      refine ⟨_, List.getElem?_eq_getElem hpos, ?_⟩
      have hidx := hmem _ (hperm.subset (List.getElem_mem hpos))
      exact ⟨hidx, by rw [hclen]; exact coords_index_lt _ _ _ _ h3 hidx⟩

/-- Index safety on the five example points. -/
theorem index_safety_witness :
    NthElementSpec ℚ nth_element_sort ∧
    2 ≤ 2 ∧
    1 ≤ example_points.length ∧
    (∀ fuel, ∀ t ∈ popped_tasks nth_element_sort zero_memory example_points (coords_table example_points) example_points.length
        fuel (initial_state zero_memory example_box example_points),
      t.ptlo ≤ t.pthi ∧ t.pthi ≤ example_points.length - 1 ∧ t.dim < 2) ∧
    (∀ k task rest,
      ((subdivide nth_element_sort zero_memory example_points (coords_table example_points) example_points.length)^[k]
        (initial_state zero_memory example_box example_points)).subdivision_stack = task :: rest →
      task.ptlo ≤ task.pthi ∧ task.pthi ≤ example_points.length - 1 ∧ task.dim < 2 ∧
      ((subdivide nth_element_sort zero_memory example_points (coords_table example_points) example_points.length)^[k]
        (initial_state zero_memory example_box example_points)).root.get task.box_node ≠ .null ∧
      ((subdivide nth_element_sort zero_memory example_points (coords_table example_points) example_points.length)^[k]
        (initial_state zero_memory example_box example_points)).point_indexes.length = example_points.length ∧
      (coords_table example_points).length = 2 * example_points.length ∧
      (∀ a ∈ task_slice ((subdivide nth_element_sort zero_memory example_points (coords_table example_points)
          example_points.length)^[k] (initial_state zero_memory example_box example_points)).point_indexes task,
        a < example_points.length ∧ task.dim * example_points.length + a < (coords_table example_points).length) ∧
      ∃ index,
        (partition_point_indexes nth_element_sort
          ((subdivide nth_element_sort zero_memory example_points (coords_table example_points) example_points.length)^[k]
            (initial_state zero_memory example_box example_points)).point_indexes (coords_table example_points)
          task.ptlo (task.ptlo + task_half task) task.pthi example_points.length
          task.dim)[task.ptlo + task_half task]? = some index ∧
        index < example_points.length ∧
        task.dim * example_points.length + index < (coords_table example_points).length) :=
  ⟨nth_element_sort_spec, le_refl 2, by decide,
    index_safety nth_element_sort_spec (le_refl 2) zero_memory example_box example_points
      (by decide)⟩

/-! ## Start dimensions -/

/-- Counterexample to C13 as stated: on the tree of the five example points and the
query box `[(2,-10),(10,0)]` the query as the application invokes it returns `(5,-5)`,
a traversal that begins at dimension `0` returns nothing; the application's query
does not begin at dimension `0`. -/
theorem query_does_not_start_at_dimension_zero :
    ∃ t, KD_tree nth_element_sort zero_memory 5 example_box example_points = some t ∧
      (range_query t (⟨Point.mk2 2 (-10), Point.mk2 10 0⟩ : Box ℚ 2)).map Point.toPair
        = [(5, -5)] ∧
      (calc_range_query_result t (⟨Point.mk2 2 (-10), Point.mk2 10 0⟩ : Box ℚ 2) 0 []).map
        Point.toPair = [] ∧
      range_query t (⟨Point.mk2 2 (-10), Point.mk2 10 0⟩ : Box ℚ 2)
        ≠ calc_range_query_result t (⟨Point.mk2 2 (-10), Point.mk2 10 0⟩ : Box ℚ 2) 0 [] := by
  refine ⟨_, rfl, by decide!, by decide!, fun h => ?_⟩
  have h2 := congrArg (fun l => (l.map Point.toPair).length) h
  revert h2
  decide!

/-- C13 (as amended): the builder's first task, for the root, uses dimension `1`,
and the range query as the application invokes it on the root also begins at
dimension `1`: its first call, on a non-null root, has `dim = 1`. -/
theorem start_dimensions_are_both_one (uninit : List Bool → Point α 2)
    (bounding_box range : Box α 2) (points : List (Point α 2)) (root : Box_node α 2) :
    (initial_state uninit bounding_box points).subdivision_stack
      = [⟨[], 1, 0, points.length - 1⟩] ∧
    range_query root range = calc_range_query_result root range 1 [] ∧
    (∀ lo hi pt l r, root = .node lo hi pt l r →
      (query_visits root range 1 []).head? = some ([], 1, pt)) := by
  refine ⟨rfl, rfl, ?_⟩
  intro lo hi pt l r h
  subst h
  simp [query_visits]

/-! ## The distance formula -/

/-- What one loop iteration of `distance` adds to the accumulator. -/
theorem distance_step_eq (box : Box α DIM) (p : Point α DIM) (d : α) (i : Nat)
    (hwf : box.lo.get i ≤ box.hi.get i) :
    distance_step box p d i = d + overshoot box p i ^ 2 := by
  unfold distance_step overshoot
  dsimp only
  by_cases ha : p.get i < box.lo.get i
  · have hb : ¬ p.get i > box.hi.get i := by
      intro hb; exact absurd (lt_of_lt_of_le ha hwf) (not_lt.mpr (le_of_lt hb))
    rw [if_pos ha, if_neg hb,
      max_eq_left (by linarith [not_lt.mp hb] : p.get i - box.hi.get i ≤ box.lo.get i - p.get i),
      max_eq_right (by linarith : (0 : α) ≤ box.lo.get i - p.get i)]
    ring
  · by_cases hb : p.get i > box.hi.get i
    · rw [if_neg ha, if_pos hb,
        max_eq_right (by linarith [not_lt.mp ha] :
          box.lo.get i - p.get i ≤ p.get i - box.hi.get i),
        max_eq_right (by linarith : (0 : α) ≤ p.get i - box.hi.get i)]
      ring
    · rw [if_neg ha, if_neg hb,
        max_eq_left (max_le (by linarith [not_lt.mp ha]) (by linarith [not_lt.mp hb]))]
      ring

theorem distance_foldl_eq (box : Box α DIM) (p : Point α DIM) (l : List Nat) (d : α)
    (hwf : ∀ i ∈ l, box.lo.get i ≤ box.hi.get i) :
    l.foldl (distance_step box p) d = d + (l.map (fun i => overshoot box p i ^ 2)).sum := by
  induction l generalizing d with
  | nil => simp
  | cons i l ih =>
    simp only [List.foldl_cons, List.map_cons, List.sum_cons]
    rw [ih _ (fun j hj => hwf j (List.mem_cons_of_mem _ hj)),
      distance_step_eq box p d i (hwf i (List.mem_cons_self _ _))]
    ring

theorem distance_sq_eq_sum (box : Box α DIM) (p : Point α DIM) (hwf : box.WellFormed) :
    distance_sq box p = ((List.range DIM).map (fun d => overshoot box p d ^ 2)).sum := by
  unfold distance_sq
  rw [distance_foldl_eq box p _ 0 (fun i hi => hwf i (List.mem_range.mp hi)), zero_add]

theorem Box.clamp_get (box : Box α DIM) (p : Point α DIM) (d : Nat) (hd : d < DIM) :
    (box.clamp p).get d = max (box.lo.get d) (min (p.get d) (box.hi.get d)) := by
  simp [Box.clamp, Point.get, hd]

theorem overshoot_sq_eq_clamp (box : Box α DIM) (p : Point α DIM) (d : Nat) (hd : d < DIM)
    (hwf : box.lo.get d ≤ box.hi.get d) :
    overshoot box p d ^ 2 = (p.get d - (box.clamp p).get d) ^ 2 := by
  rw [Box.clamp_get box p d hd]
  unfold overshoot
  by_cases ha : p.get d < box.lo.get d
  · rw [min_eq_left (by linarith : p.get d ≤ box.hi.get d),
      max_eq_left (le_of_lt ha),
      max_eq_left (by linarith : p.get d - box.hi.get d ≤ box.lo.get d - p.get d),
      max_eq_right (by linarith : (0 : α) ≤ box.lo.get d - p.get d)]
    ring
  · by_cases hb : p.get d > box.hi.get d
    · rw [min_eq_right (le_of_lt hb), max_eq_right hwf,
        max_eq_right (by linarith : box.lo.get d - p.get d ≤ p.get d - box.hi.get d),
        max_eq_right (by linarith : (0 : α) ≤ p.get d - box.hi.get d)]
    · rw [min_eq_left (not_lt.mp hb), max_eq_right (not_lt.mp ha),
        max_eq_left (max_le (by linarith [not_lt.mp ha]) (by linarith [not_lt.mp hb]))]
      ring

theorem overshoot_sq_le (box : Box α DIM) (p q : Point α DIM) (d : Nat)
    (hq : box.lo.get d ≤ q.get d ∧ q.get d ≤ box.hi.get d) :
    overshoot box p d ^ 2 ≤ (p.get d - q.get d) ^ 2 := by
  have h0 : 0 ≤ overshoot box p d := le_max_left _ _
  have h1 : overshoot box p d ≤ |p.get d - q.get d| := by
    unfold overshoot
    refine max_le (abs_nonneg _) (max_le ?_ ?_)
    · rw [abs_sub_comm]
      exact le_trans (by linarith [hq.1]) (le_abs_self _)
    · exact le_trans (by linarith [hq.2]) (le_abs_self _)
  calc overshoot box p d ^ 2 ≤ |p.get d - q.get d| ^ 2 := pow_le_pow_left₀ h0 h1 2
    _ = (p.get d - q.get d) ^ 2 := sq_abs _

/-- C16: over the reals, for a well-formed box, `distance(box, point)` is the square
root of the sum over the dimensions of `max(0, lo[d] - point[d], point[d] - hi[d])`
squared; this is the Euclidean distance from the point to the clamped point, which
lies in the box, and no point of the box is nearer. -/
theorem distance_formula (box : Box ℝ DIM) (point : Point ℝ DIM) (hwf : box.WellFormed) :
    distance box point
      = Real.sqrt (((List.range DIM).map (fun d =>
          (max 0 (max (box.lo.get d - point.get d) (point.get d - box.hi.get d))) ^ 2)).sum) ∧
    box.Contains (box.clamp point) ∧
    distance box point = euclidean point (box.clamp point) ∧
    ∀ q, box.Contains q → distance box point ≤ euclidean point q := by
  refine ⟨?_, ?_, ?_, ?_⟩
  · unfold distance
    rw [distance_sq_eq_sum box point hwf]
    rfl
  · intro d hd
    rw [Box.clamp_get box point d hd]
    exact ⟨le_max_left _ _, max_le (hwf d hd) (min_le_right _ _)⟩
  · unfold distance euclidean
    rw [distance_sq_eq_sum box point hwf]
    congr 2
    apply List.map_congr_left
    intro d hd
    exact overshoot_sq_eq_clamp box point d (List.mem_range.mp hd) (hwf d (List.mem_range.mp hd))
  · intro q hq
    unfold distance euclidean
    rw [distance_sq_eq_sum box point hwf]
    apply Real.sqrt_le_sqrt
    apply List.sum_le_sum
    intro d hd
    exact overshoot_sq_le box point q d (hq d (List.mem_range.mp hd))

/-- The distance formula for the box `[(0,0),(4,4)]` and the point `(7,8)`. -/
theorem distance_formula_witness :
    (⟨Point.mk2 0 0, Point.mk2 4 4⟩ : Box ℝ 2).WellFormed ∧
    distance (⟨Point.mk2 0 0, Point.mk2 4 4⟩ : Box ℝ 2) (Point.mk2 7 8)
      = Real.sqrt (((List.range 2).map (fun d =>
          (max 0 (max ((⟨Point.mk2 0 0, Point.mk2 4 4⟩ : Box ℝ 2).lo.get d
            - (Point.mk2 7 8 : Point ℝ 2).get d)
            ((Point.mk2 7 8 : Point ℝ 2).get d
              - (⟨Point.mk2 0 0, Point.mk2 4 4⟩ : Box ℝ 2).hi.get d))) ^ 2)).sum) ∧
    (⟨Point.mk2 0 0, Point.mk2 4 4⟩ : Box ℝ 2).Contains
      ((⟨Point.mk2 0 0, Point.mk2 4 4⟩ : Box ℝ 2).clamp (Point.mk2 7 8)) ∧
    distance (⟨Point.mk2 0 0, Point.mk2 4 4⟩ : Box ℝ 2) (Point.mk2 7 8)
      = euclidean (Point.mk2 7 8)
          ((⟨Point.mk2 0 0, Point.mk2 4 4⟩ : Box ℝ 2).clamp (Point.mk2 7 8)) ∧
    ∀ q, (⟨Point.mk2 0 0, Point.mk2 4 4⟩ : Box ℝ 2).Contains q →
      distance (⟨Point.mk2 0 0, Point.mk2 4 4⟩ : Box ℝ 2) (Point.mk2 7 8)
        ≤ euclidean (Point.mk2 7 8) q := by
  have hwf : (⟨Point.mk2 0 0, Point.mk2 4 4⟩ : Box ℝ 2).WellFormed := by
    intro d hd
    interval_cases d <;> simp [Point.get, Point.mk2]
  exact ⟨hwf, distance_formula _ _ hwf⟩

/-! ## No false negatives in general position -/

theorem mem_calc_range_query_result_of_mem (t : Box_node α 2) (range : Box α 2) (dim : Nat)
    (res : List (Point α 2)) (x : Point α 2) (hx : x ∈ res) :
    x ∈ calc_range_query_result t range dim res := by
  rw [calc_range_query_result_eq_visits t range dim [] res]
  exact List.mem_append_left _ hx

/-- In an ordered subtree whose assigned points differ pairwise in every
coordinate, the query reaches and emits every assigned point inside the box. -/
theorem query_finds_assigned (t : Box_node α 2) (range : Box α 2) :
    ∀ (dim : Nat), dim < 2 → t.Ordered dim →
      t.assigned_points.Pairwise Distinct_coords →
      ∀ q ∈ t.assigned_points, range.Contains q →
        ∀ res, q ∈ calc_range_query_result t range dim res := by
  induction t with
  | null => intro dim _ _ _ q hq; simp [Box_node.assigned_points] at hq
  | node lo hi pt l r ihl ihr =>
    intro dim hdim hord hpair q hq hin res
    by_cases hnull : (l.isNull && r.isNull) = true
    · simp [Box_node.assigned_points, hnull] at hq
    · simp only [Box_node.assigned_points, hnull, if_false, Bool.false_eq_true] at hq hpair
      obtain ⟨hl, hr, hlo, hro⟩ := hord
      have hdim' : (dim + 1) % 2 < 2 := Nat.mod_lt _ (by norm_num)
      rw [List.pairwise_cons, List.pairwise_append] at hpair
      obtain ⟨hpt, hlp, hrp, _⟩ := hpair
      simp only [calc_range_query_result]
      rcases List.mem_cons.mp hq with rfl | hq
      · have hemit : distance_is_zero range q = true := (distance_is_zero_iff _ _).mpr hin
        simp only [hemit, if_true]
        have h1 : q ∈ res ++ [q] := by simp
        split_ifs
        · exact mem_calc_range_query_result_of_mem _ _ _ _ _
            (mem_calc_range_query_result_of_mem _ _ _ _ _ h1)
        · exact mem_calc_range_query_result_of_mem _ _ _ _ _ h1
        · exact mem_calc_range_query_result_of_mem _ _ _ _ _ h1
        · exact h1
      · rcases List.mem_append.mp hq with hq | hq
        · have hle := hl q hq
          have hne := hpt q (List.mem_append_left _ hq) dim hdim
          have hlt : range.lo.get dim < pt.get dim :=
            lt_of_le_of_lt (hin dim hdim).1 (lt_of_le_of_ne hle (Ne.symm hne))
          rw [if_pos hlt]
          have hfound := ihl _ hdim' hlo hlp q hq hin
          split_ifs <;>
            first
            | exact hfound _
            | exact mem_calc_range_query_result_of_mem _ _ _ _ _ (hfound _)
        · have hle := hr q hq
          have hne := hpt q (List.mem_append_right _ hq) dim hdim
          have hlt : range.hi.get dim > pt.get dim :=
            lt_of_lt_of_le (lt_of_le_of_ne hle hne) (hin dim hdim).2
          rw [if_pos hlt]
          exact ihr _ hdim' hro hrp q hq hin _

/-- C18: for 2-D input points that differ pairwise in both coordinates, the
constructor returns a tree on which the range query, started at the root with the
builder's starting dimension `1`, emits every input point that lies in the closed
query box. -/
theorem no_false_negatives_in_general_position
    {nth_element : (Nat → Nat → Bool) → List Nat → Nat → List Nat}
    (hspec : NthElementSpec α nth_element) (uninit : List Bool → Point α 2)
    (bounding_box range : Box α 2) (points : List (Point α 2)) (fuel : Nat)
    (hfuel : points.length ≤ fuel) (hgen : points.Pairwise Distinct_coords)
    (_hwf : range.WellFormed) :
    ∃ t, KD_tree nth_element uninit fuel bounding_box points = some t ∧
      ∀ p ∈ points, range.Contains p → p ∈ range_query t range := by
  refine ⟨_, KD_tree_eq_rec hspec uninit bounding_box points fuel hfuel, ?_⟩
  by_cases h : points = []
  · subst h
    intro p hp
    simp at hp
  · rw [KD_tree_rec_of_ne_nil _ _ _ _ h]
    have hperm := (build_rec_perm hspec uninit points (coords_table points) points.length
      points.length [] 1 (List.range points.length) bounding_box.lo bounding_box.hi
      (by simp)).2
    unfold point_at at hperm
    rw [map_point_at_range] at hperm
    have hord := (build_rec_invariants hspec uninit points points.length [] 1
      (List.range points.length) bounding_box.lo bounding_box.hi (by simp) (by norm_num)
      (fun a ha => List.mem_range.mp ha)).2
    have hsymm : ∀ a b : Point α 2, Distinct_coords a b → Distinct_coords b a :=
      fun a b hab d hd => Ne.symm (hab d hd)
    have hpair := (List.Perm.pairwise_iff (fun {a b} => hsymm a b) hperm).mpr hgen
    intro p hp hin
    exact query_finds_assigned _ range 1 (by norm_num) hord hpair p (hperm.symm.subset hp) hin []

/-- The statement on false negatives on the five example points, which differ
pairwise in both coordinates. -/
theorem no_false_negatives_in_general_position_witness :
    NthElementSpec ℚ nth_element_sort ∧ example_points.length ≤ 5 ∧
    example_points.Pairwise Distinct_coords ∧ example_query.WellFormed ∧
    ∃ t, KD_tree nth_element_sort zero_memory 5 example_box example_points = some t ∧
      ∀ p ∈ example_points, example_query.Contains p → p ∈ range_query t example_query :=
  ⟨nth_element_sort_spec, by decide, by decide!, by decide!,
    no_false_negatives_in_general_position nth_element_sort_spec zero_memory example_box
      example_query example_points 5 (by decide) (by decide!) (by decide!)⟩

/-! ## The popped tasks and the nodes with children -/

theorem popped_tasks_of_empty (nth_element : (Nat → Nat → Bool) → List Nat → Nat → List Nat)
    (uninit : List Bool → Point α DIM) (points : List (Point α DIM)) (coords : List α)
    (points_count fuel : Nat) (s : Build_state α DIM) (h : s.subdivision_stack = []) :
    popped_tasks nth_element uninit points coords points_count fuel s = [] := by
  cases fuel <;> simp [popped_tasks, h]

theorem popped_tasks_add (nth_element : (Nat → Nat → Bool) → List Nat → Nat → List Nat)
    (uninit : List Bool → Point α DIM) (points : List (Point α DIM)) (coords : List α)
    (points_count : Nat) (a b : Nat) (s : Build_state α DIM) :
    popped_tasks nth_element uninit points coords points_count (a + b) s
      = popped_tasks nth_element uninit points coords points_count a s
        ++ popped_tasks nth_element uninit points coords points_count b
            ((subdivide nth_element uninit points coords points_count)^[a] s) := by
  induction a generalizing s with
  | zero => simp [popped_tasks]
  | succ a ih =>
    have e : a + 1 + b = (a + b) + 1 := by omega
    rw [e, Function.iterate_succ_apply]
    cases hs : s.subdivision_stack with
    | nil =>
      rw [subdivide_of_empty _ _ _ _ _ s hs,
        Function.iterate_fixed (subdivide_of_empty _ _ _ _ _ s hs),
        popped_tasks_of_empty _ _ _ _ _ _ s hs, popped_tasks_of_empty _ _ _ _ _ _ s hs,
        popped_tasks_of_empty _ _ _ _ _ _ s hs]
      rfl
    | cons t rest =>
      simp only [popped_tasks, hs, ih, List.cons_append]

/-- While a task and the tasks pushed on its behalf are processed, the loop pops
exactly the tasks of the nodes that end up with children in the subtree, in the
order node, right subtree, left subtree. -/
theorem popped_tasks_iterate {nth_element : (Nat → Nat → Bool) → List Nat → Nat → List Nat}
    (hspec : NthElementSpec α nth_element)
    (uninit : List Bool → Point α DIM) (points : List (Point α DIM)) (coords : List α)
    (points_count : Nat) :
    ∀ (fuel : Nat) (path : List Bool) (dim : Nat) (slice : List Nat) (lo hi : Point α DIM)
      (pre post : List Nat) (rest : List Subdivision_task) (root : Box_node α DIM),
      slice.length ≤ fuel →
      root.get path = .node lo hi (uninit path) .null .null →
      (popped_tasks nth_element uninit points coords points_count slice.length
        ⟨pre ++ slice ++ post, root,
          push_if (decide (0 < slice.length))
            ⟨path, dim, pre.length, pre.length + slice.length - 1⟩ rest⟩).map
          (fun t => t.box_node)
        = (build_rec nth_element uninit points coords points_count fuel path dim slice
            lo hi).1.task_paths path := by
  intro fuel
  induction fuel with
  | zero =>
    intro path dim slice lo hi pre post rest root hfuel _
    have hs : slice = [] := List.length_eq_zero.mp (Nat.le_zero.mp hfuel)
    subst hs
    simp [popped_tasks, build_rec, Box_node.task_paths, Box_node.isNull]
  | succ fuel ih =>
    intro path dim slice lo hi pre post rest root hfuel hget
    cases slice with
    | nil => simp [popped_tasks, build_rec, Box_node.task_paths, Box_node.isNull]
    | cons i is =>
      have hne : i :: is ≠ [] := List.cons_ne_nil _ _
      have hpos : decide (0 < (i :: is).length) = true := by simp
      rw [hpos]
      simp only [push_if, if_true]
      have hlen1 : (i :: is).length = is.length + 1 := rfl
      rw [hlen1]
      simp only [popped_tasks, List.map_cons]
      rw [← hlen1, subdivide_task hspec uninit points coords points_count pre (i :: is) post
        rest root path dim lo hi (uninit path) .null .null hne hget]
      have hr := nth_element_length hspec points_count coords dim (i :: is)
        (((i :: is).length - 1) / 2)
      generalize hrdef : nth_element (Coord_comp points_count coords dim) (i :: is)
        (((i :: is).length - 1) / 2) = r at hr
      generalize hhalf : ((i :: is).length - 1) / 2 = half
      have hhl : half < r.length := by
        rw [hr, ← hhalf]; simp only [List.length_cons]; omega
      have hA : (r.take half).length = half := by
        rw [List.length_take]; omega
      have hB : (r.drop (half + 1)).length = is.length - half := by
        rw [List.length_drop, hr]; simp only [List.length_cons]; omega
      have hsplit : is.length = (r.drop (half + 1)).length + (r.take half).length := by
        rw [hA, hB]; rw [hr] at hhl; simp only [List.length_cons] at hhl; omega
      generalize hidx : r.getD half 0 = index
      generalize hv : coords.getD (dim * points_count + index) 0 = v
      have hrsplit : r = r.take half ++ index :: r.drop (half + 1) := by
        rw [← hidx]; exact list_split_at r half hhl
      have hnn : root.get path ≠ .null := by rw [hget]; simp
      rw [hsplit, popped_tasks_add, List.map_append]
      have hidxs : pre ++ r ++ post
          = (pre ++ r.take half ++ [index]) ++ r.drop (half + 1) ++ post := by
        conv_lhs => rw [hrsplit]
        simp [List.append_assoc]
      rw [hidxs]
      rw [push_if_congr (decide (1 < (i :: is).length - half))
        (decide (0 < (r.drop (half + 1)).length))
        ⟨path ++ [true], (dim + 1) % DIM, pre.length + half + 1,
          pre.length + (i :: is).length - 1⟩
        ⟨path ++ [true], (dim + 1) % DIM, (pre ++ r.take half ++ [index]).length,
          (pre ++ r.take half ++ [index]).length + (r.drop (half + 1)).length - 1⟩ _
        (by rw [hB]; simp only [List.length_cons]
            by_cases h : 1 < is.length + 1 - half
            · have h2 : 0 < is.length - half := by omega
              simp [h, h2]
            · have h2 : ¬ 0 < is.length - half := by omega
              simp [h, h2])
        (by intro hc
            have hc2 : 1 < (i :: is).length - half := by simpa using hc
            simp only [List.length_append, hA, hB, List.length_cons, List.length_nil]
            simp only [List.length_cons] at hc2
            congr 1
            omega)]
      have hgetR : (root.put path (.node lo hi (points.getD index Point.zero)
          (.node lo (hi.set dim v) (uninit (path ++ [false])) .null .null)
          (.node (lo.set dim v) hi (uninit (path ++ [true])) .null .null))).get (path ++ [true])
          = .node (lo.set dim v) hi (uninit (path ++ [true])) .null .null := by
        rw [Box_node.get_put_append _ _ _ _ hnn]; simp [Box_node.get]
      have hBfuel : (r.drop (half + 1)).length ≤ fuel := by
        rw [hB]; simp only [List.length_cons] at hfuel; omega
      rw [ih (path ++ [true]) ((dim + 1) % DIM) (r.drop (half + 1)) (lo.set dim v) hi
        (pre ++ r.take half ++ [index]) post _ _ hBfuel hgetR]
      rw [subdivide_iterate hspec uninit points coords points_count fuel (path ++ [true])
        ((dim + 1) % DIM) (r.drop (half + 1)) (lo.set dim v) hi
        (pre ++ r.take half ++ [index]) post _ _ hBfuel hgetR]
      rw [Box_node.put_put_append]
      generalize hR : build_rec nth_element uninit points coords points_count fuel
        (path ++ [true]) ((dim + 1) % DIM) (r.drop (half + 1)) (lo.set dim v) hi = R
      have hidxs2 : pre ++ r.take half ++ [index] ++ R.2 ++ post
          = pre ++ r.take half ++ (index :: R.2 ++ post) := by
        simp [List.append_assoc]
      rw [hidxs2]
      rw [push_if_congr (decide (0 < half)) (decide (0 < (r.take half).length))
        ⟨path ++ [false], (dim + 1) % DIM, pre.length, pre.length + half - 1⟩
        ⟨path ++ [false], (dim + 1) % DIM, pre.length,
          pre.length + (r.take half).length - 1⟩ rest
        (by rw [hA]) (by intro _; rw [hA])]
      rw [ih (path ++ [false]) ((dim + 1) % DIM) (r.take half) lo (hi.set dim v)
        pre (index :: R.2 ++ post) rest _ (by rw [hA]; omega)
        (by rw [Box_node.get_put_append _ _ _ _ hnn]; simp [Box_node.get, Box_node.put])]
      subst hR hv hidx hhalf hrdef
      simp [build_rec, Box_node.task_paths, build_rec_isNull]

/-! ## Tree shape -/

omit [LinearOrderedField α] in
theorem Box_node.task_paths_length (t : Box_node α DIM) (path : List Bool) :
    (t.task_paths path).length = t.assigned_points.length := by
  induction t generalizing path with
  | null => rfl
  | node lo hi pt l r ihl ihr =>
    simp only [Box_node.task_paths, Box_node.assigned_points]
    split_ifs
    · rfl
    · simp only [List.length_cons, List.length_append, ihl, ihr]
      omega

omit [LinearOrderedField α] in
/-- The listed positions are exactly the positions of the nodes with a child. -/
theorem Box_node.mem_task_paths (t : Box_node α DIM) (path q : List Bool) :
    path ++ q ∈ t.task_paths path ↔
      ∃ lo hi pt l r, t.get q = .node lo hi pt l r ∧ (l.isNull && r.isNull) = false := by
  have hprefix : ∀ (t : Box_node α DIM) (path p : List Bool), p ∈ t.task_paths path →
      path <+: p := by
    intro t
    induction t with
    | null => intro path p hp; simp [Box_node.task_paths] at hp
    | node lo hi pt l r ihl ihr =>
      intro path p hp
      simp only [Box_node.task_paths] at hp
      split_ifs at hp
      · simp at hp
      · rcases List.mem_cons.mp hp with rfl | hp
        · exact List.prefix_refl _
        · rcases List.mem_append.mp hp with hp | hp
          · exact List.IsPrefix.trans (List.prefix_append _ _) (ihr _ _ hp)
          · exact List.IsPrefix.trans (List.prefix_append _ _) (ihl _ _ hp)
  induction t generalizing path q with
  | null => cases q <;> simp [Box_node.task_paths, Box_node.get]
  | node lo hi pt l r ihl ihr =>
    simp only [Box_node.task_paths]
    cases q with
    | nil =>
      simp only [List.append_nil, Box_node.get]
      by_cases hnull : (l.isNull && r.isNull) = true
      · simp only [hnull, if_true, List.not_mem_nil, false_iff]
        rintro ⟨_, _, _, _, _, h, h2⟩
        injection h with _ _ _ hl hr
        subst hl hr
        rw [hnull] at h2
        exact absurd h2 (by simp)
      · simp only [hnull, if_false, Bool.false_eq_true, List.mem_cons, true_or, true_iff]
        exact ⟨lo, hi, pt, l, r, rfl, by simpa using hnull⟩
    | cons b q =>
      have hne : path ++ b :: q ≠ path := by
        intro h
        have := congrArg List.length h
        simp at this
      have e : path ++ b :: q = (path ++ [b]) ++ q := by simp
      by_cases hnull : (l.isNull && r.isNull) = true
      · simp only [hnull, if_true, List.not_mem_nil, false_iff]
        have hl : l = .null := by
          cases l with
          | null => rfl
          | node => simp [Box_node.isNull] at hnull
        have hr : r = .null := by
          cases r with
          | null => rfl
          | node => simp [Box_node.isNull] at hnull
        subst hl hr
        cases b <;> cases q <;> simp [Box_node.get]
      · simp only [hnull, if_false, Bool.false_eq_true, List.mem_cons, hne, false_or,
          List.mem_append]
        cases b
        · simp only [Box_node.get, Bool.false_eq_true, if_false]
          rw [e]
          constructor
          · rintro (h | h)
            · have hp := hprefix r _ _ h
              rw [List.append_assoc, List.prefix_append_right_inj] at hp
              simp at hp
            · exact (ihl (path ++ [false]) q).mp h
          · exact fun h => Or.inr ((ihl (path ++ [false]) q).mpr h)
        · simp only [Box_node.get, if_true]
          rw [e]
          constructor
          · rintro (h | h)
            · exact (ihr (path ++ [true]) q).mp h
            · have hp := hprefix l _ _ h
              rw [List.append_assoc, List.prefix_append_right_inj] at hp
              simp at hp
          · exact fun h => Or.inl ((ihr (path ++ [true]) q).mpr h)

/-- The shape of the subtree built for a range depends on the length of the range
only. -/
theorem build_rec_same_shape
    {nth_element nth_element' : (Nat → Nat → Bool) → List Nat → Nat → List Nat}
    (hspec : NthElementSpec α nth_element) (hspec' : NthElementSpec α nth_element')
    (uninit uninit' : List Bool → Point α DIM) (points points' : List (Point α DIM))
    (coords coords' : List α) (points_count points_count' : Nat) :
    ∀ (fuel : Nat) (path path' : List Bool) (dim dim' : Nat) (slice slice' : List Nat)
      (lo hi lo' hi' : Point α DIM),
      slice.length = slice'.length → slice.length ≤ fuel →
      (build_rec nth_element uninit points coords points_count fuel path dim slice
        lo hi).1.Same_shape
      (build_rec nth_element' uninit' points' coords' points_count' fuel path' dim' slice'
        lo' hi').1 := by
  intro fuel
  induction fuel with
  | zero =>
    intro path path' dim dim' slice slice' lo hi lo' hi' _ _
    simp [build_rec, Box_node.Same_shape]
  | succ fuel ih =>
    intro path path' dim dim' slice slice' lo hi lo' hi' hlen hfuel
    cases slice with
    | nil =>
      have : slice' = [] := List.length_eq_zero.mp hlen.symm
      subst this
      simp [build_rec, Box_node.Same_shape]
    | cons i is =>
      cases slice' with
      | nil => simp at hlen
      | cons j js =>
        simp only [build_rec]
        obtain ⟨hA, hB, _, _, _⟩ := selection_split hspec points_count coords dim i is _ rfl
        obtain ⟨hA', hB', _, _, _⟩ :=
          selection_split hspec' points_count' coords' dim' j js _ rfl
        simp only [List.length_cons] at hlen hfuel
        have hlen' : is.length = js.length := by omega
        exact ⟨ih _ _ _ _ _ _ _ _ _ _ (by rw [hA, hA', hlen']) (by omega),
          ih _ _ _ _ _ _ _ _ _ _ (by rw [hB, hB', hlen']) (by omega)⟩

/-- C17: for `n ≥ 1` points the constructor returns a tree in which every node has
zero or two children; the nodes with children are exactly the nodes of the popped
tasks, there are `n` of them and their points are, as a multiset, the input points;
`n + 1` nodes are childless, and no task is ever popped for a childless node; and
any other input of `n` points, with any admissible selection and memory content,
gives a tree of the same shape. -/
theorem tree_shape {nth_element : (Nat → Nat → Bool) → List Nat → Nat → List Nat}
    (hspec : NthElementSpec α nth_element) (uninit : List Bool → Point α DIM)
    (bounding_box : Box α DIM) (points : List (Point α DIM)) (fuel : Nat)
    (hfuel : points.length ≤ fuel) (hn : 1 ≤ points.length) :
    ∃ t, KD_tree nth_element uninit fuel bounding_box points = some t ∧
      t.Zero_or_two ∧
      (∀ q, q ∈ t.task_paths [] ↔
        ∃ lo hi pt l r, t.get q = .node lo hi pt l r ∧ (l.isNull && r.isNull) = false) ∧
      (popped_tasks nth_element uninit points (coords_table points) points.length fuel
        (initial_state uninit bounding_box points)).map (fun task => task.box_node)
        = t.task_paths [] ∧
      (t.task_paths []).length = points.length ∧
      t.assigned_points.Perm points ∧
      t.childless = points.length + 1 ∧
      t.size = 2 * points.length + 1 ∧
      (∀ (nth_element' : (Nat → Nat → Bool) → List Nat → Nat → List Nat)
        (uninit' : List Bool → Point α DIM) (bounding_box' : Box α DIM)
        (points' : List (Point α DIM)),
        NthElementSpec α nth_element' → points'.length = points.length →
        ∃ t', KD_tree nth_element' uninit' fuel bounding_box' points' = some t' ∧
          t.Same_shape t') := by
  have hne : points ≠ [] := by
    intro h; rw [h] at hn; simp at hn
  refine ⟨_, KD_tree_eq_rec hspec uninit bounding_box points fuel hfuel, ?_⟩
  rw [KD_tree_rec_of_ne_nil _ _ _ _ hne]
  have hshape := build_rec_shape hspec uninit points (coords_table points) points.length
    points.length [] 1 (List.range points.length) bounding_box.lo bounding_box.hi (by simp)
  have hperm := (build_rec_perm hspec uninit points (coords_table points) points.length
    points.length [] 1 (List.range points.length) bounding_box.lo bounding_box.hi
    (by simp)).2
  unfold point_at at hperm
  rw [map_point_at_range] at hperm
  simp only [List.length_range] at hshape
  refine ⟨hshape.2.2.1, ?_, ?_, ?_, hperm, hshape.2.1, hshape.1, ?_⟩
  · intro q
    have := Box_node.mem_task_paths (build_rec nth_element uninit points (coords_table points)
      points.length points.length [] 1 (List.range points.length) bounding_box.lo
      bounding_box.hi).1 [] q
    rwa [List.nil_append] at this
  · obtain ⟨f, rfl⟩ := Nat.exists_eq_add_of_le hfuel
    rw [popped_tasks_add]
    have hpos : 0 < points.length := hn
    have hget : (Box_node.node bounding_box.lo bounding_box.hi (uninit []) .null .null
        : Box_node α DIM).get [] = .node bounding_box.lo bounding_box.hi (uninit []) .null
          .null := by
      simp [Box_node.get]
    have h1 := popped_tasks_iterate hspec uninit points (coords_table points) points.length
      points.length [] 1 (List.range points.length) bounding_box.lo bounding_box.hi [] [] []
      _ (by simp) hget
    have h2 := subdivide_iterate hspec uninit points (coords_table points) points.length
      points.length [] 1 (List.range points.length) bounding_box.lo bounding_box.hi [] [] []
      _ (by simp) hget
    simp only [List.length_range, List.nil_append, List.append_nil, List.length_nil,
      Nat.zero_add, hpos, decide_True, push_if, if_true] at h1 h2
    unfold initial_state
    rw [h2, popped_tasks_of_empty _ _ _ _ _ f _ rfl, List.append_nil]
    exact h1
  · rw [Box_node.task_paths_length, hperm.length_eq]
  · intro nth_element' uninit' bounding_box' points' hspec' hlen
    have hne' : points' ≠ [] := by
      intro h; rw [h] at hlen; simp at hlen; omega
    refine ⟨_, KD_tree_eq_rec hspec' uninit' bounding_box' points' fuel (by omega), ?_⟩
    rw [KD_tree_rec_of_ne_nil _ _ _ _ hne', hlen]
    exact build_rec_same_shape hspec hspec' uninit uninit' points points'
      (coords_table points) (coords_table points') points.length points.length points.length
      [] [] 1 1 (List.range points.length) (List.range points.length) bounding_box.lo
      bounding_box.hi bounding_box'.lo bounding_box'.hi rfl (by simp)

/-- The shape statement on the five example points: eleven nodes, six childless. -/
theorem tree_shape_witness :
    NthElementSpec ℚ nth_element_sort ∧
    example_points.length ≤ 5 ∧
    1 ≤ example_points.length ∧
    ∃ t, KD_tree nth_element_sort zero_memory 5 example_box example_points = some t ∧
      t.Zero_or_two ∧
      (∀ q, q ∈ t.task_paths [] ↔
        ∃ lo hi pt l r, t.get q = .node lo hi pt l r ∧ (l.isNull && r.isNull) = false) ∧
      (popped_tasks nth_element_sort zero_memory example_points (coords_table example_points) example_points.length 5
        (initial_state zero_memory example_box example_points)).map (fun task => task.box_node)
        = t.task_paths [] ∧
      (t.task_paths []).length = example_points.length ∧
      t.assigned_points.Perm example_points ∧
      t.childless = example_points.length + 1 ∧
      t.size = 2 * example_points.length + 1 ∧
      (∀ (nth_element' : (Nat → Nat → Bool) → List Nat → Nat → List Nat)
        (uninit' : List Bool → Point ℚ 2) (bounding_box' : Box ℚ 2)
        (points' : List (Point ℚ 2)),
        NthElementSpec ℚ nth_element' → points'.length = example_points.length →
        ∃ t', KD_tree nth_element' uninit' 5 bounding_box' points' = some t' ∧
          t.Same_shape t') :=
  ⟨nth_element_sort_spec, by decide, by decide,
    tree_shape nth_element_sort_spec zero_memory example_box example_points 5 (by decide)
      (by decide)⟩

end KdTree
